import Mathlib

/-!
# Text-input calculator: lexer and recursive-descent evaluator

A shallow embedding of `src/main.c`.

* The input buffer is a `List Char`; reading at or past its end yields the
  terminating NUL, exactly like the C string it stands for.
* `double` and the `libm`/`libc` routines the program calls (`strtod`, `pow`,
  `sin`, ...) are not part of the repository: they are the fields of an
  `Arith α` record and every general theorem holds for all of them.
* `size_t` cursors are natural numbers (they index an in-memory buffer);
  the `unsigned` fields `start`/`end` of a token are reduced modulo `2^32`.
* The lexer loops are bounded by the number of characters left, so the lexer
  is a total function.  The mutually recursive `parse_*` functions carry a
  recursion budget and return `none` when it runs out; `fuelFor` is a budget
  that is proved to be always sufficient.
* Examples are evaluated in `Dbl`, a model of the part of IEEE double
  arithmetic whose results are exact.
-/

namespace Calc

/-! ## Data model -/

/-- The enumeration `enum TokenType` of the source (without `MaxTokens`). -/
inductive TokenType
  | TokenInvalid
  | TokenName
  | TokenNum
  | TokenPlus
  | TokenMinus
  | TokenStar
  | TokenSlash
  | TokenCarot
  | TokenLParen
  | TokenRParen
  | TokenLBracket
  | TokenRBracket
  deriving DecidableEq, Repr

open TokenType

/-- The record `struct Token`; the field `end` of the source is `end_`. -/
structure Token (α : Type) where
  value : α
  num_chars : Nat
  type : TokenType
  start : Nat
  end_ : Nat
  deriving DecidableEq, Repr

/-- The record `struct Lexer`. -/
structure Lexer (α : Type) where
  curr_token : Token α
  input : List Char
  input_len : Nat
  pos : Nat
  deriving DecidableEq, Repr

/-- The `double` arithmetic and the C library routines used by the program. -/
structure Arith (α : Type) where
  /-- The value `0.0` stored by `(struct Token){0}`. -/
  zero : α
  /-- The routine `strtod(p, NULL)`, applied to the text starting at `p`. -/
  strtod : List Char → α
  add : α → α → α
  sub : α → α → α
  mul : α → α → α
  div : α → α → α
  pow : α → α → α
  neg : α → α
  sin : α → α
  log : α → α
  cos : α → α
  tan : α → α
  asin : α → α
  acos : α → α
  atan : α → α
  log10 : α → α
  log2 : α → α
  M_PI : α
  M_E : α
  INFINITY : α

/-- The terminating NUL character. -/
def NUL : Char := Char.ofNat 0

/-- The C expression `input[pos]`: past the end of the text sits the NUL. -/
def charAt (input : List Char) (pos : Nat) : Char := input.getD pos NUL

/-- The routine `isalnum` in the C locale. -/
def isalnum (c : Char) : Bool := c.isAlphanum

/-- The routine `isalpha` in the C locale. -/
def isalpha (c : Char) : Bool := c.isAlpha

/-- The width of the `unsigned` fields of a token. -/
def UNSIGNED_MOD : Nat := 2 ^ 32

/-- The compound literal `(struct Token){0}`. -/
def Token.zeroed {α : Type} (A : Arith α) : Token α :=
  { value := A.zero, num_chars := 0, type := TokenInvalid, start := 0, end_ := 0 }

/-! ## Lexer -/

/-- The `while` loop of `lex_decimal`: the result is the return flag of an
early `return false` (or `true` when the loop ends) and the cursor.  The
first argument bounds the iterations by the characters left. -/
def lex_decimal_loop (input : List Char) : Nat → Bool → Nat → Bool × Nat
  | 0, _, pos => (true, pos)
  | fuel + 1, has_dot, pos =>
    let c := charAt input pos
    if c ≠ NUL ∧ (isalnum c = true ∨ c = '.') then
      if c.isDigit = true then
        lex_decimal_loop input fuel has_dot (pos + 1)
      else if c = '.' then
        if has_dot = true then (false, pos)
        else lex_decimal_loop input fuel true (pos + 1)
      else (false, pos + 1)
    else (true, pos)

/-- The function `lex_decimal`. -/
def lex_decimal {α : Type} (A : Arith α) (lexer : Lexer α) : Bool × Lexer α :=
  let old_pos := lexer.pos
  match lex_decimal_loop lexer.input (lexer.input.length - lexer.pos) false lexer.pos with
  | (false, pos) => (false, { lexer with pos := pos })
  | (true, pos) =>
    (true, { lexer with
      pos := pos
      curr_token :=
        { type := TokenNum
          value := A.strtod (lexer.input.drop old_pos)
          num_chars := pos - old_pos
          start := old_pos % UNSIGNED_MOD
          end_ := pos % UNSIGNED_MOD } })

/-- The `while` loop of `lex_identifier`: the cursor after the letters. -/
def lex_identifier_loop (input : List Char) : Nat → Nat → Nat
  | 0, pos => pos
  | fuel + 1, pos =>
    let c := charAt input pos
    if c ≠ NUL ∧ isalpha c = true then lex_identifier_loop input fuel (pos + 1)
    else pos

/-- The function `lex_identifier`. -/
def lex_identifier {α : Type} (lexer : Lexer α) : Bool × Lexer α :=
  let old_pos := lexer.pos
  let pos := lex_identifier_loop lexer.input (lexer.input.length - lexer.pos) lexer.pos
  (true, { lexer with
    pos := pos
    curr_token :=
      { lexer.curr_token with
        type := TokenName
        num_chars := pos - old_pos
        start := old_pos % UNSIGNED_MOD
        end_ := pos % UNSIGNED_MOD } })

/-- The token kind of a one-character operator or delimiter. -/
def single_char_type (c : Char) : Option TokenType :=
  if c = '+' then some TokenPlus
  else if c = '-' then some TokenMinus
  else if c = '*' then some TokenStar
  else if c = '/' then some TokenSlash
  else if c = '^' then some TokenCarot
  else if c = '(' then some TokenLParen
  else if c = ')' then some TokenRParen
  else if c = '[' then some TokenLBracket
  else if c = ']' then some TokenRBracket
  else none

/-- The six characters skipped by `lexer_get_token`:
space, tab, newline, carriage return, bell and vertical tab. -/
def is_space (c : Char) : Bool :=
  c = ' ' ∨ c = '\t' ∨ c = '\n' ∨ c = '\r' ∨ c = Char.ofNat 7 ∨ c = Char.ofNat 11

/-- The `while` loop of `lexer_get_token`, entered after the current token
has been reset.  The first argument bounds the iterations by the characters
left. -/
def lexer_get_token_loop {α : Type} (A : Arith α) : Nat → Lexer α → Bool × Lexer α
  | 0, lexer => (false, lexer)
  | fuel + 1, lexer =>
    let c := charAt lexer.input lexer.pos
    if c ≠ NUL then
      if is_space c = true then
        lexer_get_token_loop A fuel { lexer with pos := lexer.pos + 1 }
      else
        match single_char_type c with
        | some tt =>
          (true, { lexer with
            curr_token := { lexer.curr_token with type := tt }
            pos := lexer.pos + 1 })
        | none =>
          if c.isDigit = true ∨ c = '.' then lex_decimal A lexer
          else if isalpha c = true then (true, (lex_identifier lexer).2)
          else (false, lexer)
    else (false, lexer)

/-- The function `lexer_get_token`. -/
def lexer_get_token {α : Type} (A : Arith α) (lexer : Lexer α) : Bool × Lexer α :=
  let lexer := { lexer with curr_token := Token.zeroed A }
  lexer_get_token_loop A (lexer.input.length - lexer.pos) lexer

/-- The lexer state after a call of `lexer_get_token` whose return value the
caller ignores, as every call in the parser does. -/
def advance {α : Type} (A : Arith α) (lexer : Lexer α) : Lexer α :=
  (lexer_get_token A lexer).2

/-! ## Parser and evaluator -/

/-- The routine `strncmp(s1, s2, n)` on NUL-terminated texts. -/
def strncmp (s1 s2 : List Char) : Nat → Int
  | 0 => 0
  | n + 1 =>
    let c1 := s1.headD NUL
    let c2 := s2.headD NUL
    if c1 ≠ c2 then (c1.toNat : Int) - (c2.toNat : Int)
    else if c1 = NUL then 0
    else strncmp s1.tail s2.tail n

/-- The entries of the name table tested in `parse_term`, in the order of
the `if`/`else if` chain. -/
inductive Entry
  | pi
  | e
  | sin
  | ln
  | cos
  | tan
  | arcsin
  | arccos
  | arctan
  | log
  | lb
  | myfunchere
  deriving DecidableEq, Repr

/-- The string literal an entry is compared with. -/
def Entry.text : Entry → List Char
  | .pi => "pi".toList
  | .e => "e".toList
  | .sin => "sin".toList
  | .ln => "ln".toList
  | .cos => "cos".toList
  | .tan => "tan".toList
  | .arcsin => "arcsin".toList
  | .arccos => "arccos".toList
  | .arctan => "arctan".toList
  | .log => "log".toList
  | .lb => "lb".toList
  | .myfunchere => "myfunchere".toList

/-- The chain `if( !strncmp(name, "pi", n) ) ... else if( !strncmp(name, "e", n) ) ...`
of `parse_term`: the first entry whose comparison yields zero. -/
def table_lookup (name : List Char) (num_chars : Nat) : Option Entry :=
  if strncmp name "pi".toList num_chars = 0 then some Entry.pi
  else if strncmp name "e".toList num_chars = 0 then some Entry.e
  else if strncmp name "sin".toList num_chars = 0 then some Entry.sin
  else if strncmp name "ln".toList num_chars = 0 then some Entry.ln
  else if strncmp name "cos".toList num_chars = 0 then some Entry.cos
  else if strncmp name "tan".toList num_chars = 0 then some Entry.tan
  else if strncmp name "arcsin".toList num_chars = 0 then some Entry.arcsin
  else if strncmp name "arccos".toList num_chars = 0 then some Entry.arccos
  else if strncmp name "arctan".toList num_chars = 0 then some Entry.arctan
  else if strncmp name "log".toList num_chars = 0 then some Entry.log
  else if strncmp name "lb".toList num_chars = 0 then some Entry.lb
  else if strncmp name "myfunchere".toList num_chars = 0 then some Entry.myfunchere
  else none

/-- The library function a table entry applies to its argument (`myfunchere`
returns its parameter; `pi` and `e` take no argument). -/
def Arith.call {α : Type} (A : Arith α) : Entry → α → α
  | .pi => id
  | .e => id
  | .sin => A.sin
  | .ln => A.log
  | .cos => A.cos
  | .tan => A.tan
  | .arcsin => A.asin
  | .arccos => A.acos
  | .arctan => A.atan
  | .log => A.log10
  | .lb => A.log2
  | .myfunchere => id

/-- The argument of a named function in `parse_term`:
`has_parens ? parse_term(lexer) : parse_pow(lexer)`. -/
def fun_arg {α : Type} (has_parens : Bool)
    (term pow : Lexer α → Option (α × Lexer α)) (lexer : Lexer α) :
    Option (α × Lexer α) :=
  if has_parens = true then term lexer else pow lexer

/-- Applies a unary function to a parsed value. -/
def map_val {α : Type} (f : α → α) : Option (α × Lexer α) → Option (α × Lexer α)
  | none => none
  | some (v, lexer) => some (f v, lexer)

/-- The end of the delimiter case of `parse_term`, after `parse_expr` has
returned: the closing token is consumed when it has the expected kind,
otherwise the function leaves the `switch` and returns `INFINITY`. -/
def close_delim {α : Type} (A : Arith α) (end_type : TokenType) :
    Option (α × Lexer α) → Option (α × Lexer α)
  | none => none
  | some (result, lexer) =>
    if lexer.curr_token.type = end_type then some (result, advance A lexer)
    else some (A.INFINITY, lexer)

mutual

/-- The function `parse_expr`. -/
def parse_expr {α : Type} (A : Arith α) : Nat → Lexer α → Option (α × Lexer α)
  | 0, _ => none
  | fuel + 1, lexer => parse_add A fuel lexer

/-- The function `parse_add`. -/
def parse_add {α : Type} (A : Arith α) : Nat → Lexer α → Option (α × Lexer α)
  | 0, _ => none
  | fuel + 1, lexer =>
    match parse_mul A fuel lexer with
    | none => none
    | some (result, lexer) => parse_add_loop A fuel result lexer

/-- The `while` loop of `parse_add`. -/
def parse_add_loop {α : Type} (A : Arith α) : Nat → α → Lexer α → Option (α × Lexer α)
  | 0, _, _ => none
  | fuel + 1, result, lexer =>
    if lexer.curr_token.type = TokenPlus ∨ lexer.curr_token.type = TokenMinus then
      let tt := lexer.curr_token.type
      let lexer := advance A lexer
      match tt with
      | TokenPlus =>
        match parse_mul A fuel lexer with
        | none => none
        | some (v, lexer) => parse_add_loop A fuel (A.add result v) lexer
      | TokenMinus =>
        match parse_mul A fuel lexer with
        | none => none
        | some (v, lexer) => parse_add_loop A fuel (A.sub result v) lexer
      | _ => parse_add_loop A fuel result lexer
    else some (result, lexer)

/-- The function `parse_mul`. -/
def parse_mul {α : Type} (A : Arith α) : Nat → Lexer α → Option (α × Lexer α)
  | 0, _ => none
  | fuel + 1, lexer =>
    match parse_pow A fuel lexer with
    | none => none
    | some (result, lexer) => parse_mul_loop A fuel result lexer

/-- The `while` loop of `parse_mul`. -/
def parse_mul_loop {α : Type} (A : Arith α) : Nat → α → Lexer α → Option (α × Lexer α)
  | 0, _, _ => none
  | fuel + 1, result, lexer =>
    if lexer.curr_token.type = TokenStar ∨ lexer.curr_token.type = TokenSlash then
      let tt := lexer.curr_token.type
      let lexer := advance A lexer
      match tt with
      | TokenStar =>
        match parse_pow A fuel lexer with
        | none => none
        | some (v, lexer) => parse_mul_loop A fuel (A.mul result v) lexer
      | TokenSlash =>
        match parse_pow A fuel lexer with
        | none => none
        | some (v, lexer) => parse_mul_loop A fuel (A.div result v) lexer
      | _ => parse_mul_loop A fuel result lexer
    else some (result, lexer)

/-- The function `parse_pow`. -/
def parse_pow {α : Type} (A : Arith α) : Nat → Lexer α → Option (α × Lexer α)
  | 0, _ => none
  | fuel + 1, lexer =>
    match parse_unary A fuel lexer with
    | none => none
    | some (result, lexer) => parse_pow_loop A fuel result lexer

/-- The `while` loop of `parse_pow`. -/
def parse_pow_loop {α : Type} (A : Arith α) : Nat → α → Lexer α → Option (α × Lexer α)
  | 0, _, _ => none
  | fuel + 1, result, lexer =>
    if lexer.curr_token.type = TokenCarot then
      let lexer := advance A lexer
      match parse_unary A fuel lexer with
      | none => none
      | some (v, lexer) => parse_pow_loop A fuel (A.pow result v) lexer
    else some (result, lexer)

/-- The function `parse_unary`. -/
def parse_unary {α : Type} (A : Arith α) : Nat → Lexer α → Option (α × Lexer α)
  | 0, _ => none
  | fuel + 1, lexer =>
    if lexer.curr_token.type = TokenMinus then
      let lexer := advance A lexer
      map_val A.neg (parse_unary A fuel lexer)
    else parse_term A fuel lexer

/-- The function `parse_term`.  A `Name` token that matches no entry of the
table falls through into the delimiter case, as in the source. -/
def parse_term {α : Type} (A : Arith α) : Nat → Lexer α → Option (α × Lexer α)
  | 0, _ => none
  | fuel + 1, lexer0 =>
    let token := lexer0.curr_token
    let lexer := advance A lexer0
    let end_type := if token.type = TokenLParen then TokenRParen else TokenRBracket
    match token.type with
    | TokenNum => some (token.value, lexer)
    | TokenName =>
      let has_parens : Bool :=
        lexer.curr_token.type = TokenLParen ∨ lexer.curr_token.type = TokenLBracket
      let name := lexer.input.drop token.start
      match table_lookup name token.num_chars with
      | some Entry.pi => some (A.M_PI, lexer)
      | some Entry.e => some (A.M_E, lexer)
      | some f =>
        map_val (A.call f) (fun_arg has_parens (parse_term A fuel) (parse_pow A fuel) lexer)
      | none => close_delim A end_type (parse_expr A fuel lexer)
    | TokenLParen => close_delim A end_type (parse_expr A fuel lexer)
    | TokenLBracket => close_delim A end_type (parse_expr A fuel lexer)
    | _ => some (A.INFINITY, lexer)

end

/-- A fresh lexer over a line of text, as `main` builds it: every field not
named in the initialiser is zero, and `input_len` is the length the line had
before its newline was cut off. -/
def Lexer.init {α : Type} (A : Arith α) (line : List Char) : Lexer α :=
  { curr_token := Token.zeroed A, input := line, input_len := line.length + 1, pos := 0 }

/-- The lexer state `main` hands to `parse_expr`: a fresh lexer primed with
one call of `lexer_get_token`. -/
def primed {α : Type} (A : Arith α) (line : List Char) : Lexer α :=
  advance A (Lexer.init A line)

/-- The termination measure of the parser: twice the number of characters
left, plus one while the current token is not `TokenInvalid`. -/
def lexMeasure {α : Type} (lexer : Lexer α) : Nat :=
  2 * (lexer.input.length - lexer.pos) +
    (if lexer.curr_token.type = TokenInvalid then 0 else 1)

/-- A recursion budget that suffices for `parse_expr` on the given state. -/
def fuelFor {α : Type} (lexer : Lexer α) : Nat := 6 * lexMeasure lexer + 6

/-- The evaluation `main` performs on one line of text: prime the lexer, then
call `parse_expr`. -/
def evaluate {α : Type} (A : Arith α) (line : List Char) : Option (α × Lexer α) :=
  parse_expr A (fuelFor (primed A line)) (primed A line)

/-- The number computed for one line of text. -/
def evalValue {α : Type} (A : Arith α) (line : List Char) : Option α :=
  (evaluate A line).map Prod.fst

/-! ## A concrete arithmetic for evaluating examples -/

/-- Modelled from the spec: the `double` values of "strictly IEEE
double-precision semantics", restricted to the part on which the program's
arithmetic is exact.  `int z` is the double whose value is the integer `z`
(of magnitude at most `2^53`; both zeros are `int 0`), `pinf`, `ninf` and
`nan` are the two infinities and NaN, and `other` is a double this model does
not track: an operation answers `other` whenever its exact result is not one
of the tracked values or is not determined by the tracked information. -/
inductive Dbl
  | int (z : Int)
  | pinf
  | ninf
  | nan
  | other
  deriving DecidableEq, Repr

namespace Dbl

/-- An integer result, kept when a double represents it exactly. -/
def norm (z : Int) : Dbl := if z.natAbs ≤ 2 ^ 53 then int z else other

/-- The infinity with the sign of `z`, for `z ≠ 0`. -/
def infOfSign (z : Int) : Dbl := if 0 < z then pinf else ninf

/-- IEEE negation. -/
def neg : Dbl → Dbl
  | int z => int (-z)
  | pinf => ninf
  | ninf => pinf
  | nan => nan
  | other => other

/-- IEEE addition. -/
def add : Dbl → Dbl → Dbl
  | nan, _ => nan
  | _, nan => nan
  | other, _ => other
  | _, other => other
  | int a, int b => norm (a + b)
  | int _, pinf => pinf
  | int _, ninf => ninf
  | pinf, int _ => pinf
  | ninf, int _ => ninf
  | pinf, pinf => pinf
  | ninf, ninf => ninf
  | pinf, ninf => nan
  | ninf, pinf => nan

/-- IEEE subtraction. -/
def sub (x y : Dbl) : Dbl := add x (neg y)

/-- IEEE multiplication. -/
def mul : Dbl → Dbl → Dbl
  | nan, _ => nan
  | _, nan => nan
  | other, _ => other
  | _, other => other
  | int a, int b => norm (a * b)
  | int a, pinf => if a = 0 then nan else infOfSign a
  | int a, ninf => if a = 0 then nan else infOfSign (-a)
  | pinf, int b => if b = 0 then nan else infOfSign b
  | ninf, int b => if b = 0 then nan else infOfSign (-b)
  | pinf, pinf => pinf
  | ninf, ninf => pinf
  | pinf, ninf => ninf
  | ninf, pinf => ninf

/-- IEEE division.  The sign of a zero is not tracked, so a division of a
non-zero value by zero is `other`. -/
def div : Dbl → Dbl → Dbl
  | nan, _ => nan
  | _, nan => nan
  | other, _ => other
  | _, other => other
  | int a, int b =>
    if b = 0 then (if a = 0 then nan else other)
    else if a % b = 0 then norm (a / b) else other
  | int _, pinf => int 0
  | int _, ninf => int 0
  | pinf, int b => if b = 0 then other else infOfSign b
  | ninf, int b => if b = 0 then other else infOfSign (-b)
  | pinf, pinf => nan
  | ninf, ninf => nan
  | pinf, ninf => nan
  | ninf, pinf => nan

/-- The routine `pow` (C99 Annex F for the special values; an exactly
representable integer power is returned exactly). -/
def pow : Dbl → Dbl → Dbl
  | _, int 0 => int 1
  | int 1, _ => int 1
  | nan, _ => nan
  | _, nan => nan
  | other, _ => other
  | _, other => other
  | int a, int b => if 0 < b then norm (a ^ b.toNat) else other
  | int a, pinf => if 1 < a.natAbs then pinf else if a = 0 then int 0 else int 1
  | int a, ninf => if 1 < a.natAbs then int 0 else if a = 0 then pinf else int 1
  | pinf, int b => if 0 < b then pinf else int 0
  | ninf, int b => if 0 < b then (if b % 2 = 0 then pinf else ninf) else int 0
  | pinf, pinf => pinf
  | ninf, pinf => pinf
  | pinf, ninf => int 0
  | ninf, ninf => int 0

/-- The exponent `k` with `b ^ k = n`, when there is one (searched with a
bounded number of divisions). -/
def exactLog (b : Nat) : Nat → Nat → Option Nat
  | 0, _ => none
  | fuel + 1, n =>
    if n = 1 then some 0
    else if n ≠ 0 ∧ n % b = 0 then (exactLog b fuel (n / b)).map (· + 1)
    else none

/-- A logarithm to the base `b`, exact on the powers of `b`. -/
def logBase (b : Nat) : Dbl → Dbl
  | int z =>
    if z < 0 then nan
    else if z = 0 then ninf
    else match exactLog b 64 z.toNat with
      | some k => int k
      | none => other
  | pinf => pinf
  | ninf => nan
  | nan => nan
  | other => other

/-- The routine `log` (natural logarithm): only `log 1 = 0` is exact. -/
def log : Dbl → Dbl
  | int z => if z < 0 then nan else if z = 0 then ninf else if z = 1 then int 0 else other
  | pinf => pinf
  | ninf => nan
  | nan => nan
  | other => other

/-- The routines `sin` and `tan`: exact at zero, NaN at the infinities. -/
def sinLike : Dbl → Dbl
  | int z => if z = 0 then int 0 else other
  | pinf => nan
  | ninf => nan
  | nan => nan
  | other => other

/-- The routine `cos`. -/
def cos : Dbl → Dbl
  | int z => if z = 0 then int 1 else other
  | pinf => nan
  | ninf => nan
  | nan => nan
  | other => other

/-- The routine `asin`. -/
def asin : Dbl → Dbl
  | int z => if z = 0 then int 0 else if 1 < z.natAbs then nan else other
  | pinf => nan
  | ninf => nan
  | nan => nan
  | other => other

/-- The routine `acos`. -/
def acos : Dbl → Dbl
  | int z => if z = 1 then int 0 else if 1 < z.natAbs then nan else other
  | pinf => nan
  | ninf => nan
  | nan => nan
  | other => other

/-- The routine `atan`. -/
def atan : Dbl → Dbl
  | int z => if z = 0 then int 0 else other
  | nan => nan
  | _ => other

/-- The value of a run of decimal digits. -/
def digitsValue (ds : List Char) : Nat :=
  ds.foldl (fun acc c => 10 * acc + (c.toNat - '0'.toNat)) 0

/-- Modelled from the spec: "the standard decimal-text-to-float conversion
(leading-substring semantics)" on a text that starts with a digit or a dot,
which is how `lex_decimal` calls it: the digits, an optional dot and more
digits are converted, and a text without any digit converts to zero.  Any
other text, a fraction with a non-zero digit, and a text that goes on with an
exponent or hexadecimal marker leave the tracked values. -/
def strtod (s : List Char) : Dbl :=
  let ip := s.takeWhile Char.isDigit
  let r := s.dropWhile Char.isDigit
  let fp := if r.headD NUL = '.' then r.tail.takeWhile Char.isDigit else []
  let r2 := if r.headD NUL = '.' then r.tail.dropWhile Char.isDigit else r
  if ip = [] ∧ r.headD NUL ≠ '.' then other
  else if ip = [] ∧ fp = [] then int 0
  else if r2.headD NUL = 'e' ∨ r2.headD NUL = 'E' ∨ r2.headD NUL = 'x' ∨ r2.headD NUL = 'X' then
    other
  else if fp.all (· = '0') = true then norm (digitsValue ip)
  else other

/-- The arithmetic record of the model. -/
def arith : Arith Dbl where
  zero := int 0
  strtod := strtod
  add := add
  sub := sub
  mul := mul
  div := div
  pow := pow
  neg := neg
  sin := sinLike
  log := log
  cos := cos
  tan := sinLike
  asin := asin
  acos := acos
  atan := atan
  log10 := logBase 10
  log2 := logBase 2
  M_PI := other
  M_E := other
  INFINITY := pinf

end Dbl

/-! ## Notions used in the proofs -/

/-- The facts about one run of the token loop that the parser proofs use. -/
structure LoopSpec {α : Type} (lx : Lexer α) (r : Bool × Lexer α) : Prop where
  input_eq : r.2.input = lx.input
  input_len_eq : r.2.input_len = lx.input_len
  pos_le : lx.pos ≤ r.2.pos
  pos_bound : r.2.pos ≤ lx.input.length ∨ r.2.pos = lx.pos
  ok_advances : r.1 = true → lx.pos < r.2.pos
  ok_type : r.1 = true → r.2.curr_token.type ≠ TokenInvalid
  fail_token : r.1 = false → r.2.curr_token = lx.curr_token

/-- The way `parse_term` continues once the name table has been consulted. -/
def name_case {α : Type} (A : Arith α) (n : Nat) (lx : Lexer α) :
    Option Entry → Option (α × Lexer α)
  | some Entry.pi => some (A.M_PI, lx)
  | some Entry.e => some (A.M_E, lx)
  | some f =>
    map_val (A.call f)
      (fun_arg (decide (lx.curr_token.type = TokenLParen ∨ lx.curr_token.type = TokenLBracket))
        (parse_term A n) (parse_pow A n) lx)
  | none => close_delim A TokenRBracket (parse_expr A n lx)

/-- Results of the parser at budget `n` persist at budget `n + 1`. -/
structure FuelMono {α : Type} (A : Arith α) (n : Nat) : Prop where
  expr : ∀ lx r, parse_expr A n lx = some r → parse_expr A (n + 1) lx = some r
  add : ∀ lx r, parse_add A n lx = some r → parse_add A (n + 1) lx = some r
  add_loop : ∀ v lx r, parse_add_loop A n v lx = some r → parse_add_loop A (n + 1) v lx = some r
  mul : ∀ lx r, parse_mul A n lx = some r → parse_mul A (n + 1) lx = some r
  mul_loop : ∀ v lx r, parse_mul_loop A n v lx = some r → parse_mul_loop A (n + 1) v lx = some r
  pow : ∀ lx r, parse_pow A n lx = some r → parse_pow A (n + 1) lx = some r
  pow_loop : ∀ v lx r, parse_pow_loop A n v lx = some r → parse_pow_loop A (n + 1) v lx = some r
  unary : ∀ lx r, parse_unary A n lx = some r → parse_unary A (n + 1) lx = some r
  term : ∀ lx r, parse_term A n lx = some r → parse_term A (n + 1) lx = some r

/-- A call returned, in a state whose measure is at most `bound`. -/
def Halts {α : Type} (o : Option (α × Lexer α)) (bound : Nat) : Prop :=
  ∃ v lx, o = some (v, lx) ∧ lexMeasure lx ≤ bound

/-- Every parser function returns on states of measure at most `m`, given
the stated budget, and does not increase the measure. -/
structure Total {α : Type} (A : Arith α) (m : Nat) : Prop where
  term : ∀ lx, lexMeasure lx ≤ m → ∀ fuel, 6 * m + 1 ≤ fuel →
    Halts (parse_term A fuel lx) (lexMeasure lx)
  unary : ∀ lx, lexMeasure lx ≤ m → ∀ fuel, 6 * m + 2 ≤ fuel →
    Halts (parse_unary A fuel lx) (lexMeasure lx)
  pow_loop : ∀ v lx, lexMeasure lx ≤ m → ∀ fuel, 6 * m + 2 ≤ fuel →
    Halts (parse_pow_loop A fuel v lx) (lexMeasure lx)
  pow : ∀ lx, lexMeasure lx ≤ m → ∀ fuel, 6 * m + 3 ≤ fuel →
    Halts (parse_pow A fuel lx) (lexMeasure lx)
  mul_loop : ∀ v lx, lexMeasure lx ≤ m → ∀ fuel, 6 * m + 3 ≤ fuel →
    Halts (parse_mul_loop A fuel v lx) (lexMeasure lx)
  mul : ∀ lx, lexMeasure lx ≤ m → ∀ fuel, 6 * m + 4 ≤ fuel →
    Halts (parse_mul A fuel lx) (lexMeasure lx)
  add_loop : ∀ v lx, lexMeasure lx ≤ m → ∀ fuel, 6 * m + 4 ≤ fuel →
    Halts (parse_add_loop A fuel v lx) (lexMeasure lx)
  add : ∀ lx, lexMeasure lx ≤ m → ∀ fuel, 6 * m + 5 ≤ fuel →
    Halts (parse_add A fuel lx) (lexMeasure lx)
  expr : ∀ lx, lexMeasure lx ≤ m → ∀ fuel, 6 * m + 6 ≤ fuel →
    Halts (parse_expr A fuel lx) (lexMeasure lx)

/-! ## The grammar and its reference semantics -/

/-- The precedence levels of the grammar, one for each of `parse_term`,
`parse_unary`, `parse_pow`, `parse_mul` and `parse_add`. -/
inductive Level
  | term
  | unary
  | pow
  | mul
  | add
  deriving DecidableEq, Repr

/-- Expression trees: numbers, the constants `pi` and `e`, delimited
expressions, calls of a named function, prefix minus and the five binary
operators; and the two ways in which `parse_term` fails: `stray tt` is a
token of kind `tt` where a Term should start, `unclosed_paren x` and
`unclosed_brack x` are an opening delimiter and an expression that the
matching closing delimiter does not follow. -/
inductive Expr (α : Type)
  | num (v : α)
  | const_pi
  | const_e
  | paren (x : Expr α)
  | brack (x : Expr α)
  | stray (tt : TokenType)
  | unclosed_paren (x : Expr α)
  | unclosed_brack (x : Expr α)
  | call (f : Entry) (x : Expr α)
  | neg (x : Expr α)
  | pow (a b : Expr α)
  | mul (a b : Expr α)
  | div (a b : Expr α)
  | add (a b : Expr α)
  | sub (a b : Expr α)

/-- What a production requires of one token: a number of a given value, a
name with a given source text, or an operator or delimiter of a given kind. -/
inductive Tok (α : Type)
  | num (v : α)
  | name (text : List Char)
  | op (tt : TokenType)

/-- The kind of a required token. -/
def Tok.type {α : Type} : Tok α → TokenType
  | .num _ => TokenNum
  | .name _ => TokenName
  | .op tt => tt

/-- The tokens of a production, in source order. -/
def Expr.toks {α : Type} : Expr α → List (Tok α)
  | .num v => [Tok.num v]
  | .const_pi => [Tok.name Entry.pi.text]
  | .const_e => [Tok.name Entry.e.text]
  | .paren x => Tok.op TokenLParen :: (x.toks ++ [Tok.op TokenRParen])
  | .brack x => Tok.op TokenLBracket :: (x.toks ++ [Tok.op TokenRBracket])
  | .stray tt => [Tok.op tt]
  | .unclosed_paren x => Tok.op TokenLParen :: x.toks
  | .unclosed_brack x => Tok.op TokenLBracket :: x.toks
  | .call f x => Tok.name f.text :: x.toks
  | .neg x => Tok.op TokenMinus :: x.toks
  | .pow a b => a.toks ++ Tok.op TokenCarot :: b.toks
  | .mul a b => a.toks ++ Tok.op TokenStar :: b.toks
  | .div a b => a.toks ++ Tok.op TokenSlash :: b.toks
  | .add a b => a.toks ++ Tok.op TokenPlus :: b.toks
  | .sub a b => a.toks ++ Tok.op TokenMinus :: b.toks

/-- The reference value of an expression tree; a failed Term counts as
`INFINITY`. -/
def Expr.val {α : Type} (A : Arith α) : Expr α → α
  | .num v => v
  | .const_pi => A.M_PI
  | .const_e => A.M_E
  | .paren x => x.val A
  | .brack x => x.val A
  | .stray _ => A.INFINITY
  | .unclosed_paren _ => A.INFINITY
  | .unclosed_brack _ => A.INFINITY
  | .call f x => A.call f (x.val A)
  | .neg x => A.neg (x.val A)
  | .pow a b => A.pow (a.val A) (b.val A)
  | .mul a b => A.mul (a.val A) (b.val A)
  | .div a b => A.div (a.val A) (b.val A)
  | .add a b => A.add (a.val A) (b.val A)
  | .sub a b => A.sub (a.val A) (b.val A)

/-- The kind of the first token of a production. -/
def Expr.first_type {α : Type} : Expr α → TokenType
  | .num _ => TokenNum
  | .const_pi => TokenName
  | .const_e => TokenName
  | .paren _ => TokenLParen
  | .brack _ => TokenLBracket
  | .stray tt => tt
  | .unclosed_paren _ => TokenLParen
  | .unclosed_brack _ => TokenLBracket
  | .call _ _ => TokenName
  | .neg _ => TokenMinus
  | .pow a _ => a.first_type
  | .mul a _ => a.first_type
  | .div a _ => a.first_type
  | .add a _ => a.first_type
  | .sub a _ => a.first_type

/-- The production starts with `(` or `[`. -/
def Expr.starts_delim {α : Type} (x : Expr α) : Bool :=
  x.first_type = TokenLParen ∨ x.first_type = TokenLBracket

/-- The token kinds with which the operator loop of a level goes on, or one
of the loops of the levels it calls. -/
def continues : Level → TokenType → Bool
  | .term, _ => false
  | .unary, _ => false
  | .pow, tt => tt = TokenCarot
  | .mul, tt => tt = TokenCarot ∨ tt = TokenStar ∨ tt = TokenSlash
  | .add, tt =>
    tt = TokenCarot ∨ tt = TokenStar ∨ tt = TokenSlash ∨ tt = TokenPlus ∨ tt = TokenMinus

/-- The production may be followed by a token of the given kind without
being read differently.  The undelimited argument of a named function is a
PowExpr, so a following `^` would belong to the argument; an unclosed
delimiter is unclosed only if the expected closing token does not follow,
and what follows it cannot be an operator, which the enclosed expression
would have taken. -/
def Expr.follow_ok {α : Type} : Expr α → TokenType → Bool
  | .num _, _ => true
  | .const_pi, _ => true
  | .const_e, _ => true
  | .paren _, _ => true
  | .brack _, _ => true
  | .stray _, _ => true
  | .unclosed_paren x, tt =>
    decide (tt ≠ TokenRParen) && !continues Level.add tt && x.follow_ok tt
  | .unclosed_brack x, tt =>
    decide (tt ≠ TokenRBracket) && !continues Level.add tt && x.follow_ok tt
  | .call _ x, tt => (x.starts_delim || decide (tt ≠ TokenCarot)) && x.follow_ok tt
  | .neg x, tt => x.follow_ok tt
  | .pow _ b, tt => b.follow_ok tt
  | .mul _ b, tt => b.follow_ok tt
  | .div _ b, tt => b.follow_ok tt
  | .add _ b, tt => b.follow_ok tt
  | .sub _ b, tt => b.follow_ok tt

/-- The tree is built from numbers, `pi`, `e`, delimited expressions,
prefix minus and the binary operators only. -/
def Expr.plain {α : Type} : Expr α → Bool
  | .num _ => true
  | .const_pi => true
  | .const_e => true
  | .paren x => x.plain
  | .brack x => x.plain
  | .stray _ => false
  | .unclosed_paren _ => false
  | .unclosed_brack _ => false
  | .call _ _ => false
  | .neg x => x.plain
  | .pow a b => a.plain && b.plain
  | .mul a b => a.plain && b.plain
  | .div a b => a.plain && b.plain
  | .add a b => a.plain && b.plain
  | .sub a b => a.plain && b.plain

/-- No Term of the tree fails. -/
def Expr.no_failure {α : Type} : Expr α → Bool
  | .num _ => true
  | .const_pi => true
  | .const_e => true
  | .paren x => x.no_failure
  | .brack x => x.no_failure
  | .stray _ => false
  | .unclosed_paren _ => false
  | .unclosed_brack _ => false
  | .call _ x => x.no_failure
  | .neg x => x.no_failure
  | .pow a b => a.no_failure && b.no_failure
  | .mul a b => a.no_failure && b.no_failure
  | .div a b => a.no_failure && b.no_failure
  | .add a b => a.no_failure && b.no_failure
  | .sub a b => a.no_failure && b.no_failure

/-- The tree is a failed Term. -/
def Expr.is_failure {α : Type} : Expr α → Bool
  | .stray _ => true
  | .unclosed_paren _ => true
  | .unclosed_brack _ => true
  | _ => false

/-- The token kinds with which `parse_term` enters one of its cases, and the
prefix minus that `parse_unary` takes before `parse_term` is called. -/
def starts_term (tt : TokenType) : Bool :=
  tt = TokenNum ∨ tt = TokenName ∨ tt = TokenLParen ∨ tt = TokenLBracket ∨ tt = TokenMinus

/-- The table entries that are functions (all but `pi` and `e`). -/
def Entry.is_fun : Entry → Bool
  | .pi => false
  | .e => false
  | _ => true

/-- The productions of each level of the grammar

    AddExpr   = MulExpr { ('+' | '-') MulExpr }
    MulExpr   = PowExpr { ('*' | '/') PowExpr }
    PowExpr   = UnaryExpr { '^' UnaryExpr }
    UnaryExpr = '-' UnaryExpr | Term
    Term      = Number | Identifier [ Call ] | '(' Expr ')' | '[' Expr ']'

as left-nested trees, together with the failed Terms.  The argument of a
named function is a delimited Term when it starts with `(` or `[` and a
PowExpr otherwise.  The left operand of an operator and the expression before
a closing delimiter are productions that this token may follow
(`Expr.follow_ok`). -/
inductive Gram {α : Type} : Level → Expr α → Prop
  | num (v : α) : Gram Level.term (Expr.num v)
  | const_pi : Gram Level.term Expr.const_pi
  | const_e : Gram Level.term Expr.const_e
  | paren {x : Expr α} : Gram Level.add x → x.follow_ok TokenRParen = true →
      Gram Level.term (Expr.paren x)
  | brack {x : Expr α} : Gram Level.add x → x.follow_ok TokenRBracket = true →
      Gram Level.term (Expr.brack x)
  | stray (tt : TokenType) : starts_term tt = false → Gram Level.term (Expr.stray tt)
  | unclosed_paren {x : Expr α} : Gram Level.add x → Gram Level.term (Expr.unclosed_paren x)
  | unclosed_brack {x : Expr α} : Gram Level.add x → Gram Level.term (Expr.unclosed_brack x)
  | call_delim (f : Entry) {x : Expr α} : f.is_fun = true → Gram Level.term x →
      x.starts_delim = true → Gram Level.term (Expr.call f x)
  | call_bare (f : Entry) {x : Expr α} : f.is_fun = true → Gram Level.pow x →
      x.starts_delim = false → Gram Level.term (Expr.call f x)
  | neg {x : Expr α} : Gram Level.unary x → Gram Level.unary (Expr.neg x)
  | of_term {x : Expr α} : Gram Level.term x → Gram Level.unary x
  | pow {a b : Expr α} : Gram Level.pow a → a.follow_ok TokenCarot = true →
      Gram Level.unary b → Gram Level.pow (Expr.pow a b)
  | of_unary {x : Expr α} : Gram Level.unary x → Gram Level.pow x
  | mul {a b : Expr α} : Gram Level.mul a → a.follow_ok TokenStar = true →
      Gram Level.pow b → Gram Level.mul (Expr.mul a b)
  | div {a b : Expr α} : Gram Level.mul a → a.follow_ok TokenSlash = true →
      Gram Level.pow b → Gram Level.mul (Expr.div a b)
  | of_pow {x : Expr α} : Gram Level.pow x → Gram Level.mul x
  | add {a b : Expr α} : Gram Level.add a → a.follow_ok TokenPlus = true →
      Gram Level.mul b → Gram Level.add (Expr.add a b)
  | sub {a b : Expr α} : Gram Level.add a → a.follow_ok TokenMinus = true →
      Gram Level.mul b → Gram Level.add (Expr.sub a b)
  | of_mul {x : Expr α} : Gram Level.mul x → Gram Level.add x

/-- The current token of the lexer is the required one.  For a name, the text
is the one `parse_term` reads: `num_chars` characters of the buffer from
`start`. -/
def Matches {α : Type} (lx : Lexer α) : Tok α → Prop
  | .num v => lx.curr_token.type = TokenNum ∧ lx.curr_token.value = v
  | .name text =>
    lx.curr_token.type = TokenName ∧ lx.curr_token.num_chars = text.length ∧
      (lx.input.drop lx.curr_token.start).take text.length = text
  | .op tt => lx.curr_token.type = tt

/-- Starting with the current token of the first state, the lexer delivers
exactly the listed tokens, one per call of `lexer_get_token`, and the call
made on the last of them leaves the second state. -/
def Reads {α : Type} (A : Arith α) : Lexer α → List (Tok α) → Lexer α → Prop
  | lx, [], lx2 => lx2 = lx
  | lx, t :: ts, lx2 => Matches lx t ∧ Reads A (advance A lx) ts lx2

/-- The parser function of a level. -/
def parse_level {α : Type} (A : Arith α) : Level → Nat → Lexer α → Option (α × Lexer α)
  | .term => parse_term A
  | .unary => parse_unary A
  | .pow => parse_pow A
  | .mul => parse_mul A
  | .add => parse_add A

/-- The statement proved of every production by induction on the grammar:
the parser function of the level returns the reference value and the state
after the production.  For the three levels with an operator loop it is
stated for the function up to its loop, which is entered with the value of
the production read so far. -/
def Sound {α : Type} (A : Arith α) : Level → Expr α → Prop
  | .term, x => ∀ lx lx2, Reads A lx x.toks lx2 →
      x.follow_ok lx2.curr_token.type = true →
      ∃ n, parse_term A n lx = some (x.val A, lx2)
  | .unary, x => ∀ lx lx2, Reads A lx x.toks lx2 →
      x.follow_ok lx2.curr_token.type = true →
      ∃ n, parse_unary A n lx = some (x.val A, lx2)
  | .pow, x => ∀ lx lx2, Reads A lx x.toks lx2 →
      x.follow_ok lx2.curr_token.type = true →
      ∀ n r, parse_pow_loop A n (x.val A) lx2 = some r → ∃ m, parse_pow A m lx = some r
  | .mul, x => ∀ lx lx2, Reads A lx x.toks lx2 →
      x.follow_ok lx2.curr_token.type = true →
      lx2.curr_token.type ≠ TokenCarot →
      ∀ n r, parse_mul_loop A n (x.val A) lx2 = some r → ∃ m, parse_mul A m lx = some r
  | .add, x => ∀ lx lx2, Reads A lx x.toks lx2 →
      x.follow_ok lx2.curr_token.type = true →
      (lx2.curr_token.type ≠ TokenCarot ∧ lx2.curr_token.type ≠ TokenStar ∧
        lx2.curr_token.type ≠ TokenSlash) →
      ∀ n r, parse_add_loop A n (x.val A) lx2 = some r → ∃ m, parse_add A m lx = some r

/-- In the chain `u0 ^ u1 ^ ... ^ un` every operand that has a successor may
be followed by `^`. -/
def caret_follows {α : Type} : Expr α → List (Expr α) → Prop
  | _, [] => True
  | u0, u :: us => u0.follow_ok TokenCarot = true ∧ caret_follows u us

/-- The tokens of the chain `u0 ^ u1 ^ ... ^ un`. -/
def chain_toks_of {α : Type} (u0 : Expr α) (us : List (Expr α)) : List (Tok α) :=
  u0.toks ++ (us.map (fun u => Tok.op TokenCarot :: u.toks)).flatten

/-- After the expression enclosed by a delimiter, the current token is not
the expected closing one. -/
def close_fails {α : Type} (end_type : TokenType) : Option (α × Lexer α) → Bool
  | none => false
  | some (_, lx) => decide (lx.curr_token.type ≠ end_type)

/-- The invocation of `parse_term` on the given state is a parse failure: the
current token starts none of the alternatives of a Term, or the closing
delimiter expected after the enclosed expression is missing or mismatched. -/
def term_fails {α : Type} (A : Arith α) (fuel : Nat) (lx : Lexer α) : Bool :=
  match lx.curr_token.type with
  | TokenNum => false
  | TokenName => false
  | TokenLParen => close_fails TokenRParen (parse_expr A fuel (advance A lx))
  | TokenLBracket => close_fails TokenRBracket (parse_expr A fuel (advance A lx))
  | _ => true

/-- The entries of the name table in the order in which `parse_term` tests
them. -/
def table_order : List Entry :=
  [Entry.pi, Entry.e, Entry.sin, Entry.ln, Entry.cos, Entry.tan, Entry.arcsin, Entry.arccos,
    Entry.arctan, Entry.log, Entry.lb, Entry.myfunchere]

/-- The text of a name token starts the name of a table entry. -/
def starts_name (text : List Char) (f : Entry) : Bool := text.isPrefixOf f.text

/-! ## Flat infix inputs and their reference evaluation -/

/-- The four binary operators of the flat inputs. -/
inductive BinOp
  | plus
  | minus
  | star
  | slash
  deriving DecidableEq, Repr

/-- The character of a binary operator. -/
def BinOp.char : BinOp → Char
  | .plus => '+'
  | .minus => '-'
  | .star => '*'
  | .slash => '/'

/-- The token kind of a binary operator. -/
def BinOp.type : BinOp → TokenType
  | .plus => TokenPlus
  | .minus => TokenMinus
  | .star => TokenStar
  | .slash => TokenSlash

/-- A numeric literal as `lex_decimal` accepts it: a non-empty run of digits
and dots with at most one dot. -/
def is_literal (l : List Char) : Bool :=
  !l.isEmpty && l.all (fun c => c.isDigit || c == '.') && decide (l.count '.' ≤ 1)

/-- The text of the operator-literal pairs that follow the first literal. -/
def render_rest : List (BinOp × List Char) → List Char
  | [] => []
  | (o, l) :: r => o.char :: (l ++ render_rest r)

/-- The input text: a literal followed by operator-literal pairs. -/
def render (l0 : List Char) (rest : List (BinOp × List Char)) : List Char :=
  l0 ++ render_rest rest

/-- The values of the literals after the first one: `lex_decimal` calls
`strtod` on the text that starts at the literal. -/
def lit_values {α : Type} (A : Arith α) : List (BinOp × List Char) → List (BinOp × α)
  | [] => []
  | (o, l) :: r => (o, A.strtod (l ++ render_rest r)) :: lit_values A r

/-- First pass of the reference evaluator: every run of `*` and `/` is folded
from left to right into one term; the result is the first term and the
remaining terms with the `+` or `-` before each. -/
def collapse {α : Type} (A : Arith α) (cur : α) : List (BinOp × α) → α × List (BinOp × α)
  | [] => (cur, [])
  | (BinOp.star, v) :: r => collapse A (A.mul cur v) r
  | (BinOp.slash, v) :: r => collapse A (A.div cur v) r
  | (BinOp.plus, v) :: r => (cur, (BinOp.plus, (collapse A v r).1) :: (collapse A v r).2)
  | (BinOp.minus, v) :: r => (cur, (BinOp.minus, (collapse A v r).1) :: (collapse A v r).2)

/-- Second pass of the reference evaluator: the terms are added and
subtracted from left to right. -/
def sum_terms {α : Type} (A : Arith α) (acc : α) : List (BinOp × α) → α
  | [] => acc
  | (BinOp.minus, v) :: r => sum_terms A (A.sub acc v) r
  | (_, v) :: r => sum_terms A (A.add acc v) r

/-- The reference infix evaluator: `*` and `/` bind tighter than `+` and `-`,
and operators of equal precedence are folded from left to right. -/
def ref_eval {α : Type} (A : Arith α) (v0 : α) (items : List (BinOp × α)) : α :=
  sum_terms A (collapse A v0 items).1 (collapse A v0 items).2

/-- The value the parser loops compute on operator-value pairs, with the
pending sum as a function of the current product. -/
def loop_eval {α : Type} (A : Arith α) (g : α → α) (cur : α) : List (BinOp × α) → α
  | [] => g cur
  | (BinOp.star, v) :: r => loop_eval A g (A.mul cur v) r
  | (BinOp.slash, v) :: r => loop_eval A g (A.div cur v) r
  | (BinOp.plus, v) :: r => loop_eval A (fun x => A.add (g cur) x) v r
  | (BinOp.minus, v) :: r => loop_eval A (fun x => A.sub (g cur) x) v r

/-- The tokens of operator-value pairs. -/
def item_toks {α : Type} : List (BinOp × α) → List (Tok α)
  | [] => []
  | (o, v) :: r => Tok.op o.type :: Tok.num v :: item_toks r

/-- The character after a literal ends it: it is the NUL, or neither
alphanumeric nor a dot. -/
def ends_literal (post : List Char) : Prop :=
  ¬(post.headD NUL ≠ NUL ∧ (isalnum (post.headD NUL) = true ∨ post.headD NUL = '.'))

/-! ## Deciding token sequences on concrete inputs -/

/-- The lexer state after the given number of calls of `lexer_get_token`. -/
def skip {α : Type} (A : Arith α) : Nat → Lexer α → Lexer α
  | 0, lx => lx
  | n + 1, lx => skip A n (advance A lx)

/-- Whether the current token is the required one can be computed. -/
def Matches.dec {α : Type} [DecidableEq α] (lx : Lexer α) :
    (t : Tok α) → Decidable (Matches lx t)
  | .num v =>
    inferInstanceAs (Decidable (lx.curr_token.type = TokenNum ∧ lx.curr_token.value = v))
  | .name text =>
    inferInstanceAs (Decidable (lx.curr_token.type = TokenName ∧
      lx.curr_token.num_chars = text.length ∧
      (lx.input.drop lx.curr_token.start).take text.length = text))
  | .op tt => inferInstanceAs (Decidable (lx.curr_token.type = tt))

/-- Whether the lexer delivers a token sequence can be computed. -/
def Reads.dec {α : Type} [DecidableEq α] (A : Arith α) :
    (lx : Lexer α) → (ts : List (Tok α)) → (lx2 : Lexer α) → Decidable (Reads A lx ts lx2)
  | lx, [], lx2 => inferInstanceAs (Decidable (lx2 = lx))
  | lx, t :: ts, lx2 =>
    @instDecidableAnd _ _ (Matches.dec lx t) (Reads.dec A (advance A lx) ts lx2)

instance {α : Type} [DecidableEq α] (lx : Lexer α) (t : Tok α) : Decidable (Matches lx t) :=
  Matches.dec lx t

instance {α : Type} [DecidableEq α] (A : Arith α) (lx : Lexer α) (ts : List (Tok α))
    (lx2 : Lexer α) : Decidable (Reads A lx ts lx2) :=
  Reads.dec A lx ts lx2

/-! ## The lexer as a function of the text that starts at the cursor -/

/-- What one call of `lexer_get_token` finds in the text that starts at the
cursor: the return flag, the kind of the token, the number of whitespace
characters skipped and the number of characters the cursor moves after
them. -/
structure Lexed where
  flag : Bool
  type : TokenType
  ws : Nat
  len : Nat
  deriving DecidableEq, Repr

/-- The `while` loop of `lex_decimal` on the text that starts at the cursor:
the return flag and the number of characters the cursor moves. -/
def scan_decimal : List Char → Bool → Bool × Nat
  | [], _ => (true, 0)
  | c :: cs, has_dot =>
    if c ≠ NUL ∧ (isalnum c = true ∨ c = '.') then
      if c.isDigit = true then
        ((scan_decimal cs has_dot).1, (scan_decimal cs has_dot).2 + 1)
      else if c = '.' then
        if has_dot = true then (false, 0)
        else ((scan_decimal cs true).1, (scan_decimal cs true).2 + 1)
      else (false, 1)
    else (true, 0)

/-- The `while` loop of `lex_identifier` on the text that starts at the
cursor: the number of characters the cursor moves. -/
def scan_ident : List Char → Nat
  | [] => 0
  | c :: cs => if c ≠ NUL ∧ isalpha c = true then scan_ident cs + 1 else 0

/-- The `while` loop of `lexer_get_token` on the text that starts at the
cursor. -/
def lex_text : List Char → Lexed
  | [] => ⟨false, TokenInvalid, 0, 0⟩
  | c :: cs =>
    if c ≠ NUL then
      if is_space c = true then
        ⟨(lex_text cs).flag, (lex_text cs).type, (lex_text cs).ws + 1, (lex_text cs).len⟩
      else
        match single_char_type c with
        | some tt => ⟨true, tt, 0, 1⟩
        | none =>
          if c.isDigit = true ∨ c = '.' then
            ⟨(scan_decimal (c :: cs) false).1,
              if (scan_decimal (c :: cs) false).1 = true then TokenNum else TokenInvalid,
              0, (scan_decimal (c :: cs) false).2⟩
          else if isalpha c = true then ⟨true, TokenName, 0, scan_ident (c :: cs)⟩
          else ⟨false, TokenInvalid, 0, 0⟩
    else ⟨false, TokenInvalid, 0, 0⟩

/-- The token a successful call stores, given the token at the entry of the
loop: a number gets all five fields, a name all but the value, an operator
or delimiter only its kind. -/
def lexed_token {α : Type} (A : Arith α) (lx : Lexer α) (r : Lexed) : Token α :=
  if r.flag = false then lx.curr_token
  else if r.type = TokenNum then
    { type := TokenNum
      value := A.strtod (lx.input.drop (lx.pos + r.ws))
      num_chars := r.len
      start := (lx.pos + r.ws) % UNSIGNED_MOD
      end_ := (lx.pos + r.ws + r.len) % UNSIGNED_MOD }
  else if r.type = TokenName then
    { lx.curr_token with
      type := TokenName
      num_chars := r.len
      start := (lx.pos + r.ws) % UNSIGNED_MOD
      end_ := (lx.pos + r.ws + r.len) % UNSIGNED_MOD }
  else { lx.curr_token with type := r.type }

/-- The result of the token loop on a lexer state, from what it finds in the
text at the cursor. -/
def assemble {α : Type} (A : Arith α) (lx : Lexer α) (r : Lexed) : Bool × Lexer α :=
  (r.flag, { lx with pos := lx.pos + r.ws + r.len, curr_token := lexed_token A lx r })

/-- The characters at which the loop of `lex_decimal` goes on: the
alphanumeric characters and the dot. -/
def is_run_char (c : Char) : Bool := isalnum c || c == '.'

/-- The maximal run of alphanumeric characters and dots at the head of a
text. -/
def literal_run (s : List Char) : List Char := s.takeWhile is_run_char

/-- The maximal run of alphabetic characters at the head of a text. -/
def name_run (s : List Char) : List Char := s.takeWhile isalpha

/-- The text at the cursor of a lexer, and what is left of it after the
whitespace at its head. -/
def Lexer.rest {α : Type} (lx : Lexer α) : List Char := lx.input.drop lx.pos

/-- The whitespace at the head of a text. -/
def blanks (s : List Char) : List Char := s.takeWhile is_space

/-- The text after the whitespace at its head. -/
def unblank (s : List Char) : List Char := s.dropWhile is_space

/-- The first character after the whitespace at the cursor, NUL at the end of
the text. -/
def Lexer.next_char {α : Type} (lx : Lexer α) : Char := (unblank lx.rest).headD NUL

/-- The index of that character. -/
def Lexer.next_index {α : Type} (lx : Lexer α) : Nat := lx.pos + (blanks lx.rest).length

/-- The nine operator and delimiter characters. -/
def operator_chars : List Char := ['+', '-', '*', '/', '^', '(', ')', '[', ']']

/-- The leading-substring behaviour of `strtod` on the texts `lex_decimal`
converts: what follows the digits and the dot of a numeral, when it starts
with neither an alphanumeric character nor a dot, does not change the value
returned. -/
def reads_only_literal {α : Type} (A : Arith α) : Prop :=
  ∀ l post : List Char, is_literal l = true → ends_literal post →
    A.strtod (l ++ post) = A.strtod l

/-- The part `'.' [0-9]+` of the grammar of numbers. -/
def fraction_part (r : List Char) : Bool :=
  r.headD NUL == '.' && !r.tail.isEmpty && r.tail.all Char.isDigit

/-- The grammar of numbers in the comment above `parse_term`:
`number = [0-9]+ [ '.' [0-9]+ ] | [ [0-9]+ ] '.' [0-9]+`. -/
def number_grammar (t : List Char) : Bool :=
  (!(t.takeWhile Char.isDigit).isEmpty &&
      ((t.dropWhile Char.isDigit).isEmpty || fraction_part (t.dropWhile Char.isDigit))) ||
    fraction_part (t.dropWhile Char.isDigit)

/-- The text `t`, followed by `post`, is accepted as one number token: on the
buffer `t ++ post`, `lexer_get_token` returns true with a `TokenNum` token of
as many characters as `t` has and leaves the cursor after `t`. -/
def accepts_number {α : Type} (A : Arith α) (t post : List Char) : Bool :=
  (lexer_get_token A (Lexer.init A (t ++ post))).1 &&
    decide ((lexer_get_token A (Lexer.init A (t ++ post))).2.curr_token.type = TokenNum) &&
    decide ((lexer_get_token A (Lexer.init A (t ++ post))).2.curr_token.num_chars = t.length) &&
    decide ((lexer_get_token A (Lexer.init A (t ++ post))).2.pos = t.length)

/-! ## Lexer states that the parser cannot tell apart -/

/-- Two lexer states show the parser the same current token: the same kind,
the same value and, for a name, the same outcome of the table comparison. -/
structure TokSim {α : Type} (lx lx2 : Lexer α) : Prop where
  type_eq : lx.curr_token.type = lx2.curr_token.type
  value_eq : lx.curr_token.value = lx2.curr_token.value
  lookup_eq : lx.curr_token.type = TokenName →
    table_lookup (lx.input.drop lx.curr_token.start) lx.curr_token.num_chars =
      table_lookup (lx2.input.drop lx2.curr_token.start) lx2.curr_token.num_chars

/-- Two results of the parser agree: both are missing, or the values are
equal and the lexer states are related. -/
def OptRel {α : Type} (R : Lexer α → Lexer α → Prop) :
    Option (α × Lexer α) → Option (α × Lexer α) → Prop
  | none, none => True
  | some (v, lx), some (v2, lx2) => v = v2 ∧ R lx lx2
  | _, _ => False

/-- A relation between lexer states that the parser cannot tell apart and
that `lexer_get_token` preserves. -/
def Lockstep {α : Type} (A : Arith α) (R : Lexer α → Lexer α → Prop) : Prop :=
  ∀ lx lx2, R lx lx2 → TokSim lx lx2 ∧ R (advance A lx) (advance A lx2)

/-- The parser functions at budget `n` agree on related lexer states. -/
structure SimAt {α : Type} (A : Arith α) (R : Lexer α → Lexer α → Prop) (n : Nat) : Prop where
  expr : ∀ lx lx2, R lx lx2 → OptRel R (parse_expr A n lx) (parse_expr A n lx2)
  add : ∀ lx lx2, R lx lx2 → OptRel R (parse_add A n lx) (parse_add A n lx2)
  add_loop : ∀ v lx lx2, R lx lx2 →
    OptRel R (parse_add_loop A n v lx) (parse_add_loop A n v lx2)
  mul : ∀ lx lx2, R lx lx2 → OptRel R (parse_mul A n lx) (parse_mul A n lx2)
  mul_loop : ∀ v lx lx2, R lx lx2 →
    OptRel R (parse_mul_loop A n v lx) (parse_mul_loop A n v lx2)
  pow : ∀ lx lx2, R lx lx2 → OptRel R (parse_pow A n lx) (parse_pow A n lx2)
  pow_loop : ∀ v lx lx2, R lx lx2 →
    OptRel R (parse_pow_loop A n v lx) (parse_pow_loop A n v lx2)
  unary : ∀ lx lx2, R lx lx2 → OptRel R (parse_unary A n lx) (parse_unary A n lx2)
  term : ∀ lx lx2, R lx lx2 → OptRel R (parse_term A n lx) (parse_term A n lx2)

/-- Two lexer states at the same cursor, with the same current token, whose
buffers agree up to the cursor; a name token lies before the cursor. -/
structure SamePrefix {α : Type} (lx lx2 : Lexer α) : Prop where
  pos_eq : lx2.pos = lx.pos
  tok_eq : lx2.curr_token = lx.curr_token
  take_eq : lx2.input.take lx.pos = lx.input.take lx.pos
  name_in : lx.curr_token.type = TokenName →
    lx.curr_token.start + lx.curr_token.num_chars ≤ lx.pos
  pos_le : lx.pos ≤ lx.input.length
  pos_le2 : lx.pos ≤ lx2.input.length

/-- Two lexer states that show the parser the same token and whose texts at
the cursor are equal up to the whitespace at their head, in buffers whose
indices fit the `unsigned` fields of a token. -/
structure SameRest {α : Type} (lx lx2 : Lexer α) : Prop where
  tok : TokSim lx lx2
  len1 : lx.input.length < UNSIGNED_MOD
  len2 : lx2.input.length < UNSIGNED_MOD
  rest_eq : unblank lx2.rest = unblank lx.rest

/-- A character that is not NUL, no whitespace, none of the nine operator and
delimiter characters, no digit, no dot and no letter. -/
def unrecognised (c : Char) : Bool :=
  c != NUL && !is_space c && (single_char_type c).isNone && !c.isDigit && c != '.' &&
    !isalpha c

/-- The lexer states on two buffers at the same cursor, with the same current
token, where the buffers agree up to the cursor. -/
def TruncRel {α : Type} (s rest : List Char) (lx lx2 : Lexer α) : Prop :=
  SamePrefix lx lx2 ∧ lx.input = s ∧ lx2.input = s ++ rest

/-- The index `q` is the end of a token of the buffer `b`: one of the calls
of `lexer_get_token` made from the start of `b` returns true and leaves the
cursor at `q`. -/
def token_end {α : Type} (A : Arith α) (b : List Char) (q : Nat) : Prop :=
  ∃ k, (lexer_get_token A (skip A k (Lexer.init A b))).1 = true ∧
    (lexer_get_token A (skip A k (Lexer.init A b))).2.pos = q

/-- The lexer states on two buffers `s1 ++ Y` and `s1 ++ Z`: before the
token that ends at the end of `s1` has been read they are at the same cursor
with the same token, afterwards they show the same token before texts that
are equal up to the whitespace at their head. -/
def InsRel {α : Type} (A : Arith α) (s1 Y Z : List Char) (lx lx2 : Lexer α) : Prop :=
  (SamePrefix lx lx2 ∧ lx.input = s1 ++ Y ∧ lx2.input = s1 ++ Z ∧
      ∃ k, (lexer_get_token A (skip A k lx)).1 = true ∧
        (lexer_get_token A (skip A k lx)).2.pos = s1.length) ∨
    SameRest lx lx2

/-! # Theorems -/

set_option maxRecDepth 100000

/-! ## Lexer facts -/

theorem charAt_ne_NUL_lt {input : List Char} {pos : Nat} (h : charAt input pos ≠ NUL) :
    pos < input.length := by
  by_contra hlt
  apply h
  unfold charAt
  rw [List.getD_eq_default]
  omega

theorem lex_decimal_loop_bounds (input : List Char) :
    ∀ (fuel : Nat) (has_dot : Bool) (pos : Nat),
      pos ≤ (lex_decimal_loop input fuel has_dot pos).2 ∧
      ((lex_decimal_loop input fuel has_dot pos).2 ≤ input.length ∨
        (lex_decimal_loop input fuel has_dot pos).2 = pos) := by
  intro fuel
  induction fuel with
  | zero => intro has_dot pos; simp [lex_decimal_loop]
  | succ n ih =>
    intro has_dot pos
    unfold lex_decimal_loop
    simp only []
    split_ifs with h1 h2 h3 h4
    · have hlt := charAt_ne_NUL_lt h1.1
      have := ih has_dot (pos + 1)
      omega
    · simp
    · have hlt := charAt_ne_NUL_lt h1.1
      have := ih true (pos + 1)
      omega
    · have hlt := charAt_ne_NUL_lt h1.1
      simp; omega
    · simp

theorem lex_identifier_loop_bounds (input : List Char) :
    ∀ (fuel : Nat) (pos : Nat),
      pos ≤ lex_identifier_loop input fuel pos ∧
      (lex_identifier_loop input fuel pos ≤ input.length ∨
        lex_identifier_loop input fuel pos = pos) := by
  intro fuel
  induction fuel with
  | zero => intro pos; simp [lex_identifier_loop]
  | succ n ih =>
    intro pos
    unfold lex_identifier_loop
    simp only []
    split_ifs with h1
    · have hlt := charAt_ne_NUL_lt h1.1
      have := ih (pos + 1)
      omega
    · simp

theorem lex_decimal_loop_advances (input : List Char) (pos : Nat)
    (h : (charAt input pos).isDigit = true ∨ charAt input pos = '.')
    (h0 : charAt input pos ≠ NUL) :
    pos < (lex_decimal_loop input (input.length - pos) false pos).2 := by
  have hlt := charAt_ne_NUL_lt h0
  obtain ⟨n, hn⟩ : ∃ n, input.length - pos = n + 1 := ⟨input.length - pos - 1, by omega⟩
  rw [hn]
  have h1 : charAt input pos ≠ NUL ∧ (isalnum (charAt input pos) = true ∨ charAt input pos = '.') := by
    refine ⟨h0, ?_⟩
    rcases h with h | h
    · left
      simp [isalnum, Char.isAlphanum, h]
    · right; exact h
  unfold lex_decimal_loop
  simp only []
  rw [if_pos h1]
  by_cases h2 : (charAt input pos).isDigit = true
  · rw [if_pos h2]
    have := (lex_decimal_loop_bounds input n false (pos + 1)).1
    omega
  · have h3 : charAt input pos = '.' := by
      rcases h with h | h
      · exact absurd h h2
      · exact h
    rw [if_neg h2, if_pos h3]
    simp only [Bool.false_eq_true, if_false]
    have := (lex_decimal_loop_bounds input n true (pos + 1)).1
    omega

theorem lex_identifier_loop_advances (input : List Char) (pos : Nat)
    (h : isalpha (charAt input pos) = true) (h0 : charAt input pos ≠ NUL) :
    pos < lex_identifier_loop input (input.length - pos) pos := by
  have hlt := charAt_ne_NUL_lt h0
  obtain ⟨n, hn⟩ : ∃ n, input.length - pos = n + 1 := ⟨input.length - pos - 1, by omega⟩
  rw [hn]
  unfold lex_identifier_loop
  simp only []
  rw [if_pos ⟨h0, h⟩]
  have := (lex_identifier_loop_bounds input n (pos + 1)).1
  omega

theorem single_char_type_ne_invalid {c : Char} {tt : TokenType}
    (h : single_char_type c = some tt) : tt ≠ TokenInvalid := by
  unfold single_char_type at h
  split_ifs at h <;> simp at h <;> subst h <;> decide

theorem lex_decimal_spec {α : Type} (A : Arith α) (lx : Lexer α)
    (h : (charAt lx.input lx.pos).isDigit = true ∨ charAt lx.input lx.pos = '.')
    (h0 : charAt lx.input lx.pos ≠ NUL) :
    LoopSpec lx (lex_decimal A lx) := by
  have hb := lex_decimal_loop_bounds lx.input (lx.input.length - lx.pos) false lx.pos
  have ha := lex_decimal_loop_advances lx.input lx.pos h h0
  unfold lex_decimal
  simp only []
  rcases hres : lex_decimal_loop lx.input (lx.input.length - lx.pos) false lx.pos with ⟨b, p⟩
  rw [hres] at hb ha
  simp only at hb ha
  cases b
  · exact ⟨rfl, rfl, hb.1, hb.2, by simp, by simp, by simp⟩
  · exact ⟨rfl, rfl, hb.1, hb.2, fun _ => ha, by simp, by simp⟩

theorem lex_identifier_spec {α : Type} (lx : Lexer α)
    (h : isalpha (charAt lx.input lx.pos) = true) (h0 : charAt lx.input lx.pos ≠ NUL) :
    LoopSpec lx (true, (lex_identifier lx).2) := by
  have hb := lex_identifier_loop_bounds lx.input (lx.input.length - lx.pos) lx.pos
  have ha := lex_identifier_loop_advances lx.input lx.pos h h0
  unfold lex_identifier
  exact ⟨rfl, rfl, hb.1, hb.2, fun _ => ha, by simp, by simp⟩

theorem lexer_get_token_loop_spec {α : Type} (A : Arith α) :
    ∀ (fuel : Nat) (lx : Lexer α), LoopSpec lx (lexer_get_token_loop A fuel lx) := by
  intro fuel
  induction fuel with
  | zero =>
    intro lx
    exact ⟨rfl, rfl, le_refl _, Or.inr rfl, by simp [lexer_get_token_loop],
      by simp [lexer_get_token_loop], fun _ => rfl⟩
  | succ n ih =>
    intro lx
    unfold lexer_get_token_loop
    simp only []
    by_cases h0 : charAt lx.input lx.pos ≠ NUL
    · rw [if_pos h0]
      have hlt := charAt_ne_NUL_lt h0
      by_cases hs : is_space (charAt lx.input lx.pos) = true
      · rw [if_pos hs]
        have s := ih { lx with pos := lx.pos + 1 }
        exact ⟨s.input_eq, s.input_len_eq, by have := s.pos_le; simp at this; omega,
          by have := s.pos_bound; have := s.pos_le; simp at *; omega,
          fun hb => by have := s.pos_le; simp at this; omega,
          s.ok_type, s.fail_token⟩
      · rw [if_neg hs]
        rcases htt : single_char_type (charAt lx.input lx.pos) with _ | tt
        · simp only []
          by_cases hd : (charAt lx.input lx.pos).isDigit = true ∨ charAt lx.input lx.pos = '.'
          · rw [if_pos hd]
            exact lex_decimal_spec A lx hd h0
          · rw [if_neg hd]
            by_cases ha : isalpha (charAt lx.input lx.pos) = true
            · rw [if_pos ha]
              exact lex_identifier_spec lx ha h0
            · rw [if_neg ha]
              exact ⟨rfl, rfl, le_refl _, Or.inr rfl, by simp, by simp, fun _ => rfl⟩
        · simp only []
          exact ⟨rfl, rfl, by simp, by simp; omega, by simp,
            fun _ => single_char_type_ne_invalid htt, by simp⟩
    · rw [if_neg h0]
      exact ⟨rfl, rfl, le_refl _, Or.inr rfl, by simp, by simp, fun _ => rfl⟩

theorem advance_input {α : Type} (A : Arith α) (lx : Lexer α) :
    (advance A lx).input = lx.input :=
  (lexer_get_token_loop_spec A _ { lx with curr_token := Token.zeroed A }).input_eq

theorem advance_type_or_pos {α : Type} (A : Arith α) (lx : Lexer α) :
    ((advance A lx).curr_token.type = TokenInvalid ∧ lx.pos ≤ (advance A lx).pos) ∨
      (lx.pos < (advance A lx).pos ∧ (advance A lx).pos ≤ lx.input.length) := by
  have s := lexer_get_token_loop_spec A (lx.input.length - lx.pos)
    { lx with curr_token := Token.zeroed A }
  unfold advance lexer_get_token
  simp only []
  rcases hres : lexer_get_token_loop A (lx.input.length - lx.pos)
    { lx with curr_token := Token.zeroed A } with ⟨b, lx2⟩
  rw [hres] at s
  cases b
  · left
    have h1 : lx2.curr_token = Token.zeroed A := s.fail_token rfl
    have h2 : lx.pos ≤ lx2.pos := s.pos_le
    exact ⟨by show lx2.curr_token.type = TokenInvalid; rw [h1]; rfl, h2⟩
  · right
    have h1 : lx.pos < lx2.pos := s.ok_advances rfl
    have h2 : lx2.pos ≤ lx.input.length ∨ lx2.pos = lx.pos := s.pos_bound
    constructor
    · exact h1
    · show lx2.pos ≤ lx.input.length
      omega

theorem lexMeasure_advance_le {α : Type} (A : Arith α) (lx : Lexer α) :
    lexMeasure (advance A lx) ≤ lexMeasure lx := by
  have hi := advance_input A lx
  have h := advance_type_or_pos A lx
  unfold lexMeasure
  rw [hi]
  rcases h with ⟨h1, h2⟩ | ⟨h1, h2⟩
  · rw [if_pos h1]
    split_ifs <;> omega
  · split_ifs <;> omega

theorem lexMeasure_advance_lt {α : Type} (A : Arith α) (lx : Lexer α)
    (hv : lx.curr_token.type ≠ TokenInvalid) :
    lexMeasure (advance A lx) < lexMeasure lx := by
  have hi := advance_input A lx
  have h := advance_type_or_pos A lx
  unfold lexMeasure
  rw [hi, if_neg hv]
  rcases h with ⟨h1, h2⟩ | ⟨h1, h2⟩
  · rw [if_pos h1]
    omega
  · split_ifs <;> omega

/-! ## Unfolding the parser one call at a time -/

theorem parse_expr_succ {α : Type} (A : Arith α) (n : Nat) (lx : Lexer α) :
    parse_expr A (n + 1) lx = parse_add A n lx := by
  rw [parse_expr]

theorem parse_add_succ {α : Type} (A : Arith α) (n : Nat) (lx : Lexer α) :
    parse_add A (n + 1) lx =
      (parse_mul A n lx).bind (fun p => parse_add_loop A n p.1 p.2) := by
  rw [parse_add]
  cases parse_mul A n lx <;> rfl

theorem parse_mul_succ {α : Type} (A : Arith α) (n : Nat) (lx : Lexer α) :
    parse_mul A (n + 1) lx =
      (parse_pow A n lx).bind (fun p => parse_mul_loop A n p.1 p.2) := by
  rw [parse_mul]
  cases parse_pow A n lx <;> rfl

theorem parse_pow_succ {α : Type} (A : Arith α) (n : Nat) (lx : Lexer α) :
    parse_pow A (n + 1) lx =
      (parse_unary A n lx).bind (fun p => parse_pow_loop A n p.1 p.2) := by
  rw [parse_pow]
  cases parse_unary A n lx <;> rfl

theorem parse_add_loop_plus {α : Type} (A : Arith α) (n : Nat) (v : α) (lx : Lexer α)
    (h : lx.curr_token.type = TokenPlus) :
    parse_add_loop A (n + 1) v lx =
      (parse_mul A n (advance A lx)).bind (fun p => parse_add_loop A n (A.add v p.1) p.2) := by
  rw [parse_add_loop, if_pos (Or.inl h)]
  simp only [h]
  cases parse_mul A n (advance A lx) <;> rfl

theorem parse_add_loop_minus {α : Type} (A : Arith α) (n : Nat) (v : α) (lx : Lexer α)
    (h : lx.curr_token.type = TokenMinus) :
    parse_add_loop A (n + 1) v lx =
      (parse_mul A n (advance A lx)).bind (fun p => parse_add_loop A n (A.sub v p.1) p.2) := by
  rw [parse_add_loop, if_pos (Or.inr h)]
  simp only [h]
  cases parse_mul A n (advance A lx) <;> rfl

theorem parse_add_loop_exit {α : Type} (A : Arith α) (n : Nat) (v : α) (lx : Lexer α)
    (h1 : lx.curr_token.type ≠ TokenPlus) (h2 : lx.curr_token.type ≠ TokenMinus) :
    parse_add_loop A (n + 1) v lx = some (v, lx) := by
  rw [parse_add_loop, if_neg (by tauto)]

theorem parse_mul_loop_star {α : Type} (A : Arith α) (n : Nat) (v : α) (lx : Lexer α)
    (h : lx.curr_token.type = TokenStar) :
    parse_mul_loop A (n + 1) v lx =
      (parse_pow A n (advance A lx)).bind (fun p => parse_mul_loop A n (A.mul v p.1) p.2) := by
  rw [parse_mul_loop, if_pos (Or.inl h)]
  simp only [h]
  cases parse_pow A n (advance A lx) <;> rfl

theorem parse_mul_loop_slash {α : Type} (A : Arith α) (n : Nat) (v : α) (lx : Lexer α)
    (h : lx.curr_token.type = TokenSlash) :
    parse_mul_loop A (n + 1) v lx =
      (parse_pow A n (advance A lx)).bind (fun p => parse_mul_loop A n (A.div v p.1) p.2) := by
  rw [parse_mul_loop, if_pos (Or.inr h)]
  simp only [h]
  cases parse_pow A n (advance A lx) <;> rfl

theorem parse_mul_loop_exit {α : Type} (A : Arith α) (n : Nat) (v : α) (lx : Lexer α)
    (h1 : lx.curr_token.type ≠ TokenStar) (h2 : lx.curr_token.type ≠ TokenSlash) :
    parse_mul_loop A (n + 1) v lx = some (v, lx) := by
  rw [parse_mul_loop, if_neg (by tauto)]

theorem parse_pow_loop_carot {α : Type} (A : Arith α) (n : Nat) (v : α) (lx : Lexer α)
    (h : lx.curr_token.type = TokenCarot) :
    parse_pow_loop A (n + 1) v lx =
      (parse_unary A n (advance A lx)).bind (fun p => parse_pow_loop A n (A.pow v p.1) p.2) := by
  rw [parse_pow_loop, if_pos h]
  simp only []
  cases parse_unary A n (advance A lx) <;> rfl

theorem parse_pow_loop_exit {α : Type} (A : Arith α) (n : Nat) (v : α) (lx : Lexer α)
    (h : lx.curr_token.type ≠ TokenCarot) :
    parse_pow_loop A (n + 1) v lx = some (v, lx) := by
  rw [parse_pow_loop, if_neg h]

theorem parse_unary_minus {α : Type} (A : Arith α) (n : Nat) (lx : Lexer α)
    (h : lx.curr_token.type = TokenMinus) :
    parse_unary A (n + 1) lx = map_val A.neg (parse_unary A n (advance A lx)) := by
  rw [parse_unary, if_pos h]

theorem parse_unary_term {α : Type} (A : Arith α) (n : Nat) (lx : Lexer α)
    (h : lx.curr_token.type ≠ TokenMinus) :
    parse_unary A (n + 1) lx = parse_term A n lx := by
  rw [parse_unary, if_neg h]

theorem parse_term_num {α : Type} (A : Arith α) (n : Nat) (lx : Lexer α)
    (h : lx.curr_token.type = TokenNum) :
    parse_term A (n + 1) lx = some (lx.curr_token.value, advance A lx) := by
  rw [parse_term]
  simp only [h]

theorem parse_term_lparen {α : Type} (A : Arith α) (n : Nat) (lx : Lexer α)
    (h : lx.curr_token.type = TokenLParen) :
    parse_term A (n + 1) lx = close_delim A TokenRParen (parse_expr A n (advance A lx)) := by
  rw [parse_term]
  simp only [h, if_true]

theorem parse_term_lbracket {α : Type} (A : Arith α) (n : Nat) (lx : Lexer α)
    (h : lx.curr_token.type = TokenLBracket) :
    parse_term A (n + 1) lx = close_delim A TokenRBracket (parse_expr A n (advance A lx)) := by
  rw [parse_term]
  simp only [h]
  rfl

theorem parse_term_stray {α : Type} (A : Arith α) (n : Nat) (lx : Lexer α)
    (h1 : lx.curr_token.type ≠ TokenNum) (h2 : lx.curr_token.type ≠ TokenName)
    (h3 : lx.curr_token.type ≠ TokenLParen) (h4 : lx.curr_token.type ≠ TokenLBracket) :
    parse_term A (n + 1) lx = some (A.INFINITY, advance A lx) := by
  rw [parse_term]
  cases ht : lx.curr_token.type <;> simp_all

theorem parse_term_name {α : Type} (A : Arith α) (n : Nat) (lx : Lexer α)
    (h : lx.curr_token.type = TokenName) :
    parse_term A (n + 1) lx =
      name_case A n (advance A lx)
        (table_lookup ((advance A lx).input.drop lx.curr_token.start) lx.curr_token.num_chars) := by
  rw [parse_term]
  simp only [h]
  cases table_lookup ((advance A lx).input.drop lx.curr_token.start) lx.curr_token.num_chars with
  | none => rfl
  | some f => cases f <;> rfl

/-! ## A larger budget never changes a result -/

theorem bind_some_mono {β γ : Type} {o o' : Option β} {g g' : β → Option γ} {r : γ}
    (h : o.bind g = some r) (ho : ∀ p, o = some p → o' = some p)
    (hg : ∀ p, g p = some r → g' p = some r) : o'.bind g' = some r := by
  cases o with
  | none => simp at h
  | some p =>
    rw [ho p rfl]
    exact hg p h

theorem map_val_some_mono {α : Type} {f : α → α} {o o' : Option (α × Lexer α)}
    {r : α × Lexer α} (h : map_val f o = some r) (ho : ∀ p, o = some p → o' = some p) :
    map_val f o' = some r := by
  cases o with
  | none => simp [map_val] at h
  | some p => rw [ho p rfl]; exact h

theorem close_delim_some_mono {α : Type} {A : Arith α} {e : TokenType}
    {o o' : Option (α × Lexer α)} {r : α × Lexer α}
    (h : close_delim A e o = some r) (ho : ∀ p, o = some p → o' = some p) :
    close_delim A e o' = some r := by
  cases o with
  | none => simp [close_delim] at h
  | some p => rw [ho p rfl]; exact h

theorem fuelMono_zero {α : Type} (A : Arith α) : FuelMono A 0 := by
  constructor <;> intros <;>
    simp_all [parse_expr, parse_add, parse_add_loop, parse_mul, parse_mul_loop, parse_pow,
      parse_pow_loop, parse_unary, parse_term]

theorem fuelMono_succ {α : Type} (A : Arith α) (n : Nat) (ih : FuelMono A n) :
    FuelMono A (n + 1) := by
  constructor
  · intro lx r h
    rw [parse_expr_succ] at h ⊢
    exact ih.add lx r h
  · intro lx r h
    rw [parse_add_succ] at h ⊢
    exact bind_some_mono h (ih.mul lx) (fun p => ih.add_loop _ _ r)
  · intro v lx r h
    by_cases h1 : lx.curr_token.type = TokenPlus
    · rw [parse_add_loop_plus A _ v lx h1] at h ⊢
      exact bind_some_mono h (ih.mul _) (fun p => ih.add_loop _ _ r)
    · by_cases h2 : lx.curr_token.type = TokenMinus
      · rw [parse_add_loop_minus A _ v lx h2] at h ⊢
        exact bind_some_mono h (ih.mul _) (fun p => ih.add_loop _ _ r)
      · rw [parse_add_loop_exit A _ v lx h1 h2] at h ⊢
        exact h
  · intro lx r h
    rw [parse_mul_succ] at h ⊢
    exact bind_some_mono h (ih.pow lx) (fun p => ih.mul_loop _ _ r)
  · intro v lx r h
    by_cases h1 : lx.curr_token.type = TokenStar
    · rw [parse_mul_loop_star A _ v lx h1] at h ⊢
      exact bind_some_mono h (ih.pow _) (fun p => ih.mul_loop _ _ r)
    · by_cases h2 : lx.curr_token.type = TokenSlash
      · rw [parse_mul_loop_slash A _ v lx h2] at h ⊢
        exact bind_some_mono h (ih.pow _) (fun p => ih.mul_loop _ _ r)
      · rw [parse_mul_loop_exit A _ v lx h1 h2] at h ⊢
        exact h
  · intro lx r h
    rw [parse_pow_succ] at h ⊢
    exact bind_some_mono h (ih.unary lx) (fun p => ih.pow_loop _ _ r)
  · intro v lx r h
    by_cases h1 : lx.curr_token.type = TokenCarot
    · rw [parse_pow_loop_carot A _ v lx h1] at h ⊢
      exact bind_some_mono h (ih.unary _) (fun p => ih.pow_loop _ _ r)
    · rw [parse_pow_loop_exit A _ v lx h1] at h ⊢
      exact h
  · intro lx r h
    by_cases h1 : lx.curr_token.type = TokenMinus
    · rw [parse_unary_minus A _ lx h1] at h ⊢
      exact map_val_some_mono h (ih.unary _)
    · rw [parse_unary_term A _ lx h1] at h ⊢
      exact ih.term lx r h
  · intro lx r h
    by_cases h1 : lx.curr_token.type = TokenNum
    · rw [parse_term_num A _ lx h1] at h ⊢
      exact h
    by_cases h2 : lx.curr_token.type = TokenLParen
    · rw [parse_term_lparen A _ lx h2] at h ⊢
      exact close_delim_some_mono h (ih.expr _)
    by_cases h3 : lx.curr_token.type = TokenLBracket
    · rw [parse_term_lbracket A _ lx h3] at h ⊢
      exact close_delim_some_mono h (ih.expr _)
    by_cases h4 : lx.curr_token.type = TokenName
    · rw [parse_term_name A _ lx h4] at h ⊢
      generalize table_lookup ((advance A lx).input.drop lx.curr_token.start)
        lx.curr_token.num_chars = o at h ⊢
      have key : ∀ f, map_val (A.call f) (fun_arg
            (decide ((advance A lx).curr_token.type = TokenLParen ∨
              (advance A lx).curr_token.type = TokenLBracket))
            (parse_term A n) (parse_pow A n) (advance A lx)) = some r →
          map_val (A.call f) (fun_arg
            (decide ((advance A lx).curr_token.type = TokenLParen ∨
              (advance A lx).curr_token.type = TokenLBracket))
            (parse_term A (n + 1)) (parse_pow A (n + 1)) (advance A lx)) = some r := by
        intro f hf
        refine map_val_some_mono hf ?_
        intro p hp
        unfold fun_arg at hp ⊢
        split_ifs at hp ⊢
        · exact ih.term _ _ hp
        · exact ih.pow _ _ hp
      cases o with
      | none => exact close_delim_some_mono h (ih.expr _)
      | some f => cases f <;> first | exact h | exact key _ h
    · rw [parse_term_stray A _ lx h1 h4 h2 h3] at h ⊢
      exact h

theorem fuelMono {α : Type} (A : Arith α) (n : Nat) : FuelMono A n := by
  induction n with
  | zero => exact fuelMono_zero A
  | succ n ih => exact fuelMono_succ A n ih

theorem parse_expr_mono {α : Type} (A : Arith α) {n m : Nat} (hnm : n ≤ m) {lx : Lexer α}
    {r : α × Lexer α} (h : parse_expr A n lx = some r) : parse_expr A m lx = some r := by
  induction hnm with
  | refl => exact h
  | step _ ih => exact (fuelMono A _).expr lx r ih

/-! ## Termination: the budget `fuelFor` always suffices -/

theorem Halts.weaken {α : Type} {o : Option (α × Lexer α)} {a b : Nat} (h : Halts o a)
    (hab : a ≤ b) : Halts o b := by
  obtain ⟨v, lx, h1, h2⟩ := h
  exact ⟨v, lx, h1, le_trans h2 hab⟩

theorem Halts.bind {α : Type} {o : Option (α × Lexer α)}
    {g : α × Lexer α → Option (α × Lexer α)} {a b : Nat} (h : Halts o a)
    (hg : ∀ v lx, lexMeasure lx ≤ a → Halts (g (v, lx)) b) : Halts (o.bind g) b := by
  obtain ⟨v, lx, h1, h2⟩ := h
  rw [h1]
  exact hg v lx h2

theorem Halts.map_val {α : Type} {o : Option (α × Lexer α)} {a : Nat} (f : α → α)
    (h : Halts o a) : Halts (map_val f o) a := by
  obtain ⟨v, lx, h1, h2⟩ := h
  rw [h1]
  exact ⟨f v, lx, rfl, h2⟩

theorem Halts.close_delim {α : Type} {A : Arith α} {o : Option (α × Lexer α)} {a : Nat}
    (tt : TokenType) (h : Halts o a) : Halts (close_delim A tt o) a := by
  obtain ⟨v, lx, h1, h2⟩ := h
  rw [h1]
  simp only [Calc.close_delim]
  split_ifs
  · exact ⟨v, advance A lx, rfl, le_trans (lexMeasure_advance_le A lx) h2⟩
  · exact ⟨A.INFINITY, lx, rfl, h2⟩

theorem total_term {α : Type} (A : Arith α) (m : Nat) (ih : ∀ k, k < m → Total A k)
    (lx : Lexer α) (hm : lexMeasure lx ≤ m) (fuel : Nat) (hf : 6 * m + 1 ≤ fuel) :
    Halts (parse_term A fuel lx) (lexMeasure lx) := by
  obtain ⟨f, rfl⟩ : ∃ f, fuel = f + 1 := ⟨fuel - 1, by omega⟩
  have hle := lexMeasure_advance_le A lx
  have hrec : lx.curr_token.type ≠ TokenInvalid →
      ∃ k, k < m ∧ lexMeasure (advance A lx) ≤ k ∧ 6 * k + 6 ≤ f ∧ Total A k := by
    intro hv
    have hlt := lexMeasure_advance_lt A lx hv
    exact ⟨m - 1, by omega, by omega, by omega, ih (m - 1) (by omega)⟩
  by_cases h1 : lx.curr_token.type = TokenNum
  · rw [parse_term_num A _ lx h1]
    exact ⟨_, _, rfl, hle⟩
  by_cases h2 : lx.curr_token.type = TokenLParen
  · rw [parse_term_lparen A _ lx h2]
    obtain ⟨k, hk, hk1, hk2, T⟩ := hrec (by rw [h2]; decide)
    exact Halts.close_delim _ ((T.expr _ hk1 f hk2).weaken hle)
  by_cases h3 : lx.curr_token.type = TokenLBracket
  · rw [parse_term_lbracket A _ lx h3]
    obtain ⟨k, hk, hk1, hk2, T⟩ := hrec (by rw [h3]; decide)
    exact Halts.close_delim _ ((T.expr _ hk1 f hk2).weaken hle)
  by_cases h4 : lx.curr_token.type = TokenName
  · rw [parse_term_name A _ lx h4]
    obtain ⟨k, hk, hk1, hk2, T⟩ := hrec (by rw [h4]; decide)
    generalize table_lookup ((advance A lx).input.drop lx.curr_token.start)
      lx.curr_token.num_chars = o
    have key : ∀ ent : Entry, Halts (map_val (A.call ent) (fun_arg
          (decide ((advance A lx).curr_token.type = TokenLParen ∨
            (advance A lx).curr_token.type = TokenLBracket))
          (parse_term A f) (parse_pow A f) (advance A lx))) (lexMeasure lx) := by
      intro ent
      apply Halts.map_val
      unfold fun_arg
      split_ifs
      · exact (T.term _ hk1 f (by omega)).weaken hle
      · exact (T.pow _ hk1 f (by omega)).weaken hle
    cases o with
    | none => exact Halts.close_delim _ ((T.expr _ hk1 f hk2).weaken hle)
    | some ent => cases ent <;> first | exact ⟨_, _, rfl, hle⟩ | exact key _
  · rw [parse_term_stray A _ lx h1 h4 h2 h3]
    exact ⟨_, _, rfl, hle⟩

theorem total_step {α : Type} (A : Arith α) (m : Nat) (ih : ∀ k, k < m → Total A k) :
    Total A m := by
  have hrec : ∀ lx : Lexer α, lexMeasure lx ≤ m → lx.curr_token.type ≠ TokenInvalid →
      ∃ k, k < m ∧ lexMeasure (advance A lx) ≤ k ∧ 6 * k + 6 ≤ 6 * m ∧ Total A k := by
    intro lx hm hv
    have hlt := lexMeasure_advance_lt A lx hv
    exact ⟨m - 1, by omega, by omega, by omega, ih (m - 1) (by omega)⟩
  have hterm := total_term A m ih
  have hunary : ∀ lx, lexMeasure lx ≤ m → ∀ fuel, 6 * m + 2 ≤ fuel →
      Halts (parse_unary A fuel lx) (lexMeasure lx) := by
    intro lx hm fuel hf
    obtain ⟨f, rfl⟩ : ∃ f, fuel = f + 1 := ⟨fuel - 1, by omega⟩
    by_cases h1 : lx.curr_token.type = TokenMinus
    · rw [parse_unary_minus A _ lx h1]
      obtain ⟨k, hk, hk1, hk2, T⟩ := hrec lx hm (by rw [h1]; decide)
      exact Halts.map_val _ ((T.unary _ hk1 f (by omega)).weaken (lexMeasure_advance_le A lx))
    · rw [parse_unary_term A _ lx h1]
      exact hterm lx hm f (by omega)
  have hpow_loop : ∀ v lx, lexMeasure lx ≤ m → ∀ fuel, 6 * m + 2 ≤ fuel →
      Halts (parse_pow_loop A fuel v lx) (lexMeasure lx) := by
    intro v lx hm fuel hf
    obtain ⟨f, rfl⟩ : ∃ f, fuel = f + 1 := ⟨fuel - 1, by omega⟩
    by_cases h1 : lx.curr_token.type = TokenCarot
    · rw [parse_pow_loop_carot A _ v lx h1]
      obtain ⟨k, hk, hk1, hk2, T⟩ := hrec lx hm (by rw [h1]; decide)
      refine Halts.bind (T.unary _ hk1 f (by omega)) ?_
      intro v2 lx2 h2
      exact (T.pow_loop _ lx2 (by omega) f (by omega)).weaken
        (by have := lexMeasure_advance_le A lx; omega)
    · rw [parse_pow_loop_exit A _ v lx h1]
      exact ⟨_, _, rfl, le_refl _⟩
  have hpow : ∀ lx, lexMeasure lx ≤ m → ∀ fuel, 6 * m + 3 ≤ fuel →
      Halts (parse_pow A fuel lx) (lexMeasure lx) := by
    intro lx hm fuel hf
    obtain ⟨f, rfl⟩ : ∃ f, fuel = f + 1 := ⟨fuel - 1, by omega⟩
    rw [parse_pow_succ]
    refine Halts.bind (hunary lx hm f (by omega)) ?_
    intro v2 lx2 h2
    exact (hpow_loop _ lx2 (by omega) f (by omega)).weaken h2
  have hmul_loop : ∀ v lx, lexMeasure lx ≤ m → ∀ fuel, 6 * m + 3 ≤ fuel →
      Halts (parse_mul_loop A fuel v lx) (lexMeasure lx) := by
    intro v lx hm fuel hf
    obtain ⟨f, rfl⟩ : ∃ f, fuel = f + 1 := ⟨fuel - 1, by omega⟩
    have hle := lexMeasure_advance_le A lx
    by_cases h1 : lx.curr_token.type = TokenStar
    · rw [parse_mul_loop_star A _ v lx h1]
      obtain ⟨k, hk, hk1, hk2, T⟩ := hrec lx hm (by rw [h1]; decide)
      refine Halts.bind (T.pow _ hk1 f (by omega)) ?_
      intro v2 lx2 h2
      exact (T.mul_loop _ lx2 (by omega) f (by omega)).weaken (by omega)
    by_cases h2 : lx.curr_token.type = TokenSlash
    · rw [parse_mul_loop_slash A _ v lx h2]
      obtain ⟨k, hk, hk1, hk2, T⟩ := hrec lx hm (by rw [h2]; decide)
      refine Halts.bind (T.pow _ hk1 f (by omega)) ?_
      intro v2 lx2 h2
      exact (T.mul_loop _ lx2 (by omega) f (by omega)).weaken (by omega)
    · rw [parse_mul_loop_exit A _ v lx h1 h2]
      exact ⟨_, _, rfl, le_refl _⟩
  have hmul : ∀ lx, lexMeasure lx ≤ m → ∀ fuel, 6 * m + 4 ≤ fuel →
      Halts (parse_mul A fuel lx) (lexMeasure lx) := by
    intro lx hm fuel hf
    obtain ⟨f, rfl⟩ : ∃ f, fuel = f + 1 := ⟨fuel - 1, by omega⟩
    rw [parse_mul_succ]
    refine Halts.bind (hpow lx hm f (by omega)) ?_
    intro v2 lx2 h2
    exact (hmul_loop _ lx2 (by omega) f (by omega)).weaken h2
  have hadd_loop : ∀ v lx, lexMeasure lx ≤ m → ∀ fuel, 6 * m + 4 ≤ fuel →
      Halts (parse_add_loop A fuel v lx) (lexMeasure lx) := by
    intro v lx hm fuel hf
    obtain ⟨f, rfl⟩ : ∃ f, fuel = f + 1 := ⟨fuel - 1, by omega⟩
    have hle := lexMeasure_advance_le A lx
    by_cases h1 : lx.curr_token.type = TokenPlus
    · rw [parse_add_loop_plus A _ v lx h1]
      obtain ⟨k, hk, hk1, hk2, T⟩ := hrec lx hm (by rw [h1]; decide)
      refine Halts.bind (T.mul _ hk1 f (by omega)) ?_
      intro v2 lx2 h2
      exact (T.add_loop _ lx2 (by omega) f (by omega)).weaken (by omega)
    by_cases h2 : lx.curr_token.type = TokenMinus
    · rw [parse_add_loop_minus A _ v lx h2]
      obtain ⟨k, hk, hk1, hk2, T⟩ := hrec lx hm (by rw [h2]; decide)
      refine Halts.bind (T.mul _ hk1 f (by omega)) ?_
      intro v2 lx2 h2
      exact (T.add_loop _ lx2 (by omega) f (by omega)).weaken (by omega)
    · rw [parse_add_loop_exit A _ v lx h1 h2]
      exact ⟨_, _, rfl, le_refl _⟩
  have hadd : ∀ lx, lexMeasure lx ≤ m → ∀ fuel, 6 * m + 5 ≤ fuel →
      Halts (parse_add A fuel lx) (lexMeasure lx) := by
    intro lx hm fuel hf
    obtain ⟨f, rfl⟩ : ∃ f, fuel = f + 1 := ⟨fuel - 1, by omega⟩
    rw [parse_add_succ]
    refine Halts.bind (hmul lx hm f (by omega)) ?_
    intro v2 lx2 h2
    exact (hadd_loop _ lx2 (by omega) f (by omega)).weaken h2
  refine ⟨hterm, hunary, hpow_loop, hpow, hmul_loop, hmul, hadd_loop, hadd, ?_⟩
  intro lx hm fuel hf
  obtain ⟨f, rfl⟩ : ∃ f, fuel = f + 1 := ⟨fuel - 1, by omega⟩
  rw [parse_expr_succ]
  exact hadd lx hm f (by omega)

theorem total_all {α : Type} (A : Arith α) (m : Nat) : Total A m := by
  induction m using Nat.strong_induction_on with
  | _ m ih => exact total_step A m ih

theorem parse_expr_halts {α : Type} (A : Arith α) (lx : Lexer α) (fuel : Nat)
    (hf : fuelFor lx ≤ fuel) : Halts (parse_expr A fuel lx) (lexMeasure lx) :=
  (total_all A (lexMeasure lx)).expr lx (le_refl _) fuel hf

/-! ## Budget monotonicity, per function -/

theorem mono_of_step {β : Type} (f : Nat → Option β)
    (hs : ∀ n r, f n = some r → f (n + 1) = some r) {n m : Nat} (h : n ≤ m) {r : β}
    (hn : f n = some r) : f m = some r := by
  induction h with
  | refl => exact hn
  | step _ ih => exact hs _ r ih

theorem parse_term_mono {α : Type} (A : Arith α) {n m : Nat} (h : n ≤ m) {lx : Lexer α}
    {r : α × Lexer α} (hn : parse_term A n lx = some r) : parse_term A m lx = some r :=
  mono_of_step (fun k => parse_term A k lx) (fun k r => (fuelMono A k).term lx r) h hn

theorem parse_unary_mono {α : Type} (A : Arith α) {n m : Nat} (h : n ≤ m) {lx : Lexer α}
    {r : α × Lexer α} (hn : parse_unary A n lx = some r) : parse_unary A m lx = some r :=
  mono_of_step (fun k => parse_unary A k lx) (fun k r => (fuelMono A k).unary lx r) h hn

theorem parse_pow_mono {α : Type} (A : Arith α) {n m : Nat} (h : n ≤ m) {lx : Lexer α}
    {r : α × Lexer α} (hn : parse_pow A n lx = some r) : parse_pow A m lx = some r :=
  mono_of_step (fun k => parse_pow A k lx) (fun k r => (fuelMono A k).pow lx r) h hn

theorem parse_mul_mono {α : Type} (A : Arith α) {n m : Nat} (h : n ≤ m) {lx : Lexer α}
    {r : α × Lexer α} (hn : parse_mul A n lx = some r) : parse_mul A m lx = some r :=
  mono_of_step (fun k => parse_mul A k lx) (fun k r => (fuelMono A k).mul lx r) h hn

theorem parse_add_mono {α : Type} (A : Arith α) {n m : Nat} (h : n ≤ m) {lx : Lexer α}
    {r : α × Lexer α} (hn : parse_add A n lx = some r) : parse_add A m lx = some r :=
  mono_of_step (fun k => parse_add A k lx) (fun k r => (fuelMono A k).add lx r) h hn

theorem parse_pow_loop_mono {α : Type} (A : Arith α) {n m : Nat} (h : n ≤ m) {v : α}
    {lx : Lexer α} {r : α × Lexer α} (hn : parse_pow_loop A n v lx = some r) :
    parse_pow_loop A m v lx = some r :=
  mono_of_step (fun k => parse_pow_loop A k v lx) (fun k r => (fuelMono A k).pow_loop v lx r) h hn

theorem parse_mul_loop_mono {α : Type} (A : Arith α) {n m : Nat} (h : n ≤ m) {v : α}
    {lx : Lexer α} {r : α × Lexer α} (hn : parse_mul_loop A n v lx = some r) :
    parse_mul_loop A m v lx = some r :=
  mono_of_step (fun k => parse_mul_loop A k v lx) (fun k r => (fuelMono A k).mul_loop v lx r) h hn

theorem parse_add_loop_mono {α : Type} (A : Arith α) {n m : Nat} (h : n ≤ m) {v : α}
    {lx : Lexer α} {r : α × Lexer α} (hn : parse_add_loop A n v lx = some r) :
    parse_add_loop A m v lx = some r :=
  mono_of_step (fun k => parse_add_loop A k v lx) (fun k r => (fuelMono A k).add_loop v lx r) h hn

/-! ## Token sequences -/

theorem reads_append {α : Type} (A : Arith α) (ts1 ts2 : List (Tok α)) :
    ∀ (lx lx2 : Lexer α), Reads A lx (ts1 ++ ts2) lx2 ↔
      ∃ lx1, Reads A lx ts1 lx1 ∧ Reads A lx1 ts2 lx2 := by
  induction ts1 with
  | nil =>
    intro lx lx2
    simp [Reads]
  | cons t ts ih =>
    intro lx lx2
    show (Matches lx t ∧ Reads A (advance A lx) (ts ++ ts2) lx2) ↔
      ∃ lx1, (Matches lx t ∧ Reads A (advance A lx) ts lx1) ∧ Reads A lx1 ts2 lx2
    rw [ih]
    constructor
    · rintro ⟨hm, lx1, h1, h2⟩
      exact ⟨lx1, ⟨hm, h1⟩, h2⟩
    · rintro ⟨lx1, ⟨hm, h1⟩, h2⟩
      exact ⟨hm, lx1, h1, h2⟩

theorem reads_input {α : Type} (A : Arith α) (ts : List (Tok α)) :
    ∀ (lx lx2 : Lexer α), Reads A lx ts lx2 → lx2.input = lx.input := by
  induction ts with
  | nil => intro lx lx2 h; simp [Reads] at h; rw [h]
  | cons t ts ih =>
    intro lx lx2 h
    rw [ih _ _ h.2, advance_input]

theorem matches_type {α : Type} {lx : Lexer α} {t : Tok α} (h : Matches lx t) :
    lx.curr_token.type = t.type := by
  cases t with
  | num v => exact h.1
  | name s => exact h.1
  | op tt => exact h

theorem toks_head {α : Type} (x : Expr α) :
    ∃ t rest, x.toks = t :: rest ∧ t.type = x.first_type := by
  induction x with
  | num v => exact ⟨_, _, rfl, rfl⟩
  | const_pi => exact ⟨_, _, rfl, rfl⟩
  | const_e => exact ⟨_, _, rfl, rfl⟩
  | paren x _ => exact ⟨_, _, rfl, rfl⟩
  | brack x _ => exact ⟨_, _, rfl, rfl⟩
  | stray tt => exact ⟨_, _, rfl, rfl⟩
  | unclosed_paren x _ => exact ⟨_, _, rfl, rfl⟩
  | unclosed_brack x _ => exact ⟨_, _, rfl, rfl⟩
  | call f x _ => exact ⟨_, _, rfl, rfl⟩
  | neg x _ => exact ⟨_, _, rfl, rfl⟩
  | pow a b iha _ =>
    obtain ⟨t, rest, h1, h2⟩ := iha
    exact ⟨t, rest ++ Tok.op TokenCarot :: b.toks, by simp [Expr.toks, h1], h2⟩
  | mul a b iha _ =>
    obtain ⟨t, rest, h1, h2⟩ := iha
    exact ⟨t, rest ++ Tok.op TokenStar :: b.toks, by simp [Expr.toks, h1], h2⟩
  | div a b iha _ =>
    obtain ⟨t, rest, h1, h2⟩ := iha
    exact ⟨t, rest ++ Tok.op TokenSlash :: b.toks, by simp [Expr.toks, h1], h2⟩
  | add a b iha _ =>
    obtain ⟨t, rest, h1, h2⟩ := iha
    exact ⟨t, rest ++ Tok.op TokenPlus :: b.toks, by simp [Expr.toks, h1], h2⟩
  | sub a b iha _ =>
    obtain ⟨t, rest, h1, h2⟩ := iha
    exact ⟨t, rest ++ Tok.op TokenMinus :: b.toks, by simp [Expr.toks, h1], h2⟩

theorem reads_first_type {α : Type} (A : Arith α) {x : Expr α} {lx lx2 : Lexer α}
    (h : Reads A lx x.toks lx2) : lx.curr_token.type = x.first_type := by
  obtain ⟨t, rest, h1, h2⟩ := toks_head x
  rw [h1] at h
  rw [← h2]
  exact matches_type h.1

theorem gram_term_first {α : Type} {x : Expr α} (h : Gram Level.term x) :
    x.first_type ≠ TokenMinus := by
  cases h <;> simp_all [Expr.first_type, starts_term]

/-! ## The name table on the exact names -/

theorem strncmp_take (n : Nat) :
    ∀ (s1 s2 : List Char), n ≤ s1.length → strncmp s1 s2 n = strncmp (s1.take n) s2 n := by
  induction n with
  | zero => intro s1 s2 _; simp [strncmp]
  | succ k ih =>
    intro s1 s2 hlen
    cases s1 with
    | nil => simp at hlen
    | cons c cs =>
      simp only [strncmp, List.take_succ_cons, List.headD_cons, List.tail_cons]
      rw [ih cs s2.tail (by simpa using hlen)]

theorem table_lookup_take (name : List Char) (n : Nat) (h : n ≤ name.length) :
    table_lookup name n = table_lookup (name.take n) n := by
  unfold table_lookup
  simp only [strncmp_take n name _ h]

theorem table_lookup_text (f : Entry) : table_lookup f.text f.text.length = some f := by
  cases f <;> decide

theorem table_lookup_of_matches {α : Type} {lx : Lexer α} {f : Entry}
    (h : Matches lx (Tok.name f.text)) :
    table_lookup (lx.input.drop lx.curr_token.start) lx.curr_token.num_chars = some f := by
  obtain ⟨_, h2, h3⟩ := h
  have hlen : f.text.length ≤ (lx.input.drop lx.curr_token.start).length := by
    have := congrArg List.length h3
    rw [List.length_take] at this
    omega
  rw [h2, table_lookup_take _ _ hlen, h3]
  exact table_lookup_text f

/-! ## Composition of a call with the loop that follows it -/

theorem pow_of_unary_loop {α : Type} (A : Arith α) {k n : Nat} {lx lx2 : Lexer α} {v : α}
    {r : α × Lexer α} (h1 : parse_unary A k lx = some (v, lx2))
    (h2 : parse_pow_loop A n v lx2 = some r) : ∃ m, parse_pow A m lx = some r := by
  refine ⟨max k n + 1, ?_⟩
  rw [parse_pow_succ, parse_unary_mono A (le_max_left k n) h1]
  exact parse_pow_loop_mono A (le_max_right k n) h2

theorem mul_of_pow_loop {α : Type} (A : Arith α) {k n : Nat} {lx lx2 : Lexer α} {v : α}
    {r : α × Lexer α} (h1 : parse_pow A k lx = some (v, lx2))
    (h2 : parse_mul_loop A n v lx2 = some r) : ∃ m, parse_mul A m lx = some r := by
  refine ⟨max k n + 1, ?_⟩
  rw [parse_mul_succ, parse_pow_mono A (le_max_left k n) h1]
  exact parse_mul_loop_mono A (le_max_right k n) h2

theorem add_of_mul_loop {α : Type} (A : Arith α) {k n : Nat} {lx lx2 : Lexer α} {v : α}
    {r : α × Lexer α} (h1 : parse_mul A k lx = some (v, lx2))
    (h2 : parse_add_loop A n v lx2 = some r) : ∃ m, parse_add A m lx = some r := by
  refine ⟨max k n + 1, ?_⟩
  rw [parse_add_succ, parse_mul_mono A (le_max_left k n) h1]
  exact parse_add_loop_mono A (le_max_right k n) h2

theorem pow_loop_step {α : Type} (A : Arith α) {k n : Nat} {lx1 lx2 : Lexer α} {va vb : α}
    {r : α × Lexer α} (hc : lx1.curr_token.type = TokenCarot)
    (h1 : parse_unary A k (advance A lx1) = some (vb, lx2))
    (h2 : parse_pow_loop A n (A.pow va vb) lx2 = some r) :
    ∃ m, parse_pow_loop A m va lx1 = some r := by
  refine ⟨max k n + 1, ?_⟩
  rw [parse_pow_loop_carot A _ va lx1 hc, parse_unary_mono A (le_max_left k n) h1]
  exact parse_pow_loop_mono A (le_max_right k n) h2

theorem mul_loop_step_star {α : Type} (A : Arith α) {k n : Nat} {lx1 lx2 : Lexer α}
    {va vb : α} {r : α × Lexer α} (hc : lx1.curr_token.type = TokenStar)
    (h1 : parse_pow A k (advance A lx1) = some (vb, lx2))
    (h2 : parse_mul_loop A n (A.mul va vb) lx2 = some r) :
    ∃ m, parse_mul_loop A m va lx1 = some r := by
  refine ⟨max k n + 1, ?_⟩
  rw [parse_mul_loop_star A _ va lx1 hc, parse_pow_mono A (le_max_left k n) h1]
  exact parse_mul_loop_mono A (le_max_right k n) h2

theorem mul_loop_step_slash {α : Type} (A : Arith α) {k n : Nat} {lx1 lx2 : Lexer α}
    {va vb : α} {r : α × Lexer α} (hc : lx1.curr_token.type = TokenSlash)
    (h1 : parse_pow A k (advance A lx1) = some (vb, lx2))
    (h2 : parse_mul_loop A n (A.div va vb) lx2 = some r) :
    ∃ m, parse_mul_loop A m va lx1 = some r := by
  refine ⟨max k n + 1, ?_⟩
  rw [parse_mul_loop_slash A _ va lx1 hc, parse_pow_mono A (le_max_left k n) h1]
  exact parse_mul_loop_mono A (le_max_right k n) h2

theorem add_loop_step_plus {α : Type} (A : Arith α) {k n : Nat} {lx1 lx2 : Lexer α}
    {va vb : α} {r : α × Lexer α} (hc : lx1.curr_token.type = TokenPlus)
    (h1 : parse_mul A k (advance A lx1) = some (vb, lx2))
    (h2 : parse_add_loop A n (A.add va vb) lx2 = some r) :
    ∃ m, parse_add_loop A m va lx1 = some r := by
  refine ⟨max k n + 1, ?_⟩
  rw [parse_add_loop_plus A _ va lx1 hc, parse_mul_mono A (le_max_left k n) h1]
  exact parse_add_loop_mono A (le_max_right k n) h2

theorem add_loop_step_minus {α : Type} (A : Arith α) {k n : Nat} {lx1 lx2 : Lexer α}
    {va vb : α} {r : α × Lexer α} (hc : lx1.curr_token.type = TokenMinus)
    (h1 : parse_mul A k (advance A lx1) = some (vb, lx2))
    (h2 : parse_add_loop A n (A.sub va vb) lx2 = some r) :
    ∃ m, parse_add_loop A m va lx1 = some r := by
  refine ⟨max k n + 1, ?_⟩
  rw [parse_add_loop_minus A _ va lx1 hc, parse_mul_mono A (le_max_left k n) h1]
  exact parse_add_loop_mono A (le_max_right k n) h2

/-! ## From the loop form to the function itself -/

theorem sound_pow_full {α : Type} (A : Arith α) {x : Expr α} (h : Sound A Level.pow x)
    {lx lx2 : Lexer α} (hr : Reads A lx x.toks lx2)
    (hf : x.follow_ok lx2.curr_token.type = true)
    (hc : lx2.curr_token.type ≠ TokenCarot) :
    ∃ m, parse_pow A m lx = some (x.val A, lx2) :=
  h lx lx2 hr hf 1 _ (parse_pow_loop_exit A 0 _ lx2 hc)

theorem sound_mul_full {α : Type} (A : Arith α) {x : Expr α} (h : Sound A Level.mul x)
    {lx lx2 : Lexer α} (hr : Reads A lx x.toks lx2)
    (hf : x.follow_ok lx2.curr_token.type = true)
    (hc : lx2.curr_token.type ≠ TokenCarot)
    (hs : lx2.curr_token.type ≠ TokenStar) (hd : lx2.curr_token.type ≠ TokenSlash) :
    ∃ m, parse_mul A m lx = some (x.val A, lx2) :=
  h lx lx2 hr hf hc 1 _ (parse_mul_loop_exit A 0 _ lx2 hs hd)

theorem sound_add_full {α : Type} (A : Arith α) {x : Expr α} (h : Sound A Level.add x)
    {lx lx2 : Lexer α} (hr : Reads A lx x.toks lx2)
    (hf : x.follow_ok lx2.curr_token.type = true)
    (hc : continues Level.add lx2.curr_token.type = false) :
    ∃ m, parse_add A m lx = some (x.val A, lx2) := by
  simp only [continues, decide_eq_false_iff_not, not_or] at hc
  exact h lx lx2 hr hf ⟨hc.1, hc.2.1, hc.2.2.1⟩ 1 _
    (parse_add_loop_exit A 0 _ lx2 hc.2.2.2.1 hc.2.2.2.2)

/-! ## Delimited terms and named functions -/

theorem delimited_sound {α : Type} (A : Arith α) {x : Expr α} (h : Sound A Level.add x)
    (closing : TokenType)
    (hcl : closing = TokenRParen ∨ closing = TokenRBracket)
    (hfo : x.follow_ok closing = true)
    {lx1 lx2 : Lexer α} (hr : Reads A lx1 (x.toks ++ [Tok.op closing]) lx2) :
    ∃ m, close_delim A closing (parse_expr A m lx1) = some (x.val A, lx2) := by
  rw [reads_append] at hr
  obtain ⟨lx3, h1, h2, h3⟩ := hr
  have ht : lx3.curr_token.type = closing := h2
  have h3 : lx2 = advance A lx3 := h3
  obtain ⟨m, hm⟩ := sound_add_full A h h1 (by rw [ht]; exact hfo)
    (by rw [ht]; rcases hcl with rfl | rfl <;> decide)
  refine ⟨m + 1, ?_⟩
  rw [parse_expr_succ, hm]
  simp only [close_delim]
  rw [if_pos ht, h3]

theorem unclosed_sound {α : Type} (A : Arith α) {x : Expr α} (h : Sound A Level.add x)
    (closing : TokenType) {lx1 lx2 : Lexer α} (hr : Reads A lx1 x.toks lx2)
    (hf : x.follow_ok lx2.curr_token.type = true)
    (hc : continues Level.add lx2.curr_token.type = false)
    (hne : lx2.curr_token.type ≠ closing) :
    ∃ m, close_delim A closing (parse_expr A m lx1) = some (A.INFINITY, lx2) := by
  obtain ⟨m, hm⟩ := sound_add_full A h hr hf hc
  refine ⟨m + 1, ?_⟩
  rw [parse_expr_succ, hm]
  simp only [close_delim]
  rw [if_neg hne]

theorem name_case_fun {α : Type} (A : Arith α) (n : Nat) (lx : Lexer α) (f : Entry)
    (hf : f.is_fun = true) :
    name_case A n lx (some f) =
      map_val (A.call f)
        (fun_arg (decide (lx.curr_token.type = TokenLParen ∨ lx.curr_token.type = TokenLBracket))
          (parse_term A n) (parse_pow A n) lx) := by
  cases f <;> first | rfl | simp [Entry.is_fun] at hf

theorem parse_term_call {α : Type} (A : Arith α) (n : Nat) (lx : Lexer α) (f : Entry)
    (hf : f.is_fun = true) (hm : Matches lx (Tok.name f.text)) :
    parse_term A (n + 1) lx =
      map_val (A.call f)
        (fun_arg (decide ((advance A lx).curr_token.type = TokenLParen ∨
            (advance A lx).curr_token.type = TokenLBracket))
          (parse_term A n) (parse_pow A n) (advance A lx)) := by
  rw [parse_term_name A n lx hm.1, advance_input, table_lookup_of_matches hm,
    name_case_fun A n _ f hf]

theorem parse_term_const {α : Type} (A : Arith α) (n : Nat) (lx : Lexer α) (f : Entry)
    (hm : Matches lx (Tok.name f.text)) :
    parse_term A (n + 1) lx = name_case A n (advance A lx) (some f) := by
  rw [parse_term_name A n lx hm.1, advance_input, table_lookup_of_matches hm]

/-! ## Soundness of the parser on every production -/

theorem sound_all {α : Type} (A : Arith α) {L : Level} {x : Expr α} (h : Gram L x) :
    Sound A L x := by
  induction h with
  | num v =>
    intro lx lx2 hr _
    obtain ⟨⟨h1, h2⟩, h3⟩ := hr
    have h3 : lx2 = advance A lx := h3
    exact ⟨1, by rw [parse_term_num A 0 lx h1, h2, h3]; rfl⟩
  | const_pi =>
    intro lx lx2 hr _
    obtain ⟨h1, h3⟩ := hr
    have h3 : lx2 = advance A lx := h3
    exact ⟨1, by rw [parse_term_const A 0 lx Entry.pi h1, h3]; rfl⟩
  | const_e =>
    intro lx lx2 hr _
    obtain ⟨h1, h3⟩ := hr
    have h3 : lx2 = advance A lx := h3
    exact ⟨1, by rw [parse_term_const A 0 lx Entry.e h1, h3]; rfl⟩
  | paren hx hfo ih =>
    intro lx lx2 hr _
    obtain ⟨h1, h2⟩ := hr
    obtain ⟨m, hm⟩ := delimited_sound A ih TokenRParen (Or.inl rfl) hfo h2
    exact ⟨m + 1, by rw [parse_term_lparen A m lx h1]; exact hm⟩
  | brack hx hfo ih =>
    intro lx lx2 hr _
    obtain ⟨h1, h2⟩ := hr
    obtain ⟨m, hm⟩ := delimited_sound A ih TokenRBracket (Or.inr rfl) hfo h2
    exact ⟨m + 1, by rw [parse_term_lbracket A m lx h1]; exact hm⟩
  | stray tt hs =>
    intro lx lx2 hr _
    obtain ⟨h1, h3⟩ := hr
    have h1 : lx.curr_token.type = tt := h1
    have h3 : lx2 = advance A lx := h3
    simp only [starts_term, decide_eq_false_iff_not, not_or] at hs
    exact ⟨1, by
      rw [parse_term_stray A 0 lx (by rw [h1]; exact hs.1) (by rw [h1]; exact hs.2.1)
        (by rw [h1]; exact hs.2.2.1) (by rw [h1]; exact hs.2.2.2.1), h3]; rfl⟩
  | unclosed_paren hx ih =>
    intro lx lx2 hr hf
    obtain ⟨h1, h2⟩ := hr
    simp only [Expr.follow_ok, Bool.and_eq_true, decide_eq_true_eq, Bool.not_eq_true'] at hf
    obtain ⟨m, hm⟩ := unclosed_sound A ih TokenRParen h2 hf.2 hf.1.2 hf.1.1
    exact ⟨m + 1, by rw [parse_term_lparen A m lx h1]; exact hm⟩
  | unclosed_brack hx ih =>
    intro lx lx2 hr hf
    obtain ⟨h1, h2⟩ := hr
    simp only [Expr.follow_ok, Bool.and_eq_true, decide_eq_true_eq, Bool.not_eq_true'] at hf
    obtain ⟨m, hm⟩ := unclosed_sound A ih TokenRBracket h2 hf.2 hf.1.2 hf.1.1
    exact ⟨m + 1, by rw [parse_term_lbracket A m lx h1]; exact hm⟩
  | call_delim f hf hx hd ih =>
    intro lx lx2 hr hfo
    obtain ⟨h1, h2⟩ := hr
    have hft := reads_first_type A h2
    simp only [Expr.follow_ok, Bool.and_eq_true] at hfo
    obtain ⟨m, hm⟩ := ih _ _ h2 hfo.2
    refine ⟨m + 1, ?_⟩
    rw [parse_term_call A m lx f hf h1]
    have hp : decide ((advance A lx).curr_token.type = TokenLParen ∨
        (advance A lx).curr_token.type = TokenLBracket) = true := by
      rw [hft]; exact hd
    rw [hp]
    simp only [fun_arg, if_true, hm]
    rfl
  | call_bare f hf hx hd ih =>
    intro lx lx2 hr hfo
    obtain ⟨h1, h2⟩ := hr
    have hft := reads_first_type A h2
    simp only [Expr.follow_ok, hd, Bool.false_or, Bool.and_eq_true, decide_eq_true_eq] at hfo
    obtain ⟨m, hm⟩ := sound_pow_full A ih h2 hfo.2 hfo.1
    refine ⟨m + 1, ?_⟩
    rw [parse_term_call A m lx f hf h1]
    have hp : decide ((advance A lx).curr_token.type = TokenLParen ∨
        (advance A lx).curr_token.type = TokenLBracket) = false := by
      rw [hft]; exact hd
    rw [hp]
    simp only [fun_arg, Bool.false_eq_true, if_false, hm]
    rfl
  | neg hx ih =>
    intro lx lx2 hr hc
    obtain ⟨h1, h2⟩ := hr
    obtain ⟨m, hm⟩ := ih _ _ h2 hc
    exact ⟨m + 1, by rw [parse_unary_minus A m lx h1, hm]; rfl⟩
  | of_term hx ih =>
    intro lx lx2 hr hc
    obtain ⟨m, hm⟩ := ih _ _ hr hc
    have hft := reads_first_type A hr
    have hne : lx.curr_token.type ≠ TokenMinus := by
      rw [hft]
      exact gram_term_first hx
    exact ⟨m + 1, by rw [parse_unary_term A m lx hne, hm]⟩
  | pow ha hopen hb iha ihb =>
    intro lx lx2 hr hc n r hloop
    have hr2 : Reads A lx (_ ++ Tok.op TokenCarot :: _) lx2 := hr
    rw [reads_append] at hr2
    obtain ⟨lx1, h1, h2, h3⟩ := hr2
    have ht : lx1.curr_token.type = TokenCarot := h2
    obtain ⟨k, hk⟩ := ihb _ _ h3 hc
    obtain ⟨m, hm⟩ := pow_loop_step A ht hk hloop
    exact iha lx lx1 h1 (by rw [ht]; exact hopen) m r hm
  | of_unary hx ih =>
    intro lx lx2 hr hc n r hloop
    obtain ⟨k, hk⟩ := ih _ _ hr hc
    exact pow_of_unary_loop A hk hloop
  | mul ha hopen hb iha ihb =>
    intro lx lx2 hr hf hc n r hloop
    have hr2 : Reads A lx (_ ++ Tok.op TokenStar :: _) lx2 := hr
    rw [reads_append] at hr2
    obtain ⟨lx1, h1, h2, h3⟩ := hr2
    have ht : lx1.curr_token.type = TokenStar := h2
    obtain ⟨k, hk⟩ := sound_pow_full A ihb h3 hf hc
    obtain ⟨m, hm⟩ := mul_loop_step_star A ht hk hloop
    exact iha lx lx1 h1 (by rw [ht]; exact hopen) (by rw [ht]; decide) m r hm
  | div ha hopen hb iha ihb =>
    intro lx lx2 hr hf hc n r hloop
    have hr2 : Reads A lx (_ ++ Tok.op TokenSlash :: _) lx2 := hr
    rw [reads_append] at hr2
    obtain ⟨lx1, h1, h2, h3⟩ := hr2
    have ht : lx1.curr_token.type = TokenSlash := h2
    obtain ⟨k, hk⟩ := sound_pow_full A ihb h3 hf hc
    obtain ⟨m, hm⟩ := mul_loop_step_slash A ht hk hloop
    exact iha lx lx1 h1 (by rw [ht]; exact hopen) (by rw [ht]; decide) m r hm
  | of_pow hx ih =>
    intro lx lx2 hr hf hc n r hloop
    obtain ⟨k, hk⟩ := sound_pow_full A ih hr hf hc
    exact mul_of_pow_loop A hk hloop
  | add ha hopen hb iha ihb =>
    intro lx lx2 hr hf hc n r hloop
    have hr2 : Reads A lx (_ ++ Tok.op TokenPlus :: _) lx2 := hr
    rw [reads_append] at hr2
    obtain ⟨lx1, h1, h2, h3⟩ := hr2
    have ht : lx1.curr_token.type = TokenPlus := h2
    obtain ⟨k, hk⟩ := sound_mul_full A ihb h3 hf hc.1 hc.2.1 hc.2.2
    obtain ⟨m, hm⟩ := add_loop_step_plus A ht hk hloop
    exact iha lx lx1 h1 (by rw [ht]; exact hopen) (by rw [ht]; decide) m r hm
  | sub ha hopen hb iha ihb =>
    intro lx lx2 hr hf hc n r hloop
    have hr2 : Reads A lx (_ ++ Tok.op TokenMinus :: _) lx2 := hr
    rw [reads_append] at hr2
    obtain ⟨lx1, h1, h2, h3⟩ := hr2
    have ht : lx1.curr_token.type = TokenMinus := h2
    obtain ⟨k, hk⟩ := sound_mul_full A ihb h3 hf hc.1 hc.2.1 hc.2.2
    obtain ⟨m, hm⟩ := add_loop_step_minus A ht hk hloop
    exact iha lx lx1 h1 (by rw [ht]; exact hopen) (by rw [ht]; decide) m r hm
  | of_mul hx ih =>
    intro lx lx2 hr hf hc n r hloop
    obtain ⟨k, hk⟩ := sound_mul_full A ih hr hf hc.1 hc.2.1 hc.2.2
    exact add_of_mul_loop A hk hloop

/-! ## Soundness with the budget `fuelFor` -/

theorem parse_level_mono {α : Type} (A : Arith α) (L : Level) {n m : Nat} (h : n ≤ m)
    {lx : Lexer α} {r : α × Lexer α} (hn : parse_level A L n lx = some r) :
    parse_level A L m lx = some r := by
  cases L
  · exact parse_term_mono A h hn
  · exact parse_unary_mono A h hn
  · exact parse_pow_mono A h hn
  · exact parse_mul_mono A h hn
  · exact parse_add_mono A h hn

theorem parse_level_halts {α : Type} (A : Arith α) (L : Level) (lx : Lexer α) (fuel : Nat)
    (hf : fuelFor lx ≤ fuel) : Halts (parse_level A L fuel lx) (lexMeasure lx) := by
  have T := total_all A (lexMeasure lx)
  unfold fuelFor at hf
  cases L
  · exact T.term lx (le_refl _) fuel (by omega)
  · exact T.unary lx (le_refl _) fuel (by omega)
  · exact T.pow lx (le_refl _) fuel (by omega)
  · exact T.mul lx (le_refl _) fuel (by omega)
  · exact T.add lx (le_refl _) fuel (by omega)

theorem parse_level_of_some {α : Type} (A : Arith α) (L : Level) {lx : Lexer α}
    {r : α × Lexer α} (h : ∃ m, parse_level A L m lx = some r) {fuel : Nat}
    (hf : fuelFor lx ≤ fuel) : parse_level A L fuel lx = some r := by
  obtain ⟨m, hm⟩ := h
  obtain ⟨v, lx3, h3, _⟩ := parse_level_halts A L lx fuel hf
  have e1 := parse_level_mono A L (le_max_left m fuel) hm
  have e2 := parse_level_mono A L (le_max_right m fuel) h3
  rw [e1] at e2
  rw [h3, ← Option.some.inj e2]

theorem parse_expr_of_some {α : Type} (A : Arith α) {lx : Lexer α}
    {r : α × Lexer α} (h : ∃ m, parse_add A m lx = some r) {fuel : Nat}
    (hf : fuelFor lx ≤ fuel) : parse_expr A fuel lx = some r := by
  obtain ⟨f, rfl⟩ : ∃ f, fuel = f + 1 := ⟨fuel - 1, by unfold fuelFor at hf; omega⟩
  obtain ⟨m, hm⟩ := h
  obtain ⟨v, lx3, h3, _⟩ := parse_expr_halts A lx (f + 1) hf
  rw [parse_expr_succ] at h3 ⊢
  have e1 := parse_add_mono A (le_max_left m f) hm
  have e2 := parse_add_mono A (le_max_right m f) h3
  rw [e1] at e2
  rw [h3, ← Option.some.inj e2]

theorem gram_lift_add {α : Type} {L : Level} {x : Expr α} (h : Gram L x) :
    Gram Level.add x := by
  cases L
  · exact Gram.of_mul (Gram.of_pow (Gram.of_unary (Gram.of_term h)))
  · exact Gram.of_mul (Gram.of_pow (Gram.of_unary h))
  · exact Gram.of_mul (Gram.of_pow h)
  · exact Gram.of_mul h
  · exact h

theorem level_exists {α : Type} (A : Arith α) {L : Level} {x : Expr α} (h : Gram L x)
    {lx lx2 : Lexer α} (hr : Reads A lx x.toks lx2)
    (hf : x.follow_ok lx2.curr_token.type = true)
    (hc : continues L lx2.curr_token.type = false) :
    ∃ m, parse_level A L m lx = some (x.val A, lx2) := by
  have S := sound_all A h
  cases L
  · exact S lx lx2 hr hf
  · exact S lx lx2 hr hf
  · exact sound_pow_full A S hr hf (by simpa [continues] using hc)
  · simp only [continues, decide_eq_false_iff_not, not_or] at hc
    exact sound_mul_full A S hr hf hc.1 hc.2.1 hc.2.2
  · exact sound_add_full A S hr hf hc

theorem level_sound {α : Type} (A : Arith α) {L : Level} {x : Expr α} (h : Gram L x)
    {lx lx2 : Lexer α} (hr : Reads A lx x.toks lx2)
    (hf : x.follow_ok lx2.curr_token.type = true)
    (hc : continues L lx2.curr_token.type = false) {fuel : Nat} (hfuel : fuelFor lx ≤ fuel) :
    parse_level A L fuel lx = some (x.val A, lx2) :=
  parse_level_of_some A L (level_exists A h hr hf hc) hfuel

theorem expr_sound {α : Type} (A : Arith α) {L : Level} {x : Expr α} (h : Gram L x)
    {lx lx2 : Lexer α} (hr : Reads A lx x.toks lx2)
    (hf : x.follow_ok lx2.curr_token.type = true)
    (hc : continues Level.add lx2.curr_token.type = false) {fuel : Nat}
    (hfuel : fuelFor lx ≤ fuel) :
    parse_expr A fuel lx = some (x.val A, lx2) :=
  parse_expr_of_some A (level_exists A (gram_lift_add h) hr hf hc) hfuel

theorem follow_ok_of_no_failure {α : Type} (x : Expr α) (tt : TokenType)
    (h : x.no_failure = true) (hc : tt ≠ TokenCarot) : x.follow_ok tt = true := by
  induction x with
  | num v => rfl
  | const_pi => rfl
  | const_e => rfl
  | paren x _ => rfl
  | brack x _ => rfl
  | stray t => simp [Expr.no_failure] at h
  | unclosed_paren x _ => simp [Expr.no_failure] at h
  | unclosed_brack x _ => simp [Expr.no_failure] at h
  | call f x ih =>
    simp only [Expr.no_failure] at h
    simp [Expr.follow_ok, ih h, hc]
  | neg x ih => exact ih h
  | pow a b _ ihb =>
    simp only [Expr.no_failure, Bool.and_eq_true] at h
    exact ihb h.2
  | mul a b _ ihb =>
    simp only [Expr.no_failure, Bool.and_eq_true] at h
    exact ihb h.2
  | div a b _ ihb =>
    simp only [Expr.no_failure, Bool.and_eq_true] at h
    exact ihb h.2
  | add a b _ ihb =>
    simp only [Expr.no_failure, Bool.and_eq_true] at h
    exact ihb h.2
  | sub a b _ ihb =>
    simp only [Expr.no_failure, Bool.and_eq_true] at h
    exact ihb h.2

theorem follow_ok_of_plain {α : Type} (x : Expr α) (tt : TokenType)
    (h : x.plain = true) : x.follow_ok tt = true := by
  induction x with
  | num v => rfl
  | const_pi => rfl
  | const_e => rfl
  | paren x _ => rfl
  | brack x _ => rfl
  | stray t => simp [Expr.plain] at h
  | unclosed_paren x _ => simp [Expr.plain] at h
  | unclosed_brack x _ => simp [Expr.plain] at h
  | call f x ih => simp [Expr.plain] at h
  | neg x ih => exact ih h
  | pow a b _ ihb =>
    simp only [Expr.plain, Bool.and_eq_true] at h
    exact ihb h.2
  | mul a b _ ihb =>
    simp only [Expr.plain, Bool.and_eq_true] at h
    exact ihb h.2
  | div a b _ ihb =>
    simp only [Expr.plain, Bool.and_eq_true] at h
    exact ihb h.2
  | add a b _ ihb =>
    simp only [Expr.plain, Bool.and_eq_true] at h
    exact ihb h.2
  | sub a b _ ihb =>
    simp only [Expr.plain, Bool.and_eq_true] at h
    exact ihb h.2

/-! ## Chains of `^` and runs of prefix minus -/

theorem chain_toks {α : Type} (us : List (Expr α)) :
    ∀ u0 : Expr α, (us.foldl Expr.pow u0).toks = chain_toks_of u0 us := by
  induction us with
  | nil => intro u0; simp [chain_toks_of]
  | cons u us ih =>
    intro u0
    rw [List.foldl_cons, ih]
    simp [Expr.toks, chain_toks_of]

theorem chain_val {α : Type} (A : Arith α) (us : List (Expr α)) :
    ∀ u0 : Expr α, (us.foldl Expr.pow u0).val A =
      (us.map (Expr.val A)).foldl A.pow (u0.val A) := by
  induction us with
  | nil => intro u0; rfl
  | cons u us ih =>
    intro u0
    rw [List.foldl_cons, ih]
    rfl

theorem caret_follows_head {α : Type} (us : List (Expr α)) (u0 w0 : Expr α)
    (h : u0.follow_ok TokenCarot = w0.follow_ok TokenCarot) :
    caret_follows u0 us ↔ caret_follows w0 us := by
  cases us with
  | nil => simp [caret_follows]
  | cons u us => simp [caret_follows, h]

theorem chain_gram {α : Type} (us : List (Expr α)) :
    ∀ u0 : Expr α, Gram Level.pow u0 → caret_follows u0 us →
      (∀ u ∈ us, Gram Level.unary u) → Gram Level.pow (us.foldl Expr.pow u0) := by
  induction us with
  | nil => intro u0 h _ _; exact h
  | cons u us ih =>
    intro u0 h0 hc h
    rw [List.foldl_cons]
    apply ih
    · exact Gram.pow h0 hc.1 (h u (by simp))
    · exact (caret_follows_head us (Expr.pow u0 u) u rfl).2 hc.2
    · intro w hw
      exact h w (by simp [hw])

theorem chain_last_follow {α : Type} (tt : TokenType) (us : List (Expr α)) :
    ∀ u0 : Expr α, (us.foldl Expr.pow u0).follow_ok tt = ((u0 :: us).getLastD u0).follow_ok tt := by
  induction us with
  | nil => intro u0; rfl
  | cons u us ih =>
    intro u0
    rw [List.foldl_cons, ih]
    cases us with
    | nil => rfl
    | cons w ws => simp [List.getLastD]

theorem negs_toks {α : Type} (t : Expr α) (n : Nat) :
    (Expr.neg^[n] t).toks = List.replicate n (Tok.op TokenMinus) ++ t.toks := by
  induction n with
  | zero => simp
  | succ n ih =>
    rw [Function.iterate_succ_apply', List.replicate_succ]
    simp [Expr.toks, ih]

theorem negs_val {α : Type} (A : Arith α) (t : Expr α) (n : Nat) :
    (Expr.neg^[n] t).val A = A.neg^[n] (t.val A) := by
  induction n with
  | zero => rfl
  | succ n ih =>
    rw [Function.iterate_succ_apply', Function.iterate_succ_apply']
    simp [Expr.val, ih]

theorem negs_follow {α : Type} (t : Expr α) (tt : TokenType) (n : Nat) :
    (Expr.neg^[n] t).follow_ok tt = t.follow_ok tt := by
  induction n with
  | zero => rfl
  | succ n ih =>
    rw [Function.iterate_succ_apply']
    simp [Expr.follow_ok, ih]

theorem negs_gram {α : Type} {t : Expr α} (h : Gram Level.term t) (n : Nat) :
    Gram Level.unary (Expr.neg^[n] t) := by
  induction n with
  | zero => exact Gram.of_term h
  | succ n ih =>
    rw [Function.iterate_succ_apply']
    exact Gram.neg ih

/-! ## The lexer on operators, literals and the end of the text -/

theorem charAt_append_cons (pre post : List Char) (c : Char) :
    charAt (pre ++ c :: post) pre.length = c := by
  induction pre with
  | nil => rfl
  | cons a as ih => simpa [charAt] using ih

theorem charAt_append_head (pre post : List Char) :
    charAt (pre ++ post) pre.length = post.headD NUL := by
  cases post with
  | nil =>
    rw [List.append_nil]
    unfold charAt
    rw [List.getD_eq_default _ _ (le_refl _)]
    rfl
  | cons c cs => rw [charAt_append_cons]; rfl

theorem lexer_get_token_single {α : Type} (A : Arith α) (lx : Lexer α) (pre post : List Char)
    (c : Char) (tt : TokenType) (hin : lx.input = pre ++ c :: post) (hpos : lx.pos = pre.length)
    (hc : single_char_type c = some tt) :
    lexer_get_token A lx =
      (true, { lx with
        curr_token := { Token.zeroed A with type := tt }
        pos := lx.pos + 1 }) := by
  have hch : charAt lx.input lx.pos = c := by rw [hin, hpos, charAt_append_cons]
  have hfuel : lx.input.length - lx.pos = post.length + 1 := by
    rw [hin, hpos]; simp
  have hnn : c ≠ NUL := by
    intro h
    have h0 : single_char_type NUL = none := by decide
    rw [h, h0] at hc
    exact Option.noConfusion hc
  have hns : is_space c = false := by
    cases hsp : is_space c with
    | false => rfl
    | true =>
      have h0 : single_char_type c = none := by
        simp only [is_space, decide_eq_true_eq] at hsp
        rcases hsp with h | h | h | h | h | h <;> rw [h] <;> decide
      rw [h0] at hc
      exact Option.noConfusion hc
  unfold lexer_get_token
  simp only [hfuel]
  unfold lexer_get_token_loop
  simp only [hch, hc, hns, ne_eq, hnn, not_false_eq_true, if_true, Bool.false_eq_true, if_false]

theorem lexer_get_token_end {α : Type} (A : Arith α) (lx : Lexer α)
    (hpos : lx.pos = lx.input.length) :
    lexer_get_token A lx = (false, { lx with curr_token := Token.zeroed A }) := by
  unfold lexer_get_token
  simp only [hpos, Nat.sub_self]
  rfl

theorem digit_or_dot_not_NUL {c : Char} (h : c.isDigit = true ∨ c = '.') : c ≠ NUL := by
  intro h0
  rw [h0] at h
  revert h
  decide

theorem digit_or_dot_not_space {c : Char} (h : c.isDigit = true ∨ c = '.') :
    is_space c = false := by
  cases hsp : is_space c with
  | false => rfl
  | true =>
    exfalso
    simp only [is_space, decide_eq_true_eq] at hsp
    rcases hsp with h0 | h0 | h0 | h0 | h0 | h0 <;> rw [h0] at h <;> revert h <;> decide

theorem digit_or_dot_not_single {c : Char} (h : c.isDigit = true ∨ c = '.') :
    single_char_type c = none := by
  unfold single_char_type
  split_ifs with h1 h2 h3 h4 h5 h6 h7 h8 h9
  all_goals first | rfl | (exfalso; subst_vars; revert h; decide)

theorem digit_is_alnum {c : Char} (h : c.isDigit = true) : isalnum c = true := by
  simp [isalnum, Char.isAlphanum, h]

theorem digit_ne_dot {c : Char} (h : c.isDigit = true) : c ≠ '.' := by
  intro h0
  rw [h0] at h
  revert h
  decide

theorem lex_decimal_loop_literal (l : List Char) :
    ∀ (pre post : List Char) (has_dot : Bool) (fuel : Nat),
      (∀ c ∈ l, c.isDigit = true ∨ c = '.') →
      l.count '.' ≤ (if has_dot = true then 0 else 1) →
      ends_literal post → l.length ≤ fuel →
      lex_decimal_loop (pre ++ l ++ post) fuel has_dot pre.length =
        (true, pre.length + l.length) := by
  induction l with
  | nil =>
    intro pre post has_dot fuel _ _ hb _
    cases fuel with
    | zero => rfl
    | succ f =>
      unfold lex_decimal_loop
      simp only [List.append_nil, charAt_append_head]
      rw [if_neg hb]
      rfl
  | cons c cs ih =>
    intro pre post has_dot fuel hall hcount hb hfuel
    obtain ⟨f, rfl⟩ : ∃ f, fuel = f + 1 := ⟨fuel - 1, by simp at hfuel; omega⟩
    have hc := hall c (by simp)
    have hch : charAt (pre ++ (c :: cs) ++ post) pre.length = c := by
      rw [List.append_assoc, List.cons_append, charAt_append_cons]
    have hcond : c ≠ NUL ∧ (isalnum c = true ∨ c = '.') := by
      refine ⟨digit_or_dot_not_NUL hc, ?_⟩
      rcases hc with h | h
      · exact Or.inl (digit_is_alnum h)
      · exact Or.inr h
    have hin : pre ++ (c :: cs) ++ post = (pre ++ [c]) ++ cs ++ post := by simp
    have hlen : (pre ++ [c]).length = pre.length + 1 := by simp
    have hrec : ∀ hd : Bool, cs.count '.' ≤ (if hd = true then 0 else 1) →
        lex_decimal_loop (pre ++ (c :: cs) ++ post) f hd (pre.length + 1) =
          (true, pre.length + (c :: cs).length) := by
      intro hd hcnt
      rw [hin, ← hlen, ih (pre ++ [c]) post hd f (fun d hdm => hall d (by simp [hdm])) hcnt hb
        (by simp at hfuel; omega)]
      simp
      omega
    unfold lex_decimal_loop
    simp only [hch]
    rw [if_pos hcond]
    by_cases hdig : c.isDigit = true
    · rw [if_pos hdig]
      apply hrec
      have : c ≠ '.' := digit_ne_dot hdig
      rw [List.count_cons_of_ne (Ne.symm this)] at hcount
      exact hcount
    · have hdot : c = '.' := by
        rcases hc with h | h
        · exact absurd h hdig
        · exact h
      rw [if_neg hdig, if_pos hdot]
      rw [hdot, List.count_cons_self] at hcount
      cases has_dot with
      | true => simp at hcount
      | false =>
        simp only [Bool.false_eq_true, if_false] at hcount ⊢
        apply hrec
        simp
        omega

theorem is_literal_spec {l : List Char} (h : is_literal l = true) :
    l ≠ [] ∧ (∀ c ∈ l, c.isDigit = true ∨ c = '.') ∧ l.count '.' ≤ 1 := by
  simp only [is_literal, Bool.and_eq_true, Bool.not_eq_true', List.isEmpty_eq_false,
    List.all_eq_true, Bool.or_eq_true, beq_iff_eq, decide_eq_true_eq] at h
  exact ⟨h.1.1, h.1.2, h.2⟩

theorem lexer_get_token_literal {α : Type} (A : Arith α) (lx : Lexer α)
    (pre l post : List Char) (hin : lx.input = pre ++ l ++ post) (hpos : lx.pos = pre.length)
    (hl : is_literal l = true) (hb : ends_literal post) :
    lexer_get_token A lx =
      (true, { lx with
        pos := lx.pos + l.length
        curr_token :=
          { type := TokenNum
            value := A.strtod (l ++ post)
            num_chars := l.length
            start := lx.pos % UNSIGNED_MOD
            end_ := (lx.pos + l.length) % UNSIGNED_MOD } }) := by
  obtain ⟨hne, hall, hcount⟩ := is_literal_spec hl
  obtain ⟨c, cs, rfl⟩ : ∃ c cs, l = c :: cs := by
    cases l with
    | nil => exact absurd rfl hne
    | cons c cs => exact ⟨c, cs, rfl⟩
  have hc := hall c (by simp)
  have hch : charAt lx.input lx.pos = c := by
    rw [hin, hpos, List.append_assoc, List.cons_append, charAt_append_cons]
  have hlenin : lx.input.length = pre.length + (c :: cs).length + post.length := by
    rw [hin]; simp; omega
  obtain ⟨f, hf⟩ : ∃ f, lx.input.length - lx.pos = f + 1 :=
    ⟨cs.length + post.length, by rw [hlenin, hpos]; simp; omega⟩
  have hloop : lex_decimal_loop lx.input (lx.input.length - lx.pos) false lx.pos =
      (true, lx.pos + (c :: cs).length) := by
    rw [hin, hpos]
    apply lex_decimal_loop_literal (c :: cs) pre post false _ hall (by simpa using hcount) hb
    simp
  have hdrop : lx.input.drop lx.pos = (c :: cs) ++ post := by
    rw [hin, hpos, List.append_assoc, List.drop_left]
  unfold lexer_get_token
  simp only [hf]
  unfold lexer_get_token_loop
  simp only [hch, digit_or_dot_not_single hc, digit_or_dot_not_space hc, ne_eq,
    digit_or_dot_not_NUL hc, not_false_eq_true, if_true, Bool.false_eq_true, if_false]
  rw [if_pos hc]
  unfold lex_decimal
  simp only [hloop, hdrop]
  congr 3
  omega

/-! ## Flat infix inputs: tokens, parser loops and the reference value -/

theorem binop_single (o : BinOp) : single_char_type o.char = some o.type := by
  cases o <;> decide

theorem ends_literal_render_rest (r : List (BinOp × List Char)) :
    ends_literal (render_rest r) := by
  cases r with
  | nil => intro h; exact h.1 rfl
  | cons p r =>
    obtain ⟨o, l⟩ := p
    intro h
    have h2 : (render_rest ((o, l) :: r)).headD NUL = o.char := rfl
    rw [h2] at h
    revert h
    cases o <;> decide

theorem reads_flat {α : Type} (A : Arith α) (rest : List (BinOp × List Char)) :
    ∀ (pre : List Char) (lx : Lexer α), lx.input = pre ++ render_rest rest →
      lx.pos = pre.length → (∀ p ∈ rest, is_literal p.2 = true) →
      ∃ lx2, Reads A (advance A lx) (item_toks (lit_values A rest)) lx2 ∧
        lx2.curr_token.type = TokenInvalid := by
  induction rest with
  | nil =>
    intro pre lx hin hpos _
    refine ⟨advance A lx, rfl, ?_⟩
    have hend : lx.pos = lx.input.length := by rw [hin, hpos]; simp [render_rest]
    unfold advance
    rw [lexer_get_token_end A lx hend]
    rfl
  | cons p r ih =>
    obtain ⟨o, l⟩ := p
    intro pre lx hin hpos hlit
    have hin1 : lx.input = pre ++ o.char :: (l ++ render_rest r) := hin
    have h1 := lexer_get_token_single A lx pre (l ++ render_rest r) o.char o.type hin1 hpos
      (binop_single o)
    have ha1 : advance A lx = { lx with
        curr_token := { Token.zeroed A with type := o.type }
        pos := lx.pos + 1 } := by
      unfold advance; rw [h1]
    have hin2 : (advance A lx).input = (pre ++ [o.char]) ++ l ++ render_rest r := by
      rw [ha1]; simp [hin1]
    have hpos2 : (advance A lx).pos = (pre ++ [o.char]).length := by
      rw [ha1]; simp [hpos]
    have h2 := lexer_get_token_literal A (advance A lx) (pre ++ [o.char]) l (render_rest r)
      hin2 hpos2 (hlit (o, l) (by simp)) (ends_literal_render_rest r)
    have ha2 := congrArg Prod.snd h2
    change advance A (advance A lx) = _ at ha2
    obtain ⟨lx2, hr, hinv⟩ := ih ((pre ++ [o.char]) ++ l) (advance A (advance A lx))
      (by rw [ha2]; exact hin2) (by rw [ha2]; simp [hpos2]; omega)
      (fun q hq => hlit q (by simp [hq]))
    refine ⟨lx2, ⟨?_, ?_, hr⟩, hinv⟩
    · show (advance A lx).curr_token.type = o.type
      rw [ha1]
    · show (advance A (advance A lx)).curr_token.type = TokenNum ∧
        (advance A (advance A lx)).curr_token.value = A.strtod (l ++ render_rest r)
      rw [ha2]
      exact ⟨rfl, rfl⟩

theorem reads_render {α : Type} (A : Arith α) (l0 : List Char)
    (rest : List (BinOp × List Char)) (h0 : is_literal l0 = true)
    (hrest : ∀ p ∈ rest, is_literal p.2 = true) :
    ∃ lx2, Reads A (primed A (render l0 rest))
        (Tok.num (A.strtod (render l0 rest)) :: item_toks (lit_values A rest)) lx2 ∧
      lx2.curr_token.type = TokenInvalid := by
  have hin : (Lexer.init A (render l0 rest)).input = [] ++ l0 ++ render_rest rest := rfl
  have h1 := lexer_get_token_literal A (Lexer.init A (render l0 rest)) [] l0 (render_rest rest)
    hin rfl h0 (ends_literal_render_rest rest)
  have ha := congrArg Prod.snd h1
  change primed A (render l0 rest) = _ at ha
  obtain ⟨lx2, hr, hinv⟩ := reads_flat A rest l0 (primed A (render l0 rest))
    (by rw [ha]; rfl) (by rw [ha]; simp [Lexer.init]) hrest
  refine ⟨lx2, ⟨?_, hr⟩, hinv⟩
  show (primed A (render l0 rest)).curr_token.type = TokenNum ∧
    (primed A (render l0 rest)).curr_token.value = A.strtod (render l0 rest)
  rw [ha]
  exact ⟨rfl, rfl⟩

theorem parse_pow_num {α : Type} (A : Arith α) (lx : Lexer α) (v : α)
    (hm : Matches lx (Tok.num v)) (hc : (advance A lx).curr_token.type ≠ TokenCarot) :
    ∃ k, parse_pow A k lx = some (v, advance A lx) :=
  level_exists A (L := Level.pow) (x := Expr.num v)
    (Gram.of_unary (Gram.of_term (Gram.num v))) ⟨hm, rfl⟩ rfl (by simp [continues, hc])

theorem item_toks_first {α : Type} (A : Arith α) (items : List (BinOp × α))
    (lx lx2 : Lexer α) (hr : Reads A lx (item_toks items) lx2)
    (hend : continues Level.add lx2.curr_token.type = false) :
    lx.curr_token.type ≠ TokenCarot := by
  cases items with
  | nil =>
    have h : lx2 = lx := hr
    rw [← h]
    simp only [continues, decide_eq_false_iff_not, not_or] at hend
    exact hend.1
  | cons p r =>
    obtain ⟨o, v⟩ := p
    have h : lx.curr_token.type = o.type := hr.1
    rw [h]
    cases o <;> decide

theorem loops_flat {α : Type} (A : Arith α) (items : List (BinOp × α)) :
    ∀ (g : α → α) (cur : α) (lx lx2 : Lexer α), Reads A lx (item_toks items) lx2 →
      continues Level.add lx2.curr_token.type = false →
      ∃ v lx1, (∃ m, parse_mul_loop A m cur lx = some (v, lx1)) ∧
        (∃ m, parse_add_loop A m (g v) lx1 = some (loop_eval A g cur items, lx2)) := by
  induction items with
  | nil =>
    intro g cur lx lx2 hr hend
    have h : lx2 = lx := hr
    subst h
    simp only [continues, decide_eq_false_iff_not, not_or] at hend
    exact ⟨cur, lx2, ⟨1, parse_mul_loop_exit A 0 cur lx2 hend.2.1 hend.2.2.1⟩,
      ⟨1, parse_add_loop_exit A 0 (g cur) lx2 hend.2.2.2.1 hend.2.2.2.2⟩⟩
  | cons p r ih =>
    obtain ⟨o, w⟩ := p
    intro g cur lx lx2 hr hend
    obtain ⟨h1, h2, h3⟩ := hr
    have ht : lx.curr_token.type = o.type := h1
    obtain ⟨k, hk⟩ := parse_pow_num A (advance A lx) w h2 (item_toks_first A r _ lx2 h3 hend)
    cases o with
    | star =>
      obtain ⟨v, lx1, ⟨m, hm⟩, hadd⟩ := ih g (A.mul cur w) _ lx2 h3 hend
      exact ⟨v, lx1, mul_loop_step_star A ht hk hm, hadd⟩
    | slash =>
      obtain ⟨v, lx1, ⟨m, hm⟩, hadd⟩ := ih g (A.div cur w) _ lx2 h3 hend
      exact ⟨v, lx1, mul_loop_step_slash A ht hk hm, hadd⟩
    | plus =>
      obtain ⟨v, lx1, ⟨m, hm⟩, ⟨n, hn⟩⟩ := ih (fun x => A.add (g cur) x) w _ lx2 h3 hend
      obtain ⟨k2, hk2⟩ := mul_of_pow_loop A hk hm
      exact ⟨cur, lx, ⟨1, parse_mul_loop_exit A 0 cur lx (by rw [ht]; decide)
        (by rw [ht]; decide)⟩, add_loop_step_plus A ht hk2 hn⟩
    | minus =>
      obtain ⟨v, lx1, ⟨m, hm⟩, ⟨n, hn⟩⟩ := ih (fun x => A.sub (g cur) x) w _ lx2 h3 hend
      obtain ⟨k2, hk2⟩ := mul_of_pow_loop A hk hm
      exact ⟨cur, lx, ⟨1, parse_mul_loop_exit A 0 cur lx (by rw [ht]; decide)
        (by rw [ht]; decide)⟩, add_loop_step_minus A ht hk2 hn⟩

theorem loop_eval_eq {α : Type} (A : Arith α) (items : List (BinOp × α)) :
    ∀ (g : α → α) (cur : α),
      loop_eval A g cur items = sum_terms A (g (collapse A cur items).1) (collapse A cur items).2 := by
  induction items with
  | nil => intro g cur; rfl
  | cons p r ih =>
    obtain ⟨o, w⟩ := p
    intro g cur
    cases o with
    | star => exact ih g (A.mul cur w)
    | slash => exact ih g (A.div cur w)
    | plus => exact ih (fun x => A.add (g cur) x) w
    | minus => exact ih (fun x => A.sub (g cur) x) w

theorem parse_add_flat {α : Type} (A : Arith α) (v0 : α) (items : List (BinOp × α))
    (lx lx2 : Lexer α) (hr : Reads A lx (Tok.num v0 :: item_toks items) lx2)
    (hend : continues Level.add lx2.curr_token.type = false) :
    ∃ m, parse_add A m lx = some (ref_eval A v0 items, lx2) := by
  obtain ⟨h1, h2⟩ := hr
  obtain ⟨k, hk⟩ := parse_pow_num A lx v0 h1 (item_toks_first A items _ lx2 h2 hend)
  obtain ⟨v, lx1, ⟨m, hm⟩, ⟨n, hn⟩⟩ := loops_flat A items id v0 _ lx2 h2 hend
  obtain ⟨k2, hk2⟩ := mul_of_pow_loop A hk hm
  obtain ⟨k3, hk3⟩ := add_of_mul_loop A hk2 hn
  refine ⟨k3, ?_⟩
  rw [hk3, loop_eval_eq]
  rfl

/-! ## The name table compares only as many characters as the token has -/

theorem char_sub_eq_zero {c d : Char} : (c.toNat : Int) - (d.toNat : Int) = 0 ↔ c = d := by
  constructor
  · intro h
    have h2 : c.toNat = d.toNat := by omega
    exact Char.ext (UInt32.ext h2)
  · intro h
    rw [h]
    omega

theorem strncmp_eq_zero_iff (t : List Char) :
    ∀ (rest lit : List Char), NUL ∉ t →
      (strncmp (t ++ rest) lit t.length = 0 ↔ t.isPrefixOf lit = true) := by
  induction t with
  | nil => intro rest lit _; simp [strncmp]
  | cons c cs ih =>
    intro rest lit hn
    have hc : c ≠ NUL := fun h => hn (by simp [h])
    have hcs : NUL ∉ cs := fun h => hn (by simp [h])
    cases lit with
    | nil =>
      simp only [List.cons_append, List.length_cons, strncmp, List.headD_cons, List.headD_nil,
        List.isPrefixOf_cons_nil]
      rw [if_pos hc, char_sub_eq_zero]
      simp [hc]
    | cons d ds =>
      simp only [List.cons_append, List.length_cons, strncmp, List.headD_cons, List.tail_cons,
        List.isPrefixOf_cons₂, Bool.and_eq_true, beq_iff_eq]
      by_cases hcd : c = d
      · subst hcd
        simp only [ne_eq, not_true_eq_false, if_false, if_neg hc, true_and]
        exact ih rest ds hcs
      · rw [if_pos hcd, char_sub_eq_zero]
        simp [hcd]

theorem table_lookup_eq_find (t rest : List Char) (ht : NUL ∉ t) :
    table_lookup (t ++ rest) t.length = table_order.find? (starts_name t) := by
  have key : ∀ f : Entry, (strncmp (t ++ rest) f.text t.length = 0) ↔ starts_name t f = true :=
    fun f => strncmp_eq_zero_iff t rest f.text ht
  have k1 := key Entry.pi
  have k2 := key Entry.e
  have k3 := key Entry.sin
  have k4 := key Entry.ln
  have k5 := key Entry.cos
  have k6 := key Entry.tan
  have k7 := key Entry.arcsin
  have k8 := key Entry.arccos
  have k9 := key Entry.arctan
  have k10 := key Entry.log
  have k11 := key Entry.lb
  have k12 := key Entry.myfunchere
  simp only [Entry.text] at k1 k2 k3 k4 k5 k6 k7 k8 k9 k10 k11 k12
  unfold table_lookup table_order
  cases h1 : starts_name t Entry.pi
  swap
  · rw [if_pos (k1.2 h1)]
    try simp only [List.find?, h1]
  rw [if_neg (fun hh => by rw [k1.1 hh] at h1; exact Bool.noConfusion h1)]
  simp only [List.find?, h1]
  cases h2 : starts_name t Entry.e
  swap
  · rw [if_pos (k2.2 h2)]
    try simp only [List.find?, h2]
  rw [if_neg (fun hh => by rw [k2.1 hh] at h2; exact Bool.noConfusion h2)]
  simp only [List.find?, h2]
  cases h3 : starts_name t Entry.sin
  swap
  · rw [if_pos (k3.2 h3)]
    try simp only [List.find?, h3]
  rw [if_neg (fun hh => by rw [k3.1 hh] at h3; exact Bool.noConfusion h3)]
  simp only [List.find?, h3]
  cases h4 : starts_name t Entry.ln
  swap
  · rw [if_pos (k4.2 h4)]
    try simp only [List.find?, h4]
  rw [if_neg (fun hh => by rw [k4.1 hh] at h4; exact Bool.noConfusion h4)]
  simp only [List.find?, h4]
  cases h5 : starts_name t Entry.cos
  swap
  · rw [if_pos (k5.2 h5)]
    try simp only [List.find?, h5]
  rw [if_neg (fun hh => by rw [k5.1 hh] at h5; exact Bool.noConfusion h5)]
  simp only [List.find?, h5]
  cases h6 : starts_name t Entry.tan
  swap
  · rw [if_pos (k6.2 h6)]
    try simp only [List.find?, h6]
  rw [if_neg (fun hh => by rw [k6.1 hh] at h6; exact Bool.noConfusion h6)]
  simp only [List.find?, h6]
  cases h7 : starts_name t Entry.arcsin
  swap
  · rw [if_pos (k7.2 h7)]
    try simp only [List.find?, h7]
  rw [if_neg (fun hh => by rw [k7.1 hh] at h7; exact Bool.noConfusion h7)]
  simp only [List.find?, h7]
  cases h8 : starts_name t Entry.arccos
  swap
  · rw [if_pos (k8.2 h8)]
    try simp only [List.find?, h8]
  rw [if_neg (fun hh => by rw [k8.1 hh] at h8; exact Bool.noConfusion h8)]
  simp only [List.find?, h8]
  cases h9 : starts_name t Entry.arctan
  swap
  · rw [if_pos (k9.2 h9)]
    try simp only [List.find?, h9]
  rw [if_neg (fun hh => by rw [k9.1 hh] at h9; exact Bool.noConfusion h9)]
  simp only [List.find?, h9]
  cases h10 : starts_name t Entry.log
  swap
  · rw [if_pos (k10.2 h10)]
    try simp only [List.find?, h10]
  rw [if_neg (fun hh => by rw [k10.1 hh] at h10; exact Bool.noConfusion h10)]
  simp only [List.find?, h10]
  cases h11 : starts_name t Entry.lb
  swap
  · rw [if_pos (k11.2 h11)]
    try simp only [List.find?, h11]
  rw [if_neg (fun hh => by rw [k11.1 hh] at h11; exact Bool.noConfusion h11)]
  simp only [List.find?, h11]
  cases h12 : starts_name t Entry.myfunchere
  swap
  · rw [if_pos (k12.2 h12)]
    try simp only [List.find?, h12]
  rw [if_neg (fun hh => by rw [k12.1 hh] at h12; exact Bool.noConfusion h12)]

/-! ## The lexer loops read only the text that starts at the cursor -/

theorem drop_of_lt {input : List Char} {pos : Nat} (h : pos < input.length) :
    input.drop pos = charAt input pos :: input.drop (pos + 1) := by
  rw [List.drop_eq_getElem_cons h]
  congr 1
  simp [charAt, List.getD_eq_getElem?_getD, List.getElem?_eq_getElem h]

theorem drop_of_ge {input : List Char} {pos : Nat} (h : input.length ≤ pos) :
    input.drop pos = [] ∧ charAt input pos = NUL :=
  ⟨List.drop_eq_nil_of_le h, by unfold charAt; exact List.getD_eq_default _ _ h⟩

theorem lex_decimal_loop_eq_scan (input : List Char) :
    ∀ (fuel : Nat) (has_dot : Bool) (pos : Nat), input.length - pos ≤ fuel →
      lex_decimal_loop input fuel has_dot pos =
        ((scan_decimal (input.drop pos) has_dot).1,
          pos + (scan_decimal (input.drop pos) has_dot).2) := by
  intro fuel
  induction fuel with
  | zero =>
    intro has_dot pos h
    rw [(drop_of_ge (by omega : input.length ≤ pos)).1]
    rfl
  | succ n ih =>
    intro has_dot pos h
    by_cases hlt : pos < input.length
    · rw [drop_of_lt hlt]
      unfold lex_decimal_loop scan_decimal
      simp only []
      by_cases h1 : charAt input pos ≠ NUL ∧ (isalnum (charAt input pos) = true ∨ charAt input pos = '.')
      · rw [if_pos h1, if_pos h1]
        by_cases h2 : (charAt input pos).isDigit = true
        · rw [if_pos h2, if_pos h2, ih has_dot (pos + 1) (by omega)]
          simp only [Prod.mk.injEq, true_and]
          omega
        · rw [if_neg h2, if_neg h2]
          by_cases h3 : charAt input pos = '.'
          · rw [if_pos h3, if_pos h3]
            cases has_dot with
            | true => simp
            | false =>
              simp only [Bool.false_eq_true, if_false]
              rw [ih true (pos + 1) (by omega)]
              simp only [Prod.mk.injEq, true_and]
              omega
          · rw [if_neg h3, if_neg h3]
      · rw [if_neg h1, if_neg h1]
        rfl
    · have hge := drop_of_ge (Nat.le_of_not_lt hlt)
      rw [hge.1]
      unfold lex_decimal_loop
      simp only [hge.2]
      rw [if_neg (by simp)]
      rfl

theorem lex_identifier_loop_eq_scan (input : List Char) :
    ∀ (fuel : Nat) (pos : Nat), input.length - pos ≤ fuel →
      lex_identifier_loop input fuel pos = pos + scan_ident (input.drop pos) := by
  intro fuel
  induction fuel with
  | zero =>
    intro pos h
    rw [(drop_of_ge (by omega : input.length ≤ pos)).1]
    rfl
  | succ n ih =>
    intro pos h
    by_cases hlt : pos < input.length
    · rw [drop_of_lt hlt]
      unfold lex_identifier_loop scan_ident
      simp only []
      by_cases h1 : charAt input pos ≠ NUL ∧ isalpha (charAt input pos) = true
      · rw [if_pos h1, if_pos h1, ih (pos + 1) (by omega)]
        omega
      · rw [if_neg h1, if_neg h1]
        rfl
    · have hge := drop_of_ge (Nat.le_of_not_lt hlt)
      rw [hge.1]
      unfold lex_identifier_loop
      simp only [hge.2]
      rw [if_neg (by simp)]
      rfl

theorem lex_decimal_eq_scan {α : Type} (A : Arith α) (lx : Lexer α) :
    lex_decimal A lx =
      assemble A lx
        ⟨(scan_decimal (lx.input.drop lx.pos) false).1,
          if (scan_decimal (lx.input.drop lx.pos) false).1 = true then TokenNum else TokenInvalid,
          0, (scan_decimal (lx.input.drop lx.pos) false).2⟩ := by
  unfold lex_decimal
  simp only []
  rw [lex_decimal_loop_eq_scan lx.input _ false lx.pos (Nat.le_refl _)]
  cases lx with
  | mk tok input len pos =>
    cases h : (scan_decimal (input.drop pos) false).1 with
    | false => simp [assemble, lexed_token, h]
    | true => simp [assemble, lexed_token, h]

theorem lex_identifier_eq_scan {α : Type} (A : Arith α) (lx : Lexer α) :
    (true, (lex_identifier lx).2) =
      assemble A lx ⟨true, TokenName, 0, scan_ident (lx.input.drop lx.pos)⟩ := by
  unfold lex_identifier
  simp only []
  rw [lex_identifier_loop_eq_scan lx.input _ lx.pos (Nat.le_refl _)]
  cases lx with
  | mk tok input len pos => simp [assemble, lexed_token]

theorem lexer_get_token_loop_eq_lex {α : Type} (A : Arith α) :
    ∀ (fuel : Nat) (lx : Lexer α), lx.input.length - lx.pos ≤ fuel →
      lexer_get_token_loop A fuel lx = assemble A lx (lex_text (lx.input.drop lx.pos)) := by
  intro fuel
  induction fuel with
  | zero =>
    intro lx h
    rw [(drop_of_ge (by omega : lx.input.length ≤ lx.pos)).1]
    cases lx
    simp [lexer_get_token_loop, assemble, lex_text, lexed_token]
  | succ n ih =>
    intro lx h
    by_cases hlt : lx.pos < lx.input.length
    · have hd := drop_of_lt hlt
      unfold lexer_get_token_loop
      simp only []
      rw [hd]
      unfold lex_text
      by_cases h1 : charAt lx.input lx.pos ≠ NUL
      · rw [if_pos h1, if_pos h1]
        by_cases h2 : is_space (charAt lx.input lx.pos) = true
        · rw [if_pos h2, if_pos h2, ih _ (by simp only []; omega)]
          simp only [assemble, lexed_token, Prod.mk.injEq, true_and]
          have e : ∀ a b : Nat, a + 1 + b = a + (b + 1) := by intros; omega
          cases lx
          simp only [e]
        · rw [if_neg h2, if_neg h2]
          rcases h3 : single_char_type (charAt lx.input lx.pos) with _ | tt
          · simp only []
            by_cases h4 : (charAt lx.input lx.pos).isDigit = true ∨ charAt lx.input lx.pos = '.'
            · rw [if_pos h4, if_pos h4, lex_decimal_eq_scan, hd]
            · rw [if_neg h4, if_neg h4]
              by_cases h5 : isalpha (charAt lx.input lx.pos) = true
              · rw [if_pos h5, if_pos h5, lex_identifier_eq_scan A, hd]
              · rw [if_neg h5, if_neg h5]
                cases lx
                simp [assemble, lexed_token]
          · simp only []
            have htt : tt ≠ TokenNum ∧ tt ≠ TokenName := by
              unfold single_char_type at h3
              repeat' split at h3
              all_goals first
                | (cases h3; exact ⟨by decide, by decide⟩)
                | cases h3
            cases lx
            simp [assemble, lexed_token, htt.1, htt.2]
      · rw [if_neg h1, if_neg h1]
        cases lx
        simp [assemble, lexed_token]
    · have hge := drop_of_ge (Nat.le_of_not_lt hlt)
      rw [hge.1]
      unfold lexer_get_token_loop
      simp only [hge.2]
      rw [if_neg (by simp)]
      cases lx
      simp [assemble, lex_text, lexed_token]

/-- One call of `lexer_get_token`, from the text that starts at the cursor. -/
theorem lexer_get_token_eq_lex {α : Type} (A : Arith α) (lx : Lexer α) :
    lexer_get_token A lx =
      assemble A { lx with curr_token := Token.zeroed A } (lex_text (lx.input.drop lx.pos)) := by
  unfold lexer_get_token
  exact lexer_get_token_loop_eq_lex A _ _ (Nat.le_refl _)

/-! ## What the scans find in a text -/

theorem is_run_char_NUL : is_run_char NUL = false := by decide

theorem isalpha_NUL : isalpha NUL = false := by decide

theorem is_space_NUL : is_space NUL = false := by decide

theorem alpha_not_digit {c : Char} (h : isalpha c = true) : c.isDigit = false := by
  cases hd : c.isDigit with
  | false => rfl
  | true =>
    exfalso
    simp only [isalpha, Char.isAlpha, Char.isUpper, Char.isLower, Char.isDigit, Bool.or_eq_true,
      Bool.and_eq_true, decide_eq_true_eq] at h hd
    have h2 : c.val.val.val ≤ 57 := hd.2
    rcases h with h | h
    · have h1 : 65 ≤ c.val.val.val := h.1
      omega
    · have h1 : 97 ≤ c.val.val.val := h.1
      omega

theorem alpha_ne_dot {c : Char} (h : isalpha c = true) : c ≠ '.' := by
  intro h0
  rw [h0] at h
  revert h
  decide

theorem alnum_cases {c : Char} (h : isalnum c = true) : c.isDigit = true ∨ isalpha c = true := by
  simp only [isalnum, Char.isAlphanum, Bool.or_eq_true] at h
  rcases h with h | h
  · exact Or.inr h
  · exact Or.inl h

theorem alpha_is_alnum {c : Char} (h : isalpha c = true) : isalnum c = true := by
  simp only [isalnum, Char.isAlphanum, Bool.or_eq_true]
  exact Or.inl h

theorem scan_ident_eq (s : List Char) : scan_ident s = (name_run s).length := by
  induction s with
  | nil => rfl
  | cons c cs ih =>
    unfold scan_ident name_run
    by_cases h : isalpha c = true
    · have h0 : c ≠ NUL := fun e => by rw [e, isalpha_NUL] at h; cases h
      rw [if_pos ⟨h0, h⟩, List.takeWhile_cons_of_pos h, ih]
      rfl
    · rw [if_neg (fun x => h x.2), List.takeWhile_cons_of_neg h]
      rfl

theorem scan_decimal_spec (s : List Char) :
    ∀ hd : Bool,
      ((scan_decimal s hd).1 = true ↔
        (∀ x ∈ literal_run s, x.isDigit = true ∨ x = '.') ∧
          (literal_run s).count '.' + hd.toNat ≤ 1) ∧
      ((scan_decimal s hd).1 = true → (scan_decimal s hd).2 = (literal_run s).length) := by
  induction s with
  | nil =>
    intro hd
    cases hd <;> simp [scan_decimal, literal_run]
  | cons c cs ih =>
    intro hd
    unfold scan_decimal
    by_cases h1 : c ≠ NUL ∧ (isalnum c = true ∨ c = '.')
    · have hrc : is_run_char c = true := by
        simp only [is_run_char, Bool.or_eq_true, beq_iff_eq]
        exact h1.2
      have hrun : literal_run (c :: cs) = c :: literal_run cs := by
        unfold literal_run
        exact List.takeWhile_cons_of_pos hrc
      rw [if_pos h1, hrun]
      by_cases h2 : c.isDigit = true
      · rw [if_pos h2]
        have hne := digit_ne_dot h2
        have hcount : (c :: literal_run cs).count '.' = (literal_run cs).count '.' :=
          List.count_cons_of_ne (fun e => hne e.symm) _
        rw [hcount]
        simp only [List.mem_cons, forall_eq_or_imp, h2, true_or, true_and, List.length_cons,
          Nat.add_right_cancel_iff]
        exact ih hd
      · rw [if_neg h2]
        by_cases h3 : c = '.'
        · rw [if_pos h3]
          subst h3
          simp only [List.count_cons_self, List.mem_cons, forall_eq_or_imp, or_true, true_and,
            List.length_cons]
          cases hd with
          | true => simp
          | false =>
            simp only [Bool.false_eq_true, if_false, Bool.toNat_false, Nat.add_zero,
              Nat.add_right_cancel_iff]
            have := ih true
            simp only [Bool.toNat_true] at this
            exact this
        · rw [if_neg h3]
          simp only [Bool.false_eq_true, false_iff, false_implies, and_true, not_and]
          intro hall
          exfalso
          rcases hall c (List.mem_cons_self _ _) with h | h
          · exact h2 h
          · exact h3 h
    · have hrc : is_run_char c = false := by
        cases hr : is_run_char c with
        | false => rfl
        | true =>
          exfalso
          apply h1
          constructor
          · intro e
            rw [e, is_run_char_NUL] at hr
            cases hr
          · simpa [is_run_char] using hr
      have hrun : literal_run (c :: cs) = [] := by
        unfold literal_run
        exact List.takeWhile_cons_of_neg (by rw [hrc]; simp)
      rw [if_neg h1, hrun]
      cases hd <;> simp

/-! ## The token found in a text -/

theorem single_not_NUL {c : Char} {tt : TokenType} (h : single_char_type c = some tt) :
    c ≠ NUL := by
  intro h0
  have hn : single_char_type NUL = none := by decide
  rw [h0, hn] at h
  cases h

theorem single_not_space {c : Char} {tt : TokenType} (h : single_char_type c = some tt) :
    is_space c = false := by
  unfold single_char_type at h
  repeat' split at h
  all_goals first
    | (subst_vars; decide)
    | cases h

theorem space_cases {c : Char} (h : is_space c = true) :
    c = ' ' ∨ c = '\t' ∨ c = '\n' ∨ c = '\r' ∨ c = Char.ofNat 7 ∨ c = Char.ofNat 11 := by
  simpa [is_space] using h

theorem space_not_alpha {c : Char} (h : is_space c = true) : isalpha c = false := by
  rcases space_cases h with h | h | h | h | h | h <;> (subst h; decide)

theorem space_not_run_char {c : Char} (h : is_space c = true) : is_run_char c = false := by
  rcases space_cases h with h | h | h | h | h | h <;> (subst h; decide)

theorem space_not_NUL {c : Char} (h : is_space c = true) : c ≠ NUL := by
  intro h0
  rw [h0, is_space_NUL] at h
  cases h

theorem alpha_not_space {c : Char} (h : isalpha c = true) : is_space c = false := by
  cases hs : is_space c with
  | false => rfl
  | true => rw [space_not_alpha hs] at h; cases h

theorem alpha_not_single {c : Char} (h : isalpha c = true) : single_char_type c = none := by
  unfold single_char_type
  split_ifs with h1 h2 h3 h4 h5 h6 h7 h8 h9
  all_goals first | rfl | (exfalso; subst_vars; revert h; decide)

theorem alpha_not_NUL {c : Char} (h : isalpha c = true) : c ≠ NUL := by
  intro h0
  rw [h0, isalpha_NUL] at h
  cases h

theorem lex_text_NUL (s : List Char) (h : s.headD NUL = NUL) :
    lex_text s = ⟨false, TokenInvalid, 0, 0⟩ := by
  cases s with
  | nil => rfl
  | cons c cs =>
    have hc : c = NUL := h
    unfold lex_text
    rw [if_neg (by simp [hc])]

theorem lex_text_space (c : Char) (cs : List Char) (h : is_space c = true) :
    lex_text (c :: cs) =
      ⟨(lex_text cs).flag, (lex_text cs).type, (lex_text cs).ws + 1, (lex_text cs).len⟩ := by
  rw [lex_text, if_pos (space_not_NUL h), if_pos h]

theorem lex_text_single (c : Char) (cs : List Char) (tt : TokenType)
    (h : single_char_type c = some tt) : lex_text (c :: cs) = ⟨true, tt, 0, 1⟩ := by
  rw [lex_text, if_pos (single_not_NUL h), if_neg (by simp [single_not_space h]), h]

theorem lex_text_digit (c : Char) (cs : List Char) (h : c.isDigit = true ∨ c = '.') :
    lex_text (c :: cs) =
      ⟨(scan_decimal (c :: cs) false).1,
        if (scan_decimal (c :: cs) false).1 = true then TokenNum else TokenInvalid,
        0, (scan_decimal (c :: cs) false).2⟩ := by
  rw [lex_text, if_pos (digit_or_dot_not_NUL h), if_neg (by simp [digit_or_dot_not_space h]),
    digit_or_dot_not_single h]
  simp only []
  rw [if_pos h]

theorem lex_text_alpha (c : Char) (cs : List Char) (h : isalpha c = true) :
    lex_text (c :: cs) = ⟨true, TokenName, 0, scan_ident (c :: cs)⟩ := by
  have hnd : ¬(c.isDigit = true ∨ c = '.') := by
    intro h2
    rcases h2 with h2 | h2
    · rw [alpha_not_digit h] at h2; cases h2
    · exact alpha_ne_dot h h2
  rw [lex_text, if_pos (alpha_not_NUL h), if_neg (by simp [alpha_not_space h]),
    alpha_not_single h]
  simp only []
  rw [if_neg hnd, if_pos h]

theorem lex_text_other (c : Char) (cs : List Char) (hs : is_space c = false)
    (h1 : single_char_type c = none) (h2 : ¬(c.isDigit = true ∨ c = '.'))
    (h3 : isalpha c = false) : lex_text (c :: cs) = ⟨false, TokenInvalid, 0, 0⟩ := by
  unfold lex_text
  by_cases h0 : c ≠ NUL
  · rw [if_pos h0, if_neg (by simp [hs]), h1]
    simp only []
    rw [if_neg h2, if_neg (by simp [h3])]
  · rw [if_neg h0]

theorem unblank_head_not_space (s : List Char) : is_space ((unblank s).headD NUL) = false := by
  induction s with
  | nil => exact is_space_NUL
  | cons c cs ih =>
    unfold unblank
    by_cases h : is_space c = true
    · rw [List.dropWhile_cons_of_pos h]
      exact ih
    · rw [List.dropWhile_cons_of_neg h]
      simpa using h

theorem blanks_append_unblank (s : List Char) : blanks s ++ unblank s = s :=
  List.takeWhile_append_dropWhile _ _

/-- The whitespace at the head of a text only moves the token found. -/
theorem lex_text_unblank (s : List Char) :
    lex_text s =
      ⟨(lex_text (unblank s)).flag, (lex_text (unblank s)).type, (blanks s).length,
        (lex_text (unblank s)).len⟩ ∧ (lex_text (unblank s)).ws = 0 := by
  induction s with
  | nil => exact ⟨rfl, rfl⟩
  | cons c cs ih =>
    by_cases h : is_space c = true
    · have hu : unblank (c :: cs) = unblank cs := List.dropWhile_cons_of_pos h
      have hb : blanks (c :: cs) = c :: blanks cs := List.takeWhile_cons_of_pos h
      rw [hu, hb, lex_text_space c cs h]
      refine ⟨?_, ih.2⟩
      rw [ih.1]
      rfl
    · have hu : unblank (c :: cs) = c :: cs := List.dropWhile_cons_of_neg h
      have hb : blanks (c :: cs) = [] := List.takeWhile_cons_of_neg h
      rw [hu, hb]
      have hws : (lex_text (c :: cs)).ws = 0 := by
        unfold lex_text
        by_cases h0 : c ≠ NUL
        · rw [if_pos h0, if_neg h]
          rcases h3 : single_char_type c with _ | tt
          · simp only []
            split_ifs <;> rfl
          · rfl
        · rw [if_neg h0]
      refine ⟨?_, hws⟩
      cases hl : lex_text (c :: cs) with
      | mk f t w l =>
        rw [hl] at hws
        simp only at hws
        subst hws
        rfl

/-! ## The fields of the lexer state after a call -/

theorem lexer_get_token_flag {α : Type} (A : Arith α) (lx : Lexer α) :
    (lexer_get_token A lx).1 = (lex_text (unblank lx.rest)).flag := by
  rw [lexer_get_token_eq_lex, assemble, (lex_text_unblank _).1]
  rfl

theorem lexer_get_token_pos {α : Type} (A : Arith α) (lx : Lexer α) :
    (lexer_get_token A lx).2.pos = lx.next_index + (lex_text (unblank lx.rest)).len := by
  rw [lexer_get_token_eq_lex, assemble, (lex_text_unblank _).1]
  rfl

theorem lexer_get_token_input {α : Type} (A : Arith α) (lx : Lexer α) :
    (lexer_get_token A lx).2.input = lx.input := by
  rw [lexer_get_token_eq_lex, assemble]

theorem lexer_get_token_tok {α : Type} (A : Arith α) (lx : Lexer α) :
    (lexer_get_token A lx).2.curr_token =
      lexed_token A { lx with curr_token := Token.zeroed A }
        ⟨(lex_text (unblank lx.rest)).flag, (lex_text (unblank lx.rest)).type,
          (blanks lx.rest).length, (lex_text (unblank lx.rest)).len⟩ := by
  rw [lexer_get_token_eq_lex, assemble]
  simp only []
  rw [← (lex_text_unblank _).1]
  rfl

theorem lexer_get_token_tok_fail {α : Type} (A : Arith α) (lx : Lexer α)
    (h : (lexer_get_token A lx).1 = false) :
    (lexer_get_token A lx).2.curr_token = Token.zeroed A := by
  rw [lexer_get_token_flag] at h
  rw [lexer_get_token_tok, lexed_token]
  simp [h]

theorem lexer_get_token_type {α : Type} (A : Arith α) (lx : Lexer α)
    (h : (lexer_get_token A lx).1 = true) :
    (lexer_get_token A lx).2.curr_token.type = (lex_text (unblank lx.rest)).type := by
  rw [lexer_get_token_flag] at h
  rw [lexer_get_token_tok, lexed_token]
  simp only [h, Bool.true_eq_false, if_false]
  split_ifs with h1 h2
  · exact h1.symm
  · exact h2.symm
  · rfl

theorem next_index_text {α : Type} (lx : Lexer α) :
    lx.input.drop lx.next_index = unblank lx.rest := by
  unfold Lexer.next_index
  rw [← List.drop_drop]
  change List.drop (blanks lx.rest).length lx.rest = _
  have h := List.drop_left (blanks lx.rest) (unblank lx.rest)
  rw [blanks_append_unblank] at h
  exact h

theorem next_index_lt {α : Type} (lx : Lexer α) (h : lx.next_char ≠ NUL) :
    lx.next_index < lx.input.length := by
  by_contra hge
  have h1 := List.drop_eq_nil_of_le (Nat.le_of_not_lt hge)
  rw [next_index_text] at h1
  apply h
  unfold Lexer.next_char
  rw [h1]
  rfl

theorem unblank_of_next_char {α : Type} (lx : Lexer α) (h : lx.next_char ≠ NUL) :
    ∃ cs, unblank lx.rest = lx.next_char :: cs := by
  unfold Lexer.next_char at *
  cases hu : unblank lx.rest with
  | nil => rw [hu] at h; exact absurd rfl h
  | cons c cs => exact ⟨cs, rfl⟩

theorem next_char_not_space {α : Type} (lx : Lexer α) : is_space lx.next_char = false :=
  unblank_head_not_space _

theorem single_none_iff (c : Char) : single_char_type c = none ↔ c ∉ operator_chars := by
  unfold single_char_type operator_chars
  constructor
  · intro h
    repeat' split at h
    all_goals first
      | (simp only [List.mem_cons, List.mem_singleton, List.not_mem_nil, or_false, not_or]
         exact ⟨by assumption, by assumption, by assumption, by assumption, by assumption,
           by assumption, by assumption, by assumption, by assumption⟩)
      | cases h
  · intro h
    simp only [List.mem_cons, List.mem_singleton, List.not_mem_nil, or_false, not_or] at h
    simp [h]

theorem run_char_of_mem {x : Char} {s : List Char} (h : x ∈ literal_run s) :
    is_run_char x = true :=
  List.mem_takeWhile_imp h

theorem scan_decimal_fails_iff (s : List Char) :
    (scan_decimal s false).1 = false ↔
      ((∃ x ∈ literal_run s, isalpha x = true) ∨ 2 ≤ (literal_run s).count '.') := by
  have hs := (scan_decimal_spec s false).1
  simp only [Bool.toNat_false, Nat.add_zero] at hs
  constructor
  · intro hf
    by_cases hc : (literal_run s).count '.' ≤ 1
    · left
      by_contra hne
      have hall : ∀ x ∈ literal_run s, x.isDigit = true ∨ x = '.' := by
        intro x hx
        by_contra hx2
        apply hne
        refine ⟨x, hx, ?_⟩
        have hr := run_char_of_mem hx
        simp only [is_run_char, Bool.or_eq_true, beq_iff_eq] at hr
        rcases hr with hr | hr
        · rcases alnum_cases hr with hd | ha
          · exact absurd (Or.inl hd) hx2
          · exact ha
        · exact absurd (Or.inr hr) hx2
      rw [hs.mpr ⟨hall, hc⟩] at hf
      cases hf
    · right
      omega
  · intro h
    cases hf : (scan_decimal s false).1 with
    | false => rfl
    | true =>
      exfalso
      have h2 := hs.mp hf
      rcases h with ⟨x, hx, ha⟩ | h
      · rcases h2.1 x hx with hd | hd
        · rw [alpha_not_digit ha] at hd
          cases hd
        · exact alpha_ne_dot ha hd
      · omega

/-! ## Number and name tokens -/

theorem lex_text_num (u : List Char) (hc : (u.headD NUL).isDigit = true ∨ u.headD NUL = '.')
    (hr : ∀ x ∈ literal_run u, x.isDigit = true ∨ x = '.')
    (hdot : (literal_run u).count '.' ≤ 1) :
    lex_text u = ⟨true, TokenNum, 0, (literal_run u).length⟩ := by
  cases u with
  | nil => exact absurd hc (by decide)
  | cons c cs =>
    have hs := scan_decimal_spec (c :: cs) false
    have h1 : (scan_decimal (c :: cs) false).1 = true := hs.1.mpr ⟨hr, by simpa using hdot⟩
    rw [lex_text_digit c cs hc, h1, hs.2 h1]
    rfl

theorem lex_text_name (u : List Char) (hc : isalpha (u.headD NUL) = true) :
    lex_text u = ⟨true, TokenName, 0, (name_run u).length⟩ := by
  cases u with
  | nil => exact absurd hc (by decide)
  | cons c cs => rw [lex_text_alpha c cs hc, scan_ident_eq]

theorem literal_run_length_le (u : List Char) : (literal_run u).length ≤ u.length :=
  (List.takeWhile_sublist _).length_le

theorem name_run_length_le (u : List Char) : (name_run u).length ≤ u.length :=
  (List.takeWhile_sublist _).length_le

theorem unblank_length {α : Type} (lx : Lexer α) :
    (unblank lx.rest).length = lx.input.length - lx.next_index := by
  rw [← next_index_text, List.length_drop]

/-- A call of `lexer_get_token` at a numeral. -/
theorem lexer_get_token_num {α : Type} (A : Arith α) (lx : Lexer α)
    (hc : lx.next_char.isDigit = true ∨ lx.next_char = '.')
    (hr : ∀ x ∈ literal_run (unblank lx.rest), x.isDigit = true ∨ x = '.')
    (hdot : (literal_run (unblank lx.rest)).count '.' ≤ 1) :
    lexer_get_token A lx =
      (true, { lx with
        pos := lx.next_index + (literal_run (unblank lx.rest)).length
        curr_token :=
          { type := TokenNum
            value := A.strtod (lx.input.drop lx.next_index)
            num_chars := (literal_run (unblank lx.rest)).length
            start := lx.next_index % UNSIGNED_MOD
            end_ := (lx.next_index + (literal_run (unblank lx.rest)).length) % UNSIGNED_MOD } }) := by
  rw [lexer_get_token_eq_lex, (lex_text_unblank _).1]
  change assemble A _ ⟨(lex_text (unblank lx.rest)).flag, (lex_text (unblank lx.rest)).type,
    (blanks lx.rest).length, (lex_text (unblank lx.rest)).len⟩ = _
  rw [lex_text_num _ hc hr hdot]
  rfl

/-- A call of `lexer_get_token` at a letter. -/
theorem lexer_get_token_name {α : Type} (A : Arith α) (lx : Lexer α)
    (hc : isalpha lx.next_char = true) :
    lexer_get_token A lx =
      (true, { lx with
        pos := lx.next_index + (name_run (unblank lx.rest)).length
        curr_token :=
          { type := TokenName
            value := A.zero
            num_chars := (name_run (unblank lx.rest)).length
            start := lx.next_index % UNSIGNED_MOD
            end_ := (lx.next_index + (name_run (unblank lx.rest)).length) % UNSIGNED_MOD } }) := by
  rw [lexer_get_token_eq_lex, (lex_text_unblank _).1]
  change assemble A _ ⟨(lex_text (unblank lx.rest)).flag, (lex_text (unblank lx.rest)).type,
    (blanks lx.rest).length, (lex_text (unblank lx.rest)).len⟩ = _
  rw [lex_text_name _ hc]
  rfl

theorem literal_run_append (u : List Char) :
    u = literal_run u ++ u.dropWhile is_run_char ∧ ends_literal (u.dropWhile is_run_char) := by
  refine ⟨(List.takeWhile_append_dropWhile _ _).symm, ?_⟩
  unfold ends_literal
  intro h
  cases hd : u.dropWhile is_run_char with
  | nil => rw [hd] at h; exact h.1 rfl
  | cons c cs =>
    rw [hd] at h
    have hn : ¬is_run_char c = true := by
      have := List.head_dropWhile_not is_run_char u (by rw [hd]; simp)
      simpa [hd] using this
    apply hn
    simpa [is_run_char] using h.2

theorem literal_run_is_literal (u : List Char)
    (hc : (u.headD NUL).isDigit = true ∨ u.headD NUL = '.')
    (hr : ∀ x ∈ literal_run u, x.isDigit = true ∨ x = '.')
    (hdot : (literal_run u).count '.' ≤ 1) : is_literal (literal_run u) = true := by
  have hne : literal_run u ≠ [] := by
    cases u with
    | nil => exact absurd hc (by decide)
    | cons c cs =>
      have hrc : is_run_char c = true := by
        simp only [is_run_char, Bool.or_eq_true, beq_iff_eq]
        rcases hc with h | h
        · exact Or.inl (digit_is_alnum h)
        · exact Or.inr h
      unfold literal_run
      rw [List.takeWhile_cons_of_pos hrc]
      simp
  simp only [is_literal, Bool.and_eq_true, Bool.not_eq_true', List.isEmpty_eq_false,
    List.all_eq_true, Bool.or_eq_true, beq_iff_eq, decide_eq_true_eq]
  exact ⟨⟨hne, hr⟩, hdot⟩

/-! ## The model of `strtod` reads no further than the numeral -/

theorem literal_split (l : List Char) (hall : ∀ c ∈ l, c.isDigit = true ∨ c = '.')
    (hcount : l.count '.' ≤ 1) :
    (∀ c ∈ l, c.isDigit = true) ∨
      ∃ ds fp, l = ds ++ '.' :: fp ∧ (∀ c ∈ ds, c.isDigit = true) ∧
        (∀ c ∈ fp, c.isDigit = true) := by
  induction l with
  | nil => exact Or.inl (fun c hc => absurd hc (List.not_mem_nil c))
  | cons a as ih =>
    have hall2 : ∀ c ∈ as, c.isDigit = true ∨ c = '.' :=
      fun c hc => hall c (List.mem_cons_of_mem _ hc)
    by_cases ha : a = '.'
    · subst ha
      right
      have hc0 : as.count '.' = 0 := by
        rw [List.count_cons_self] at hcount
        omega
      refine ⟨[], as, rfl, fun c hc => absurd hc (List.not_mem_nil c), fun c hc => ?_⟩
      rcases hall2 c hc with h | h
      · exact h
      · exfalso
        rw [h] at hc
        exact (List.count_eq_zero.mp hc0) hc
    · have had : a.isDigit = true := by
        rcases hall a (List.mem_cons_self _ _) with h | h
        · exact h
        · exact absurd h ha
      have hc1 : as.count '.' ≤ 1 := by
        rw [List.count_cons_of_ne (fun e => ha e.symm)] at hcount
        exact hcount
      rcases ih hall2 hc1 with h | ⟨ds, fp, h1, h2, h3⟩
      · left
        intro c hc
        rcases List.mem_cons.mp hc with h0 | h0
        · rw [h0]; exact had
        · exact h c h0
      · right
        refine ⟨a :: ds, fp, by rw [h1]; rfl, fun c hc => ?_, h3⟩
        rcases List.mem_cons.mp hc with h0 | h0
        · rw [h0]; exact had
        · exact h2 c h0

theorem ends_literal_facts {post : List Char} (h : ends_literal post) :
    post.takeWhile Char.isDigit = [] ∧ post.dropWhile Char.isDigit = post ∧
      post.headD NUL ≠ '.' ∧ post.headD NUL ≠ 'e' ∧ post.headD NUL ≠ 'E' ∧
      post.headD NUL ≠ 'x' ∧ post.headD NUL ≠ 'X' := by
  unfold ends_literal at h
  cases post with
  | nil => exact ⟨rfl, rfl, by decide, by decide, by decide, by decide, by decide⟩
  | cons c cs =>
    simp only [List.headD_cons] at h ⊢
    have hnd : ¬c.isDigit = true := fun hd =>
      h ⟨digit_or_dot_not_NUL (Or.inl hd), Or.inl (digit_is_alnum hd)⟩
    have hne : ∀ d : Char, d ≠ NUL → (isalnum d = true ∨ d = '.') → c ≠ d := by
      intro d h1 h2 hcd
      subst hcd
      exact h ⟨h1, h2⟩
    refine ⟨List.takeWhile_cons_of_neg hnd, List.dropWhile_cons_of_neg hnd, ?_, ?_, ?_, ?_, ?_⟩
    · exact hne _ (by decide) (Or.inr rfl)
    · exact hne _ (by decide) (Or.inl (by decide))
    · exact hne _ (by decide) (Or.inl (by decide))
    · exact hne _ (by decide) (Or.inl (by decide))
    · exact hne _ (by decide) (Or.inl (by decide))

theorem digits_takeWhile (ds s : List Char) (h : ∀ c ∈ ds, c.isDigit = true) :
    (ds ++ s).takeWhile Char.isDigit = ds ++ s.takeWhile Char.isDigit ∧
      (ds ++ s).dropWhile Char.isDigit = s.dropWhile Char.isDigit :=
  ⟨List.takeWhile_append_of_pos h, List.dropWhile_append_of_pos h⟩

theorem Dbl.strtod_reads_only_literal : reads_only_literal Dbl.arith := by
  intro l post hl hp
  obtain ⟨hne, hall, hcount⟩ := is_literal_spec hl
  obtain ⟨hp1, hp2, hp3, hp4, hp5, hp6, hp7⟩ := ends_literal_facts hp
  have hdot : ¬('.' : Char).isDigit = true := by decide
  have hN : ¬(NUL = 'e' ∨ NUL = 'E' ∨ NUL = 'x' ∨ NUL = 'X') := by decide
  change Dbl.strtod (l ++ post) = Dbl.strtod l
  rcases literal_split l hall hcount with h | ⟨ds, fp, h1, h2, h3⟩
  · have e1 := digits_takeWhile l post h
    have e2 := digits_takeWhile l [] h
    simp only [List.append_nil, List.takeWhile_nil, List.dropWhile_nil] at e2
    unfold Dbl.strtod
    simp only [e1.1, e1.2, e2.1, e2.2, hp1, hp2, List.append_nil, hp3, if_false, hne, false_and,
      List.headD_nil, hp4, hp5, hp6, hp7, or_self]
    simp [hN]
  · subst h1
    have e1 := digits_takeWhile ds ('.' :: (fp ++ post)) h2
    have e2 := digits_takeWhile ds ('.' :: fp) h2
    have e3 := digits_takeWhile fp post h3
    have e4 := digits_takeWhile fp [] h3
    simp only [List.append_nil, List.takeWhile_nil, List.dropWhile_nil] at e4
    rw [List.takeWhile_cons_of_neg hdot, List.dropWhile_cons_of_neg hdot] at e1 e2
    unfold Dbl.strtod
    simp only [List.append_assoc, List.cons_append, e1.1, e1.2, e2.1, e2.2, List.append_nil,
      List.headD_cons, if_true, List.tail_cons, e3.1, e3.2, e4.1, e4.2, hp1, hp2,
      List.headD_nil, hp4, hp5, hp6, hp7, or_self]
    simp [hN]

/-! ## The characters a call moves the cursor over -/

theorem scan_decimal_span (s : List Char) :
    ∀ hd : Bool, (scan_decimal s hd).2 ≤ s.length ∧
      ∀ j, j < (scan_decimal s hd).2 → s.getD j NUL ≠ NUL := by
  induction s with
  | nil =>
    intro hd
    exact ⟨Nat.le_refl _, fun j hj => absurd hj (Nat.not_lt_zero j)⟩
  | cons c cs ih =>
    intro hd
    have step : ∀ n : Nat, c ≠ NUL → n ≤ cs.length → (∀ j, j < n → cs.getD j NUL ≠ NUL) →
        n + 1 ≤ (c :: cs).length ∧ ∀ j, j < n + 1 → (c :: cs).getD j NUL ≠ NUL := by
      intro n hc hn hall
      refine ⟨by simpa using hn, fun j hj => ?_⟩
      cases j with
      | zero => simpa using hc
      | succ k => simpa using hall k (by omega)
    unfold scan_decimal
    by_cases h1 : c ≠ NUL ∧ (isalnum c = true ∨ c = '.')
    · rw [if_pos h1]
      by_cases h2 : c.isDigit = true
      · rw [if_pos h2]
        exact step _ h1.1 (ih hd).1 (ih hd).2
      · rw [if_neg h2]
        by_cases h3 : c = '.'
        · rw [if_pos h3]
          cases hd with
          | true => exact ⟨Nat.zero_le _, fun j hj => absurd hj (Nat.not_lt_zero j)⟩
          | false =>
            simp only [Bool.false_eq_true, if_false]
            exact step _ h1.1 (ih true).1 (ih true).2
        · rw [if_neg h3]
          exact step 0 h1.1 (Nat.zero_le _) (fun j hj => absurd hj (Nat.not_lt_zero j))
    · rw [if_neg h1]
      exact ⟨Nat.zero_le _, fun j hj => absurd hj (Nat.not_lt_zero j)⟩

theorem scan_ident_span (s : List Char) :
    scan_ident s ≤ s.length ∧ ∀ j, j < scan_ident s → s.getD j NUL ≠ NUL := by
  induction s with
  | nil => exact ⟨Nat.le_refl _, fun j hj => absurd hj (Nat.not_lt_zero j)⟩
  | cons c cs ih =>
    unfold scan_ident
    by_cases h1 : c ≠ NUL ∧ isalpha c = true
    · rw [if_pos h1]
      refine ⟨by simpa using ih.1, fun j hj => ?_⟩
      cases j with
      | zero => simpa using h1.1
      | succ k => simpa using ih.2 k (by omega)
    · rw [if_neg h1]
      exact ⟨Nat.zero_le _, fun j hj => absurd hj (Nat.not_lt_zero j)⟩

theorem scan_decimal_pos (c : Char) (cs : List Char) (hc : c.isDigit = true ∨ c = '.') :
    0 < (scan_decimal (c :: cs) false).2 := by
  unfold scan_decimal
  have h0 : c ≠ NUL ∧ (isalnum c = true ∨ c = '.') :=
    ⟨digit_or_dot_not_NUL hc, hc.imp digit_is_alnum id⟩
  rw [if_pos h0]
  by_cases h2 : c.isDigit = true
  · rw [if_pos h2]
    exact Nat.succ_pos _
  · have h3 : c = '.' := hc.resolve_left h2
    rw [if_neg h2, if_pos h3]
    exact Nat.succ_pos _

theorem scan_ident_pos (c : Char) (cs : List Char) (hc : isalpha c = true) :
    0 < scan_ident (c :: cs) := by
  unfold scan_ident
  rw [if_pos ⟨alpha_not_NUL hc, hc⟩]
  exact Nat.succ_pos _

/-- The cursor moves over characters of the text only, none of them NUL, and
it moves when the call succeeds. -/
theorem lex_text_span (s : List Char) :
    (lex_text s).ws + (lex_text s).len ≤ s.length ∧
      (∀ j, j < (lex_text s).ws + (lex_text s).len → s.getD j NUL ≠ NUL) ∧
      ((lex_text s).flag = true → 0 < (lex_text s).len) := by
  induction s with
  | nil => exact ⟨Nat.le_refl _, fun j hj => absurd hj (Nat.not_lt_zero j), fun h => by cases h⟩
  | cons c cs ih =>
    have none : (0 : Nat) + 0 ≤ (c :: cs).length ∧
        (∀ j, j < (0 : Nat) + 0 → (c :: cs).getD j NUL ≠ NUL) :=
      ⟨Nat.zero_le _, fun j hj => absurd hj (Nat.not_lt_zero j)⟩
    by_cases h0 : c = NUL
    · rw [lex_text_NUL _ (by simpa using h0)]
      exact ⟨none.1, none.2, fun h => by cases h⟩
    by_cases hs : is_space c = true
    · rw [lex_text_space c cs hs]
      refine ⟨?_, fun j hj => ?_, ih.2.2⟩
      · have := ih.1
        simp only [List.length_cons]
        omega
      · simp only [] at hj
        cases j with
        | zero => simpa using h0
        | succ k => simpa using ih.2.1 k (by omega)
    rcases h1 : single_char_type c with _ | tt
    · by_cases h2 : c.isDigit = true ∨ c = '.'
      · rw [lex_text_digit c cs h2]
        have hsp := scan_decimal_span (c :: cs) false
        refine ⟨by simpa using hsp.1, fun j hj => hsp.2 j (by simpa using hj), fun _ => ?_⟩
        exact scan_decimal_pos c cs h2
      · by_cases h3 : isalpha c = true
        · rw [lex_text_alpha c cs h3]
          have hsp := scan_ident_span (c :: cs)
          refine ⟨by simpa using hsp.1, fun j hj => hsp.2 j (by simpa using hj), fun _ => ?_⟩
          exact scan_ident_pos c cs h3
        · rw [lex_text_other c cs (by simpa using hs) h1 h2 (by simpa using h3)]
          exact ⟨none.1, none.2, fun h => by cases h⟩
    · rw [lex_text_single c cs tt h1]
      refine ⟨by simp, fun j hj => ?_, fun _ => Nat.one_pos⟩
      have hj0 : j = 0 := by
        simp only [] at hj
        omega
      subst hj0
      simpa using h0

theorem charAt_drop (input : List Char) (pos j : Nat) :
    charAt input (pos + j) = (input.drop pos).getD j NUL := by
  unfold charAt
  simp [List.getD_eq_getElem?_getD, List.getElem?_drop]

/-! ## The decimal scan over the digits and the dot it accepts -/

theorem scan_decimal_accepted (a : List Char) :
    ∀ (hd : Bool) (s : List Char), (∀ c ∈ a, c.isDigit = true ∨ c = '.') →
      a.count '.' + hd.toNat ≤ 1 →
      scan_decimal (a ++ s) hd =
        ((scan_decimal s (hd || decide (a.count '.' = 1))).1,
          a.length + (scan_decimal s (hd || decide (a.count '.' = 1))).2) := by
  induction a with
  | nil =>
    intro hd s _ _
    simp
  | cons c cs ih =>
    intro hd s hall hcount
    have hall2 : ∀ x ∈ cs, x.isDigit = true ∨ x = '.' :=
      fun x hx => hall x (List.mem_cons_of_mem _ hx)
    have hc := hall c (List.mem_cons_self _ _)
    have h0 : c ≠ NUL ∧ (isalnum c = true ∨ c = '.') :=
      ⟨digit_or_dot_not_NUL hc, hc.imp digit_is_alnum id⟩
    rw [List.cons_append, scan_decimal, if_pos h0]
    by_cases h2 : c.isDigit = true
    · have hne := digit_ne_dot h2
      have hcc : (c :: cs).count '.' = cs.count '.' :=
        List.count_cons_of_ne (fun e => hne e.symm) _
      rw [hcc] at hcount ⊢
      rw [if_pos h2, ih hd s hall2 hcount]
      simp only [List.length_cons, Prod.mk.injEq, true_and]
      omega
    · have h3 : c = '.' := hc.resolve_left h2
      subst h3
      rw [List.count_cons_self] at hcount ⊢
      have hd0 : hd = false := by
        cases hd with
        | false => rfl
        | true => simp at hcount
      subst hd0
      have hc0 : cs.count '.' = 0 := by simpa using hcount
      rw [if_neg h2, if_pos rfl, if_neg (by simp), ih true s hall2 (by simp [hc0])]
      simp only [hc0, List.length_cons, Bool.true_or, Bool.false_or, Nat.zero_add,
        decide_True, Prod.mk.injEq, true_and]
      omega

theorem head_digit_or_dot {a : List Char} (hne : a ≠ [])
    (ha : ∀ c ∈ a, c.isDigit = true ∨ c = '.') (s : List Char) :
    ∃ c cs, a ++ s = c :: cs ∧ (c.isDigit = true ∨ c = '.') := by
  cases a with
  | nil => exact absurd rfl hne
  | cons c cs => exact ⟨c, cs ++ s, rfl, ha c (List.mem_cons_self _ _)⟩

/-- The token found in a text that starts with digits and at most one dot. -/
theorem lex_text_accepted (a s : List Char) (hne : a ≠ [])
    (ha : ∀ c ∈ a, c.isDigit = true ∨ c = '.') (hcount : a.count '.' ≤ 1) :
    lex_text (a ++ s) =
      ⟨(scan_decimal s (decide (a.count '.' = 1))).1,
        if (scan_decimal s (decide (a.count '.' = 1))).1 = true then TokenNum else TokenInvalid,
        0, a.length + (scan_decimal s (decide (a.count '.' = 1))).2⟩ := by
  obtain ⟨c, cs, h1, h2⟩ := head_digit_or_dot hne ha s
  rw [h1, lex_text_digit c cs h2, ← h1, scan_decimal_accepted a false s ha (by simpa using hcount)]
  simp

/-! ## The texts accepted as a number -/

theorem single_not_num {c : Char} {tt : TokenType} (h : single_char_type c = some tt) :
    tt ≠ TokenNum ∧ tt ≠ TokenName := by
  unfold single_char_type at h
  repeat' split at h
  all_goals first
    | (cases h; exact ⟨by decide, by decide⟩)
    | cases h

theorem lex_text_num_inv (u : List Char) (hf : (lex_text u).flag = true)
    (ht : (lex_text u).type = TokenNum) :
    ((unblank u).headD NUL).isDigit = true ∨ (unblank u).headD NUL = '.' := by
  rw [(lex_text_unblank u).1] at hf ht
  simp only [] at hf ht
  by_contra hnd
  cases hv : unblank u with
  | nil =>
    rw [hv] at hf
    cases hf
  | cons c cs =>
    rw [hv] at hf ht hnd
    have hsp : is_space c = false := by
      have := unblank_head_not_space u
      rw [hv] at this
      exact this
    rcases h1 : single_char_type c with _ | tt
    · by_cases h3 : isalpha c = true
      · rw [lex_text_alpha c cs h3] at ht
        cases ht
      · rw [lex_text_other c cs hsp h1 hnd (by simpa using h3)] at hf
        cases hf
    · rw [lex_text_single c cs tt h1] at ht
      exact (single_not_num h1).1 ht

theorem lex_text_num_run (u : List Char) (hf : (lex_text u).flag = true)
    (hc : ((unblank u).headD NUL).isDigit = true ∨ (unblank u).headD NUL = '.') :
    (∀ x ∈ literal_run (unblank u), x.isDigit = true ∨ x = '.') ∧
      (literal_run (unblank u)).count '.' ≤ 1 := by
  rw [(lex_text_unblank u).1] at hf
  simp only [] at hf
  cases hv : unblank u with
  | nil =>
    rw [hv] at hf
    cases hf
  | cons c cs =>
    rw [hv] at hf hc
    rw [lex_text_digit c cs hc] at hf
    have := (scan_decimal_spec (c :: cs) false).1.mp hf
    simpa using this

theorem init_rest {α : Type} (A : Arith α) (line : List Char) :
    (Lexer.init A line).rest = line := rfl

theorem grammar_is_literal (t : List Char) (h : number_grammar t = true) :
    is_literal t = true := by
  have hsplit : t.takeWhile Char.isDigit ++ t.dropWhile Char.isDigit = t :=
    List.takeWhile_append_dropWhile _ _
  have hdig : ∀ x ∈ t.takeWhile Char.isDigit, x.isDigit = true :=
    fun x hx => List.mem_takeWhile_imp hx
  have hcount0 : ∀ l : List Char, (∀ x ∈ l, x.isDigit = true) → l.count '.' = 0 := by
    intro l hl
    apply List.count_eq_zero.mpr
    intro hmem
    exact absurd (hl _ hmem) (by decide)
  have frac : ∀ r : List Char, fraction_part r = true →
      r ≠ [] ∧ (∀ x ∈ r, x.isDigit = true ∨ x = '.') ∧ r.count '.' = 1 := by
    intro r hr
    cases r with
    | nil => exact absurd hr (by decide)
    | cons c fp =>
      simp only [fraction_part, List.headD_cons, List.tail_cons, Bool.and_eq_true, beq_iff_eq,
        Bool.not_eq_true', List.isEmpty_eq_false, List.all_eq_true] at hr
      obtain ⟨⟨hc, _⟩, hfp⟩ := hr
      subst hc
      refine ⟨by simp, fun x hx => ?_, ?_⟩
      · rcases List.mem_cons.mp hx with h0 | h0
        · exact Or.inr h0
        · exact Or.inl (hfp x h0)
      · rw [List.count_cons_self, hcount0 fp hfp]
  simp only [is_literal, Bool.and_eq_true, Bool.not_eq_true', List.isEmpty_eq_false,
    List.all_eq_true, Bool.or_eq_true, beq_iff_eq, decide_eq_true_eq]
  simp only [number_grammar, Bool.or_eq_true, Bool.and_eq_true, Bool.not_eq_true',
    List.isEmpty_eq_false, List.isEmpty_iff] at h
  have fromfrac : fraction_part (t.dropWhile Char.isDigit) = true →
      (t ≠ [] ∧ ∀ x ∈ t, x.isDigit = true ∨ x = '.') ∧ t.count '.' ≤ 1 := by
    intro hr
    obtain ⟨h1, h2, h3⟩ := frac _ hr
    refine ⟨⟨fun ht => h1 (by rw [ht]; rfl), fun x hx => ?_⟩, ?_⟩
    · rw [← hsplit] at hx
      rcases List.mem_append.mp hx with h0 | h0
      · exact Or.inl (hdig x h0)
      · exact h2 x h0
    · rw [← hsplit, List.count_append, hcount0 _ hdig, h3]
  rcases h with ⟨hip, hr | hr⟩ | hr
  · rw [hr, List.append_nil] at hsplit
    rw [hsplit] at hdig hip
    exact ⟨⟨hip, fun x hx => Or.inl (hdig x hx)⟩, by rw [hcount0 _ hdig]; omega⟩
  · exact fromfrac hr
  · exact fromfrac hr

theorem accepts_is_literal {α : Type} (A : Arith α) (t post : List Char)
    (h : accepts_number A t post = true) : is_literal t = true := by
  simp only [accepts_number, Bool.and_eq_true, decide_eq_true_eq] at h
  obtain ⟨⟨⟨hf, ht⟩, hn⟩, hp⟩ := h
  have hf2 := hf
  rw [lexer_get_token_type A _ hf] at ht
  rw [lexer_get_token_flag] at hf2
  rw [init_rest] at hf2 ht
  have hfv : (lex_text (unblank (t ++ post))).flag = true := hf2
  have hc := lex_text_num_inv (unblank (t ++ post)) hfv ht
  have e : unblank (unblank (t ++ post)) = unblank (t ++ post) := by
    have hh := unblank_head_not_space (t ++ post)
    cases hv : unblank (t ++ post) with
    | nil => rfl
    | cons c cs =>
      rw [hv] at hh
      exact List.dropWhile_cons_of_neg (by simpa using hh)
  rw [e] at hc
  have hrun := lex_text_num_run (unblank (t ++ post)) hfv (by rw [e]; exact hc)
  rw [e] at hrun
  have hnum := lexer_get_token_num A (Lexer.init A (t ++ post)) hc
    (by rw [init_rest]; exact hrun.1) (by rw [init_rest]; exact hrun.2)
  rw [hnum] at hn hp
  simp only [init_rest] at hn hp
  have hb : blanks (t ++ post) = [] := by
    have : (Lexer.init A (t ++ post)).next_index = 0 := by omega
    unfold Lexer.next_index at this
    rw [init_rest] at this
    exact List.length_eq_zero.mp (by
      have h0 : (Lexer.init A (t ++ post)).pos = 0 := rfl
      omega)
  have hu : unblank (t ++ post) = t ++ post := by
    have := blanks_append_unblank (t ++ post)
    rw [hb] at this
    exact this
  rw [hu] at hn hrun hc
  have hsplit := (literal_run_append (t ++ post)).1
  have htake : literal_run (t ++ post) = t := by
    have h1 := List.take_left (literal_run (t ++ post)) ((t ++ post).dropWhile is_run_char)
    rw [← hsplit, hn, List.take_left] at h1
    exact h1.symm
  have := literal_run_is_literal (t ++ post) hc hrun.1 hrun.2
  rw [htake] at this
  exact this

/-! ## The parser on lexer states it cannot tell apart -/

theorem optRel_bind {α : Type} {R : Lexer α → Lexer α → Prop}
    {o o2 : Option (α × Lexer α)} {g : α × Lexer α → Option (α × Lexer α)}
    (h : OptRel R o o2)
    (hg : ∀ v lx lx2, R lx lx2 → OptRel R (g (v, lx)) (g (v, lx2))) :
    OptRel R (o.bind g) (o2.bind g) := by
  rcases o with _ | ⟨v, lx⟩ <;> rcases o2 with _ | ⟨v2, lx2⟩
  · exact trivial
  · exact h.elim
  · exact h.elim
  · obtain ⟨hv, hr⟩ := h
    subst hv
    exact hg v lx lx2 hr

theorem optRel_map_val {α : Type} {R : Lexer α → Lexer α → Prop}
    {o o2 : Option (α × Lexer α)} (f : α → α) (h : OptRel R o o2) :
    OptRel R (map_val f o) (map_val f o2) := by
  rcases o with _ | ⟨v, lx⟩ <;> rcases o2 with _ | ⟨v2, lx2⟩
  · exact trivial
  · exact h.elim
  · exact h.elim
  · exact ⟨congrArg f h.1, h.2⟩

theorem optRel_close_delim {α : Type} {A : Arith α} {R : Lexer α → Lexer α → Prop}
    (hR : Lockstep A R) {o o2 : Option (α × Lexer α)} (tt : TokenType) (h : OptRel R o o2) :
    OptRel R (close_delim A tt o) (close_delim A tt o2) := by
  rcases o with _ | ⟨v, lx⟩ <;> rcases o2 with _ | ⟨v2, lx2⟩
  · exact trivial
  · exact h.elim
  · exact h.elim
  · obtain ⟨hv, hr⟩ := h
    have hs := hR lx lx2 hr
    simp only [close_delim]
    rw [← hs.1.type_eq]
    by_cases ht : lx.curr_token.type = tt
    · rw [if_pos ht, if_pos ht]
      exact ⟨hv, hs.2⟩
    · rw [if_neg ht, if_neg ht]
      exact ⟨rfl, hr⟩

theorem simAt_zero {α : Type} (A : Arith α) (R : Lexer α → Lexer α → Prop) : SimAt A R 0 := by
  refine ⟨?_, ?_, ?_, ?_, ?_, ?_, ?_, ?_, ?_⟩ <;> intros <;> exact trivial

theorem simAt_succ {α : Type} (A : Arith α) (R : Lexer α → Lexer α → Prop)
    (hR : Lockstep A R) (n : Nat) (ih : SimAt A R n) : SimAt A R (n + 1) := by
  refine ⟨?_, ?_, ?_, ?_, ?_, ?_, ?_, ?_, ?_⟩
  · intro lx lx2 h
    rw [parse_expr_succ, parse_expr_succ]
    exact ih.add lx lx2 h
  · intro lx lx2 h
    rw [parse_add_succ, parse_add_succ]
    exact optRel_bind (ih.mul lx lx2 h) (fun v l l2 hl => ih.add_loop v l l2 hl)
  · intro v lx lx2 h
    have hs := hR lx lx2 h
    by_cases h1 : lx.curr_token.type = TokenPlus
    · rw [parse_add_loop_plus A n v lx h1, parse_add_loop_plus A n v lx2 (hs.1.type_eq ▸ h1)]
      exact optRel_bind (ih.mul _ _ hs.2) (fun w l l2 hl => ih.add_loop _ l l2 hl)
    · by_cases h2 : lx.curr_token.type = TokenMinus
      · rw [parse_add_loop_minus A n v lx h2,
          parse_add_loop_minus A n v lx2 (hs.1.type_eq ▸ h2)]
        exact optRel_bind (ih.mul _ _ hs.2) (fun w l l2 hl => ih.add_loop _ l l2 hl)
      · rw [parse_add_loop_exit A n v lx h1 h2,
          parse_add_loop_exit A n v lx2 (hs.1.type_eq ▸ h1) (hs.1.type_eq ▸ h2)]
        exact ⟨rfl, h⟩
  · intro lx lx2 h
    rw [parse_mul_succ, parse_mul_succ]
    exact optRel_bind (ih.pow lx lx2 h) (fun v l l2 hl => ih.mul_loop v l l2 hl)
  · intro v lx lx2 h
    have hs := hR lx lx2 h
    by_cases h1 : lx.curr_token.type = TokenStar
    · rw [parse_mul_loop_star A n v lx h1, parse_mul_loop_star A n v lx2 (hs.1.type_eq ▸ h1)]
      exact optRel_bind (ih.pow _ _ hs.2) (fun w l l2 hl => ih.mul_loop _ l l2 hl)
    · by_cases h2 : lx.curr_token.type = TokenSlash
      · rw [parse_mul_loop_slash A n v lx h2,
          parse_mul_loop_slash A n v lx2 (hs.1.type_eq ▸ h2)]
        exact optRel_bind (ih.pow _ _ hs.2) (fun w l l2 hl => ih.mul_loop _ l l2 hl)
      · rw [parse_mul_loop_exit A n v lx h1 h2,
          parse_mul_loop_exit A n v lx2 (hs.1.type_eq ▸ h1) (hs.1.type_eq ▸ h2)]
        exact ⟨rfl, h⟩
  · intro lx lx2 h
    rw [parse_pow_succ, parse_pow_succ]
    exact optRel_bind (ih.unary lx lx2 h) (fun v l l2 hl => ih.pow_loop v l l2 hl)
  · intro v lx lx2 h
    have hs := hR lx lx2 h
    by_cases h1 : lx.curr_token.type = TokenCarot
    · rw [parse_pow_loop_carot A n v lx h1, parse_pow_loop_carot A n v lx2 (hs.1.type_eq ▸ h1)]
      exact optRel_bind (ih.unary _ _ hs.2) (fun w l l2 hl => ih.pow_loop _ l l2 hl)
    · rw [parse_pow_loop_exit A n v lx h1, parse_pow_loop_exit A n v lx2 (hs.1.type_eq ▸ h1)]
      exact ⟨rfl, h⟩
  · intro lx lx2 h
    have hs := hR lx lx2 h
    by_cases h1 : lx.curr_token.type = TokenMinus
    · rw [parse_unary_minus A n lx h1, parse_unary_minus A n lx2 (hs.1.type_eq ▸ h1)]
      exact optRel_map_val _ (ih.unary _ _ hs.2)
    · rw [parse_unary_term A n lx h1, parse_unary_term A n lx2 (hs.1.type_eq ▸ h1)]
      exact ih.term lx lx2 h
  · intro lx lx2 h
    have hs := hR lx lx2 h
    have hs2 := hR _ _ hs.2
    by_cases h1 : lx.curr_token.type = TokenNum
    · rw [parse_term_num A n lx h1, parse_term_num A n lx2 (hs.1.type_eq ▸ h1)]
      exact ⟨hs.1.value_eq, hs.2⟩
    by_cases h2 : lx.curr_token.type = TokenLParen
    · rw [parse_term_lparen A n lx h2, parse_term_lparen A n lx2 (hs.1.type_eq ▸ h2)]
      exact optRel_close_delim hR _ (ih.expr _ _ hs.2)
    by_cases h3 : lx.curr_token.type = TokenLBracket
    · rw [parse_term_lbracket A n lx h3, parse_term_lbracket A n lx2 (hs.1.type_eq ▸ h3)]
      exact optRel_close_delim hR _ (ih.expr _ _ hs.2)
    by_cases h4 : lx.curr_token.type = TokenName
    · rw [parse_term_name A n lx h4, parse_term_name A n lx2 (hs.1.type_eq ▸ h4),
        advance_input, advance_input, ← hs.1.lookup_eq h4]
      rcases table_lookup (lx.input.drop lx.curr_token.start) lx.curr_token.num_chars
        with _ | f
      · exact optRel_close_delim hR _ (ih.expr _ _ hs.2)
      · have hfun : ∀ g : Entry,
            OptRel R
              (map_val (A.call g)
                (fun_arg (decide ((advance A lx).curr_token.type = TokenLParen ∨
                    (advance A lx).curr_token.type = TokenLBracket))
                  (parse_term A n) (parse_pow A n) (advance A lx)))
              (map_val (A.call g)
                (fun_arg (decide ((advance A lx2).curr_token.type = TokenLParen ∨
                    (advance A lx2).curr_token.type = TokenLBracket))
                  (parse_term A n) (parse_pow A n) (advance A lx2))) := by
          intro g
          apply optRel_map_val
          rw [← hs2.1.type_eq]
          unfold fun_arg
          split_ifs
          · exact ih.term _ _ hs.2
          · exact ih.pow _ _ hs.2
        cases f
        · exact ⟨rfl, hs.2⟩
        · exact ⟨rfl, hs.2⟩
        all_goals exact hfun _
    · rw [parse_term_stray A n lx h1 h4 h2 h3,
        parse_term_stray A n lx2 (hs.1.type_eq ▸ h1) (hs.1.type_eq ▸ h4) (hs.1.type_eq ▸ h2)
          (hs.1.type_eq ▸ h3)]
      exact ⟨rfl, hs.2⟩

theorem simAt_all {α : Type} (A : Arith α) (R : Lexer α → Lexer α → Prop)
    (hR : Lockstep A R) : ∀ n, SimAt A R n := by
  intro n
  induction n with
  | zero => exact simAt_zero A R
  | succ n ih => exact simAt_succ A R hR n ih

/-- Related lexer states give the same value of `parse_expr`, each at its own
budget. -/
theorem parse_expr_sim {α : Type} (A : Arith α) (R : Lexer α → Lexer α → Prop)
    (hR : Lockstep A R) (lx lx2 : Lexer α) (h : R lx lx2) :
    (parse_expr A (fuelFor lx) lx).map Prod.fst =
      (parse_expr A (fuelFor lx2) lx2).map Prod.fst := by
  obtain ⟨v, l, h1, _⟩ := parse_expr_halts A lx (fuelFor lx) (le_refl _)
  obtain ⟨v2, l2, h2, _⟩ := parse_expr_halts A lx2 (fuelFor lx2) (le_refl _)
  have m1 := parse_expr_mono A (Nat.le_max_left (fuelFor lx) (fuelFor lx2)) h1
  have m2 := parse_expr_mono A (Nat.le_max_right (fuelFor lx) (fuelFor lx2)) h2
  have hs := (simAt_all A R hR (max (fuelFor lx) (fuelFor lx2))).expr lx lx2 h
  rw [m1, m2] at hs
  rw [h1, h2]
  exact congrArg some hs.1

/-! ## Calls of the lexer on buffers that agree around the token -/

theorem drop_blanks (V : List Char) : V.drop (blanks V).length = unblank V := by
  have h := List.drop_left (blanks V) (unblank V)
  rw [blanks_append_unblank] at h
  exact h

theorem lex_text_ws (V : List Char) : (lex_text V).ws = (blanks V).length := by
  rw [(lex_text_unblank V).1]

/-- The text of a number token: a literal, followed by a text that ends it. -/
theorem lex_text_literal (V : List Char) (hf : (lex_text V).flag = true)
    (ht : (lex_text V).type = TokenNum) :
    ∃ l D, V.drop (lex_text V).ws = l ++ D ∧ is_literal l = true ∧ ends_literal D ∧
      (lex_text V).len = l.length := by
  have hc := lex_text_num_inv V hf ht
  have hf2 : (lex_text (unblank V)).flag = true := by
    rw [(lex_text_unblank V).1] at hf
    exact hf
  have hidem : unblank (unblank V) = unblank V := by
    have hh := unblank_head_not_space V
    cases hv : unblank V with
    | nil => rfl
    | cons c cs =>
      rw [hv] at hh
      exact List.dropWhile_cons_of_neg (by simpa using hh)
  have hrun := lex_text_num_run (unblank V) hf2 (by rw [hidem]; exact hc)
  rw [hidem] at hrun
  have hsplit := literal_run_append (unblank V)
  refine ⟨literal_run (unblank V), (unblank V).dropWhile is_run_char, ?_,
    literal_run_is_literal _ hc hrun.1 hrun.2, hsplit.2, ?_⟩
  · rw [lex_text_ws, drop_blanks]
    exact hsplit.1
  · rw [(lex_text_unblank V).1]
    simp only []
    rw [lex_text_num _ hc hrun.1 hrun.2]

theorem samePrefix_tokSim {α : Type} {lx lx2 : Lexer α} (h : SamePrefix lx lx2) :
    TokSim lx lx2 := by
  refine ⟨by rw [h.tok_eq], by rw [h.tok_eq], fun hn => ?_⟩
  have hin := h.name_in hn
  have hp := h.pos_le
  have hp2 := h.pos_le2
  rw [h.tok_eq]
  rw [table_lookup_take _ _ (by rw [List.length_drop]; omega),
    table_lookup_take (lx2.input.drop _) _ (by rw [List.length_drop]; omega),
    List.take_drop, List.take_drop]
  have e : ∀ b : List Char,
      b.take (lx.curr_token.start + lx.curr_token.num_chars) =
        (b.take lx.pos).take (lx.curr_token.start + lx.curr_token.num_chars) := by
    intro b
    rw [List.take_take, Nat.min_eq_left hin]
  rw [e lx.input, e lx2.input, h.take_eq]

theorem samePrefix_advance {α : Type} (A : Arith α) (hA : reads_only_literal A)
    {lx lx2 : Lexer α} (h : SamePrefix lx lx2) (hlex : lex_text lx2.rest = lex_text lx.rest)
    (htake : lx2.rest.take ((lex_text lx.rest).ws + (lex_text lx.rest).len) =
      lx.rest.take ((lex_text lx.rest).ws + (lex_text lx.rest).len)) :
    SamePrefix (advance A lx) (advance A lx2) := by
  have hspan := lex_text_span lx.rest
  have hspan2 := lex_text_span lx2.rest
  rw [hlex] at hspan2
  have hl1 : lx.rest.length = lx.input.length - lx.pos := List.length_drop _ _
  have hl2 : lx2.rest.length = lx2.input.length - lx.pos := by
    unfold Lexer.rest
    rw [h.pos_eq]
    exact List.length_drop _ _
  have hp := h.pos_le
  have hp2 := h.pos_le2
  have hvalue : (lex_text lx.rest).flag = true → (lex_text lx.rest).type = TokenNum →
      A.strtod (lx2.input.drop (lx.pos + (lex_text lx.rest).ws)) =
        A.strtod (lx.input.drop (lx.pos + (lex_text lx.rest).ws)) := by
    intro hf ht
    obtain ⟨l, D, h1, h2, h3, h4⟩ := lex_text_literal lx.rest hf ht
    obtain ⟨l2, D2, k1, k2, k3, k4⟩ := lex_text_literal lx2.rest (by rw [hlex]; exact hf)
      (by rw [hlex]; exact ht)
    rw [hlex] at k1 k4
    have e1 : lx.input.drop (lx.pos + (lex_text lx.rest).ws) = l ++ D := by
      rw [← List.drop_drop]
      exact h1
    have e2 : lx2.input.drop (lx.pos + (lex_text lx.rest).ws) = l2 ++ D2 := by
      rw [← List.drop_drop, ← h.pos_eq]
      exact k1
    have hll : l2 = l := by
      have a1 : l = (lx.rest.drop (lex_text lx.rest).ws).take (lex_text lx.rest).len := by
        rw [h1, h4, List.take_left]
      have a2 : l2 = (lx2.rest.drop (lex_text lx.rest).ws).take (lex_text lx.rest).len := by
        rw [k1, k4, List.take_left]
      rw [a1, a2, List.take_drop, List.take_drop, htake]
    rw [e1, e2, hll, hA l D h2 h3, hA l D2 (hll ▸ k2) k3]
  unfold advance
  rw [lexer_get_token_eq_lex, lexer_get_token_eq_lex]
  change SamePrefix (assemble A _ (lex_text lx.rest)).2 (assemble A _ (lex_text lx2.rest)).2
  rw [hlex]
  simp only [assemble]
  refine ⟨?_, ?_, ?_, ?_, ?_, ?_⟩
  · simp only [h.pos_eq]
  · simp only [lexed_token, h.pos_eq]
    by_cases hf : (lex_text lx.rest).flag = false
    · rw [if_pos hf, if_pos hf]
    · rw [if_neg hf, if_neg hf]
      by_cases ht : (lex_text lx.rest).type = TokenNum
      · rw [if_pos ht, if_pos ht, hvalue (by simpa using hf) ht]
      · rw [if_neg ht, if_neg ht]
  · simp only []
    rw [Nat.add_assoc, List.take_add, List.take_add lx.input, h.take_eq]
    congr 1
    have := htake
    unfold Lexer.rest at this
    rw [h.pos_eq] at this
    exact this
  · simp only [lexed_token]
    intro hn
    have hm := Nat.mod_le (lx.pos + (lex_text lx.rest).ws) UNSIGNED_MOD
    by_cases hf : (lex_text lx.rest).flag = false
    · rw [if_pos hf] at hn ⊢
      simp [Token.zeroed] at hn
    · rw [if_neg hf] at hn ⊢
      by_cases ht : (lex_text lx.rest).type = TokenNum
      · rw [if_pos ht] at hn
        simp at hn
      · rw [if_neg ht] at hn ⊢
        by_cases ht2 : (lex_text lx.rest).type = TokenName
        · rw [if_pos ht2]
          simp only []
          omega
        · rw [if_neg ht2] at hn
          exact absurd hn ht2
  · simp only []
    omega
  · simp only []
    omega

/-! ## An unrecognised character ends the text for the lexer -/

theorem unrecognised_spec {c : Char} (h : unrecognised c = true) :
    c ≠ NUL ∧ is_space c = false ∧ single_char_type c = none ∧
      ¬(c.isDigit = true ∨ c = '.') ∧ isalpha c = false ∧ is_run_char c = false := by
  simp only [unrecognised, Bool.and_eq_true, bne_iff_ne, ne_eq, Bool.not_eq_true',
    Option.isNone_iff_eq_none] at h
  obtain ⟨⟨⟨⟨⟨h1, h2⟩, h3⟩, h4⟩, h5⟩, h6⟩ := h
  refine ⟨h1, h2, h3, ?_, h6, ?_⟩
  · rintro (h | h)
    · rw [h4] at h
      cases h
    · exact h5 h
  · cases hr : is_run_char c with
    | false => rfl
    | true =>
      exfalso
      simp only [is_run_char, Bool.or_eq_true, beq_iff_eq] at hr
      rcases hr with hr | hr
      · rcases alnum_cases hr with hd | ha
        · rw [h4] at hd
          cases hd
        · rw [h6] at ha
          cases ha
      · exact h5 hr

theorem not_run_char {c : Char} (h : is_run_char c = false) :
    ¬(c ≠ NUL ∧ (isalnum c = true ∨ c = '.')) := by
  intro h2
  have : is_run_char c = true := by
    simp only [is_run_char, Bool.or_eq_true, beq_iff_eq]
    exact h2.2
  rw [h] at this
  cases this

theorem scan_decimal_stop (c : Char) (t : List Char) (hc : is_run_char c = false) (hd : Bool) :
    scan_decimal (c :: t) hd = (true, 0) := by
  rw [scan_decimal, if_neg (not_run_char hc)]

theorem scan_ident_stop (c : Char) (t : List Char) (hc : isalpha c = false) :
    scan_ident (c :: t) = 0 := by
  rw [scan_ident, if_neg (fun h => by rw [hc] at h; cases h.2)]

theorem scan_decimal_term (c : Char) (t : List Char) (hc : is_run_char c = false)
    (X : List Char) : ∀ hd : Bool, scan_decimal (X ++ c :: t) hd = scan_decimal X hd := by
  induction X with
  | nil =>
    intro hd
    rw [List.nil_append, scan_decimal_stop c t hc]
    rfl
  | cons x xs ih =>
    intro hd
    rw [List.cons_append, scan_decimal, scan_decimal, ih hd, ih true]

theorem scan_ident_term (c : Char) (t : List Char) (hc : isalpha c = false)
    (X : List Char) : scan_ident (X ++ c :: t) = scan_ident X := by
  induction X with
  | nil =>
    rw [List.nil_append, scan_ident_stop c t hc]
    rfl
  | cons x xs ih => rw [List.cons_append, scan_ident, scan_ident, ih]

/-- The token found before an unrecognised character is the one found when
the text ends there. -/
theorem lex_text_term (c : Char) (t : List Char) (hc : unrecognised c = true)
    (X : List Char) : lex_text (X ++ c :: t) = lex_text X := by
  obtain ⟨h1, h2, h3, h4, h5, h6⟩ := unrecognised_spec hc
  induction X with
  | nil =>
    rw [List.nil_append, lex_text_other c t h2 h3 h4 h5]
    rfl
  | cons x xs ih =>
    rw [List.cons_append]
    by_cases h0 : x = NUL
    · rw [lex_text_NUL _ (by simpa using h0), lex_text_NUL _ (by simpa using h0)]
    by_cases hs : is_space x = true
    · rw [lex_text_space x _ hs, lex_text_space x _ hs, ih]
    rcases k1 : single_char_type x with _ | tt
    · by_cases k2 : x.isDigit = true ∨ x = '.'
      · rw [lex_text_digit x _ k2, lex_text_digit x _ k2, ← List.cons_append,
          scan_decimal_term c t h6]
      · by_cases k3 : isalpha x = true
        · rw [lex_text_alpha x _ k3, lex_text_alpha x _ k3, ← List.cons_append,
            scan_ident_term c t h5]
        · rw [lex_text_other x _ (by simpa using hs) k1 k2 (by simpa using k3),
            lex_text_other x _ (by simpa using hs) k1 k2 (by simpa using k3)]
    · rw [lex_text_single x _ tt k1, lex_text_single x _ tt k1]

theorem truncRel_lockstep {α : Type} (A : Arith α) (hA : reads_only_literal A)
    (s t : List Char) (c : Char) (hc : unrecognised c = true) :
    Lockstep A (TruncRel s (c :: t)) := by
  intro lx lx2 h
  obtain ⟨hp, h1, h2⟩ := h
  refine ⟨samePrefix_tokSim hp, ?_, by rw [advance_input]; exact h1,
    by rw [advance_input]; exact h2⟩
  have hle : lx.pos ≤ s.length := by
    rw [← h1]
    exact hp.pos_le
  have hrest : lx2.rest = lx.rest ++ c :: t := by
    unfold Lexer.rest
    rw [hp.pos_eq, h1, h2]
    exact List.drop_append_of_le_length hle
  have hlex : lex_text lx2.rest = lex_text lx.rest := by
    rw [hrest]
    exact lex_text_term c t hc _
  apply samePrefix_advance A hA hp hlex
  rw [hrest]
  exact List.take_append_of_le_length (lex_text_span lx.rest).1

theorem truncRel_init {α : Type} (A : Arith α) (s rest : List Char) :
    TruncRel s rest (Lexer.init A s) (Lexer.init A (s ++ rest)) :=
  ⟨⟨rfl, rfl, rfl, fun h => TokenType.noConfusion h, Nat.zero_le _, Nat.zero_le _⟩, rfl, rfl⟩

/-! ## Calls of the lexer on texts that differ in their leading whitespace -/

theorem lex_text_flag_ne_nil (U : List Char) (h : (lex_text U).flag = true) : U ≠ [] := by
  intro h0
  rw [h0] at h
  cases h

theorem advance_rest {α : Type} (A : Arith α) (lx : Lexer α) :
    (advance A lx).rest = (unblank lx.rest).drop (lex_text (unblank lx.rest)).len := by
  unfold advance Lexer.rest
  rw [lexer_get_token_input, lexer_get_token_pos, ← List.drop_drop, next_index_text]
  rfl

theorem next_index_lt_of_flag {α : Type} (lx : Lexer α)
    (h : (lex_text (unblank lx.rest)).flag = true) : lx.next_index < lx.input.length := by
  have hne := lex_text_flag_ne_nil _ h
  by_contra hge
  apply hne
  rw [← next_index_text]
  exact List.drop_eq_nil_of_le (Nat.le_of_not_lt hge)

/-- The fields of the token after a call, by the kind of token found. -/
theorem advance_token {α : Type} (A : Arith α) (lx : Lexer α) :
    ((lex_text (unblank lx.rest)).flag = false → (advance A lx).curr_token = Token.zeroed A) ∧
      ((lex_text (unblank lx.rest)).flag = true →
        (advance A lx).curr_token.type = (lex_text (unblank lx.rest)).type ∧
        ((lex_text (unblank lx.rest)).type = TokenNum →
          (advance A lx).curr_token =
            { type := TokenNum
              value := A.strtod (unblank lx.rest)
              num_chars := (lex_text (unblank lx.rest)).len
              start := lx.next_index % UNSIGNED_MOD
              end_ := (lx.next_index + (lex_text (unblank lx.rest)).len) % UNSIGNED_MOD }) ∧
        ((lex_text (unblank lx.rest)).type = TokenName →
          (advance A lx).curr_token =
            { type := TokenName
              value := A.zero
              num_chars := (lex_text (unblank lx.rest)).len
              start := lx.next_index % UNSIGNED_MOD
              end_ := (lx.next_index + (lex_text (unblank lx.rest)).len) % UNSIGNED_MOD }) ∧
        ((lex_text (unblank lx.rest)).type ≠ TokenNum →
          (lex_text (unblank lx.rest)).type ≠ TokenName →
          (advance A lx).curr_token =
            { Token.zeroed A with type := (lex_text (unblank lx.rest)).type })) := by
  unfold advance
  rw [lexer_get_token_tok]
  refine ⟨fun hf => ?_, fun hf => ⟨?_, fun ht => ?_, fun ht => ?_, fun h1 h2 => ?_⟩⟩
  · simp [lexed_token, hf]
  · simp only [lexed_token, hf, Bool.true_eq_false, if_false]
    split_ifs with h1 h2
    · exact h1.symm
    · exact h2.symm
    · rfl
  · simp only [lexed_token, hf, Bool.true_eq_false, if_false, ht, if_true]
    rw [← next_index_text]
    rfl
  · simp only [lexed_token, hf, Bool.true_eq_false, if_false, ht, if_true]
    rw [if_neg (by decide)]
    rfl
  · simp only [lexed_token, hf, Bool.true_eq_false, if_false]
    rw [if_neg h1, if_neg h2]

theorem sameRest_lockstep {α : Type} (A : Arith α) : Lockstep A (SameRest (α := α)) := by
  intro lx lx2 h
  refine ⟨h.tok, ?_, by rw [advance_input]; exact h.len1, by rw [advance_input]; exact h.len2,
    by rw [advance_rest, advance_rest, h.rest_eq]⟩
  have t1 := advance_token A lx
  have t2 := advance_token A lx2
  rw [h.rest_eq] at t2
  cases hf : (lex_text (unblank lx.rest)).flag with
  | false =>
    rw [hf] at t1 t2
    have e1 := t1.1 rfl
    have e2 := t2.1 rfl
    exact ⟨by rw [e1, e2], by rw [e1, e2], fun hn => by rw [e1] at hn; cases hn⟩
  | true =>
    rw [hf] at t1 t2
    obtain ⟨a1, a2, a3, a4⟩ := t1.2 rfl
    obtain ⟨b1, b2, b3, b4⟩ := t2.2 rfl
    have hlt1 := next_index_lt_of_flag lx hf
    have hlt2 := next_index_lt_of_flag lx2 (by rw [h.rest_eq]; exact hf)
    have hl1 := h.len1
    have hl2 := h.len2
    by_cases hnum : (lex_text (unblank lx.rest)).type = TokenNum
    · have e1 := a2 hnum
      have e2 := b2 hnum
      exact ⟨by rw [e1, e2], by rw [e1, e2], fun hn => by rw [e1] at hn; cases hn⟩
    · by_cases hname : (lex_text (unblank lx.rest)).type = TokenName
      · have e1 := a3 hname
        have e2 := b3 hname
        refine ⟨by rw [e1, e2], by rw [e1, e2], fun _ => ?_⟩
        rw [e1, e2, advance_input, advance_input]
        simp only []
        rw [Nat.mod_eq_of_lt (by omega), Nat.mod_eq_of_lt (by omega), next_index_text,
          next_index_text, h.rest_eq]
      · have e1 := a4 hnum hname
        have e2 := b4 hnum hname
        exact ⟨by rw [e1, e2], by rw [e1, e2],
          fun hn => by rw [e1] at hn; exact absurd hn hname⟩

/-! ## A token that ends before the end of a text does not depend on what follows -/

theorem scan_ident_local (X Y Z : List Char) (hle : scan_ident (X ++ Y) ≤ X.length)
    (h : scan_ident (X ++ Y) < X.length ∨ isalpha (Z.headD NUL) = false) :
    scan_ident (X ++ Z) = scan_ident (X ++ Y) := by
  induction X with
  | nil =>
    have hz : isalpha (Z.headD NUL) = false := by
      rcases h with h | h
      · exact absurd h (Nat.not_lt_zero _)
      · exact h
    have e1 : scan_ident Y = 0 := Nat.le_zero.mp hle
    have e2 : scan_ident Z = 0 := by
      cases Z with
      | nil => rfl
      | cons z zs => exact scan_ident_stop z zs hz
    rw [List.nil_append, List.nil_append, e1, e2]
  | cons x xs ih =>
    rw [List.cons_append, List.cons_append, scan_ident, scan_ident]
    rw [List.cons_append, scan_ident] at hle h
    by_cases hx : x ≠ NUL ∧ isalpha x = true
    · simp only [if_pos hx] at hle h ⊢
      rw [ih (by simpa using hle) (by simpa using h)]
    · rw [if_neg hx, if_neg hx]

theorem scan_decimal_local (X Y Z : List Char) :
    ∀ hd : Bool, (scan_decimal (X ++ Y) hd).2 ≤ X.length →
      ((scan_decimal (X ++ Y) hd).2 < X.length ∨
        ((scan_decimal (X ++ Y) hd).1 = true ∧ is_run_char (Z.headD NUL) = false)) →
      scan_decimal (X ++ Z) hd = scan_decimal (X ++ Y) hd := by
  induction X with
  | nil =>
    intro hd hle h
    have hz : (scan_decimal Y hd).1 = true ∧ is_run_char (Z.headD NUL) = false := by
      rcases h with h | h
      · exact absurd h (Nat.not_lt_zero _)
      · exact h
    have e1 : scan_decimal Y hd = (true, 0) := Prod.ext hz.1 (Nat.le_zero.mp hle)
    have e2 : scan_decimal Z hd = (true, 0) := by
      cases Z with
      | nil => rfl
      | cons z zs => exact scan_decimal_stop z zs hz.2 hd
    rw [List.nil_append, List.nil_append, e1, e2]
  | cons x xs ih =>
    intro hd hle h
    rw [List.cons_append, List.cons_append, scan_decimal, scan_decimal]
    rw [List.cons_append, scan_decimal] at hle h
    by_cases h1 : x ≠ NUL ∧ (isalnum x = true ∨ x = '.')
    · simp only [if_pos h1] at hle h ⊢
      by_cases h2 : x.isDigit = true
      · simp only [if_pos h2] at hle h ⊢
        rw [ih hd (by simpa using hle) (by simpa using h)]
      · simp only [if_neg h2] at hle h ⊢
        by_cases h3 : x = '.'
        · simp only [if_pos h3] at hle h ⊢
          cases hd with
          | true => rfl
          | false =>
            simp only [Bool.false_eq_true, if_false] at hle h ⊢
            rw [ih true (by simpa using hle) (by simpa using h)]
        · simp only [if_neg h3]
    · rw [if_neg h1, if_neg h1]

theorem lex_text_local (X Y Z : List Char)
    (hle : (lex_text (X ++ Y)).ws + (lex_text (X ++ Y)).len ≤ X.length)
    (h : (lex_text (X ++ Y)).ws + (lex_text (X ++ Y)).len < X.length ∨
      ((lex_text (X ++ Y)).flag = true ∧ is_run_char (Z.headD NUL) = false)) :
    lex_text (X ++ Z) = lex_text (X ++ Y) := by
  induction X with
  | nil =>
    exfalso
    rcases h with h | h
    · exact absurd h (Nat.not_lt_zero _)
    · have := (lex_text_span ([] ++ Y)).2.2 h.1
      simp only [List.length_nil] at hle
      omega
  | cons x xs ih =>
    rw [List.cons_append] at hle h ⊢
    rw [List.cons_append]
    by_cases h0 : x = NUL
    · rw [lex_text_NUL _ (by simpa using h0), lex_text_NUL _ (by simpa using h0)]
    by_cases hs : is_space x = true
    · rw [lex_text_space x _ hs] at hle h ⊢
      rw [lex_text_space x _ hs]
      simp only [List.length_cons] at hle h
      rw [ih (by omega) (by
        rcases h with h | h
        · left; omega
        · right; exact h)]
    rcases k1 : single_char_type x with _ | tt
    · by_cases k2 : x.isDigit = true ∨ x = '.'
      · rw [lex_text_digit x _ k2] at hle h ⊢
        rw [lex_text_digit x _ k2]
        simp only [Nat.zero_add] at hle h
        rw [← List.cons_append, ← List.cons_append,
          scan_decimal_local (x :: xs) Y Z false hle h]
      · by_cases k3 : isalpha x = true
        · rw [lex_text_alpha x _ k3] at hle h ⊢
          rw [lex_text_alpha x _ k3]
          simp only [Nat.zero_add] at hle h
          have hz : is_run_char (Z.headD NUL) = false → isalpha (Z.headD NUL) = false := by
            intro hr
            cases ha : isalpha (Z.headD NUL) with
            | false => rfl
            | true =>
              have : is_run_char (Z.headD NUL) = true := by
                simp only [is_run_char, Bool.or_eq_true, beq_iff_eq]
                exact Or.inl (alpha_is_alnum ha)
              rw [hr] at this
              cases this
          rw [← List.cons_append, ← List.cons_append,
            scan_ident_local (x :: xs) Y Z hle (h.imp id (fun h => hz h.2))]
        · rw [lex_text_other x _ (by simpa using hs) k1 k2 (by simpa using k3),
            lex_text_other x _ (by simpa using hs) k1 k2 (by simpa using k3)]
    · rw [lex_text_single x _ tt k1, lex_text_single x _ tt k1]

/-! ## Whitespace inserted at the end of a token -/

theorem advance_pos {α : Type} (A : Arith α) (lx : Lexer α) :
    (advance A lx).pos = lx.pos + (lex_text lx.rest).ws + (lex_text lx.rest).len := by
  unfold advance
  rw [lexer_get_token_eq_lex]
  rfl

theorem flag_eq_lex {α : Type} (A : Arith α) (lx : Lexer α) :
    (lexer_get_token A lx).1 = (lex_text lx.rest).flag := by
  rw [lexer_get_token_eq_lex]
  rfl

theorem skip_pos_le {α : Type} (A : Arith α) :
    ∀ (k : Nat) (lx : Lexer α), lx.pos ≤ (skip A k lx).pos := by
  intro k
  induction k with
  | zero => intro lx; exact Nat.le_refl _
  | succ n ih =>
    intro lx
    have h1 := ih (advance A lx)
    have h2 := advance_pos A lx
    rw [skip]
    omega

theorem unblank_spaces (w s : List Char) (hw : ∀ c ∈ w, is_space c = true) :
    unblank (w ++ s) = unblank s :=
  List.dropWhile_append_of_pos hw

theorem blanks_spaces (w s : List Char) (hw : ∀ c ∈ w, is_space c = true) :
    blanks (w ++ s) = w ++ blanks s :=
  List.takeWhile_append_of_pos hw

theorem spaces_head (w s : List Char) (hw : ∀ c ∈ w, is_space c = true) (hne : w ≠ []) :
    is_run_char ((w ++ s).headD NUL) = false := by
  cases w with
  | nil => exact absurd rfl hne
  | cons c cs => exact space_not_run_char (hw c (List.mem_cons_self _ _))

theorem insRel_lockstep {α : Type} (A : Arith α) (hA : reads_only_literal A)
    (s1 Y Z : List Char) (hYZ : unblank Z = unblank Y)
    (hZ : Z = Y ∨ is_run_char (Z.headD NUL) = false)
    (hlenY : (s1 ++ Y).length < UNSIGNED_MOD) (hlenZ : (s1 ++ Z).length < UNSIGNED_MOD) :
    Lockstep A (InsRel A s1 Y Z) := by
  intro lx lx2 h
  rcases h with ⟨hp, h1, h2, k, hk1, hk2⟩ | h
  · refine ⟨samePrefix_tokSim hp, ?_⟩
    have hmono := skip_pos_le A k lx
    have hlast : (skip A k lx).pos < s1.length := by
      rw [← hk2, lexer_get_token_eq_lex]
      have := (lex_text_span (skip A k lx).rest).2.2 (by rw [← flag_eq_lex]; exact hk1)
      simp only [assemble]
      change _ < _ + (lex_text (skip A k lx).rest).ws + (lex_text (skip A k lx).rest).len
      omega
    have hle : lx.pos ≤ s1.length := by omega
    have hrest : lx.rest = s1.drop lx.pos ++ Y := by
      unfold Lexer.rest
      rw [h1]
      exact List.drop_append_of_le_length hle
    have hrest2 : lx2.rest = s1.drop lx.pos ++ Z := by
      unfold Lexer.rest
      rw [h2, hp.pos_eq]
      exact List.drop_append_of_le_length hle
    have hXlen : (s1.drop lx.pos).length = s1.length - lx.pos := List.length_drop _ _
    have hadv := advance_pos A lx
    have hin1 : (advance A lx).input = s1 ++ Y := by rw [advance_input]; exact h1
    have hin2 : (advance A lx2).input = s1 ++ Z := by rw [advance_input]; exact h2
    cases k with
    | zero =>
      have hk1' : (lex_text lx.rest).flag = true := by rw [← flag_eq_lex]; exact hk1
      have hk2' : (advance A lx).pos = s1.length := hk2
      have hlex : lex_text lx2.rest = lex_text lx.rest := by
        rcases hZ with hZ | hZ
        · rw [hrest2, hrest, hZ]
        · rw [hrest2, hrest]
          apply lex_text_local
          · rw [← hrest]; omega
          · right
            exact ⟨by rw [← hrest]; exact hk1', hZ⟩
      have htake : lx2.rest.take ((lex_text lx.rest).ws + (lex_text lx.rest).len) =
          lx.rest.take ((lex_text lx.rest).ws + (lex_text lx.rest).len) := by
        have hk : (lex_text lx.rest).ws + (lex_text lx.rest).len ≤ (s1.drop lx.pos).length := by
          omega
        generalize (lex_text lx.rest).ws + (lex_text lx.rest).len = m at hk ⊢
        rw [hrest2, hrest, List.take_append_of_le_length hk,
          List.take_append_of_le_length hk]
      have hsp := samePrefix_advance A hA hp hlex htake
      right
      refine ⟨samePrefix_tokSim hsp, by rw [hin1]; exact hlenY, by rw [hin2]; exact hlenZ, ?_⟩
      unfold Lexer.rest
      rw [hin1, hin2, hsp.pos_eq, hk2', List.drop_left, List.drop_left]
      exact hYZ
    | succ n =>
      rw [skip] at hk1 hk2 hlast
      have hmono2 := skip_pos_le A n (advance A lx)
      have hlex : lex_text lx2.rest = lex_text lx.rest := by
        rw [hrest2, hrest]
        apply lex_text_local
        · rw [← hrest]; omega
        · left
          rw [← hrest]; omega
      have htake : lx2.rest.take ((lex_text lx.rest).ws + (lex_text lx.rest).len) =
          lx.rest.take ((lex_text lx.rest).ws + (lex_text lx.rest).len) := by
        have hk : (lex_text lx.rest).ws + (lex_text lx.rest).len ≤ (s1.drop lx.pos).length := by
          omega
        generalize (lex_text lx.rest).ws + (lex_text lx.rest).len = m at hk ⊢
        rw [hrest2, hrest, List.take_append_of_le_length hk,
          List.take_append_of_le_length hk]
      left
      exact ⟨samePrefix_advance A hA hp hlex htake, hin1, hin2, n, hk1, hk2⟩
  · have hs := sameRest_lockstep A lx lx2 h
    exact ⟨hs.1, Or.inr hs.2⟩

/-- Whitespace inserted after a token, before or within the whitespace that
follows it, does not change the value. -/
theorem evalValue_insert {α : Type} (A : Arith α) (hA : reads_only_literal A)
    (s1 g w s2 : List Char) (hg : ∀ c ∈ g, is_space c = true)
    (hw : ∀ c ∈ w, is_space c = true)
    (hlen : (s1 ++ (g ++ (w ++ s2))).length < UNSIGNED_MOD)
    (hq : token_end A (s1 ++ (g ++ s2)) s1.length) :
    evalValue A (s1 ++ (g ++ (w ++ s2))) = evalValue A (s1 ++ (g ++ s2)) := by
  have hgw : ∀ c ∈ g ++ w, is_space c = true := by
    intro c hc
    rcases List.mem_append.mp hc with h | h
    · exact hg c h
    · exact hw c h
  have hYZ : unblank (g ++ (w ++ s2)) = unblank (g ++ s2) := by
    rw [← List.append_assoc, unblank_spaces (g ++ w) s2 hgw, unblank_spaces g s2 hg]
  have hZ : g ++ (w ++ s2) = g ++ s2 ∨ is_run_char ((g ++ (w ++ s2)).headD NUL) = false := by
    by_cases hne : g ++ w = []
    · left
      obtain ⟨h1, h2⟩ := List.append_eq_nil.mp hne
      rw [h1, h2]
      rfl
    · right
      rw [← List.append_assoc]
      exact spaces_head (g ++ w) s2 hgw hne
  have hlenY : (s1 ++ (g ++ s2)).length < UNSIGNED_MOD := by
    simp only [List.length_append] at hlen ⊢
    omega
  have hL := insRel_lockstep A hA s1 (g ++ s2) (g ++ (w ++ s2)) hYZ hZ hlenY hlen
  have h0 : InsRel A s1 (g ++ s2) (g ++ (w ++ s2)) (Lexer.init A (s1 ++ (g ++ s2)))
      (Lexer.init A (s1 ++ (g ++ (w ++ s2)))) :=
    Or.inl ⟨⟨rfl, rfl, rfl, fun h => TokenType.noConfusion h, Nat.zero_le _, Nat.zero_le _⟩,
      rfl, rfl, hq⟩
  exact (parse_expr_sim A _ hL _ _ (hL _ _ h0).2).symm

/-- Whitespace before the first token does not change the value. -/
theorem evalValue_leading {α : Type} (A : Arith α) (w s : List Char)
    (hw : ∀ c ∈ w, is_space c = true) (hlen : (w ++ s).length < UNSIGNED_MOD) :
    evalValue A (w ++ s) = evalValue A s := by
  have hL := sameRest_lockstep A (α := α)
  have h0 : SameRest (Lexer.init A s) (Lexer.init A (w ++ s)) := by
    refine ⟨⟨rfl, rfl, fun h => TokenType.noConfusion h⟩, ?_, hlen, unblank_spaces w s hw⟩
    simp only [List.length_append] at hlen
    exact Nat.lt_of_le_of_lt (Nat.le_add_left _ _) hlen
  exact (parse_expr_sim A _ hL _ _ (hL _ _ h0).2).symm

/-- The call of `lexer_get_token` on two states whose texts at the cursor are
equal after their leading whitespace, the first character of the second text
being `n` places further. -/
theorem lexer_get_token_shift {α : Type} (A : Arith α) (lx lx2 : Lexer α) (n : Nat)
    (hrest : unblank lx2.rest = unblank lx.rest) (hidx : lx2.next_index = lx.next_index + n) :
    (lexer_get_token A lx2).1 = (lexer_get_token A lx).1 ∧
      (lexer_get_token A lx2).2.curr_token.type = (lexer_get_token A lx).2.curr_token.type ∧
      (lexer_get_token A lx2).2.curr_token.value = (lexer_get_token A lx).2.curr_token.value ∧
      (lexer_get_token A lx2).2.curr_token.num_chars =
        (lexer_get_token A lx).2.curr_token.num_chars ∧
      (lexer_get_token A lx2).2.pos = (lexer_get_token A lx).2.pos + n ∧
      (lx2.input.length < UNSIGNED_MOD →
        ((lexer_get_token A lx).2.curr_token.type = TokenName ∨
          (lexer_get_token A lx).2.curr_token.type = TokenNum) →
        (lexer_get_token A lx2).2.curr_token.start =
            (lexer_get_token A lx).2.curr_token.start + n ∧
          (lexer_get_token A lx2).2.curr_token.end_ =
            (lexer_get_token A lx).2.curr_token.end_ + n) := by
  have t1 := advance_token A lx
  have t2 := advance_token A lx2
  have hsp := (lex_text_span (unblank lx2.rest)).1
  rw [(lex_text_unblank lx2.rest).2, unblank_length] at hsp
  rw [hrest] at t2 hsp
  unfold advance at t1 t2
  refine ⟨by rw [lexer_get_token_flag, lexer_get_token_flag, hrest], ?_, ?_, ?_,
    by rw [lexer_get_token_pos, lexer_get_token_pos, hrest, hidx]; omega, ?_⟩
  all_goals
    cases hf : (lex_text (unblank lx.rest)).flag with
    | false =>
      rw [hf] at t1 t2
      have e1 := t1.1 rfl
      have e2 := t2.1 rfl
      first
        | (rw [e1, e2]; done)
        | (intro _ ht
           rw [e1] at ht
           rcases ht with ht | ht <;> cases ht)
    | true =>
      rw [hf] at t1 t2
      obtain ⟨a1, a2, a3, a4⟩ := t1.2 rfl
      obtain ⟨b1, b2, b3, b4⟩ := t2.2 rfl
      have hlt2 := next_index_lt_of_flag lx2 (by rw [hrest]; exact hf)
      by_cases hnum : (lex_text (unblank lx.rest)).type = TokenNum
      · have e1 := a2 hnum
        have e2 := b2 hnum
        first
          | (rw [e1, e2]; done)
          | (intro hl _
             rw [e1, e2]
             simp only []
             rw [hidx] at hlt2 hsp ⊢
             rw [Nat.mod_eq_of_lt (by omega), Nat.mod_eq_of_lt (by omega),
               Nat.mod_eq_of_lt (by omega), Nat.mod_eq_of_lt (by omega)]
             omega)
      · by_cases hname : (lex_text (unblank lx.rest)).type = TokenName
        · have e1 := a3 hname
          have e2 := b3 hname
          first
            | (rw [e1, e2]; done)
            | (intro hl _
               rw [e1, e2]
               simp only []
               rw [hidx] at hlt2 hsp ⊢
               rw [Nat.mod_eq_of_lt (by omega), Nat.mod_eq_of_lt (by omega),
                 Nat.mod_eq_of_lt (by omega), Nat.mod_eq_of_lt (by omega)]
               omega)
        · have e1 := a4 hnum hname
          have e2 := b4 hnum hname
          first
            | (rw [e1, e2]; done)
            | (intro _ ht
               rw [a1] at ht
               rcases ht with ht | ht
               · exact absurd ht hname
               · exact absurd ht hnum)

/-! ## The claims -/

/-- C1: for every input made of numeric literals separated by the binary
operators `+ - * /`, priming the lexer and calling `parse_expr` returns the
value of the reference infix evaluator, in which `*` and `/` bind tighter
than `+` and `-` and operators of equal precedence are folded from left to
right: `a-b-c` is `(a-b)-c`, `a/b/c` is `(a/b)/c` and `a+b*c` is `a+(b*c)`.
The value of a literal is what `strtod` returns on the text that starts at
the literal. -/
theorem C1_flat_infix_is_reference_value {α : Type} (A : Arith α) (l0 : List Char)
    (rest : List (BinOp × List Char)) (h0 : is_literal l0 = true)
    (hrest : ∀ p ∈ rest, is_literal p.2 = true) :
    evalValue A (render l0 rest) =
        some (ref_eval A (A.strtod (render l0 rest)) (lit_values A rest)) ∧
      (∀ a b c : α,
        ref_eval A a [(BinOp.minus, b), (BinOp.minus, c)] = A.sub (A.sub a b) c ∧
        ref_eval A a [(BinOp.slash, b), (BinOp.slash, c)] = A.div (A.div a b) c ∧
        ref_eval A a [(BinOp.plus, b), (BinOp.star, c)] = A.add a (A.mul b c) ∧
        ref_eval A a [(BinOp.star, b), (BinOp.plus, c)] = A.add (A.mul a b) c) := by
  refine ⟨?_, fun a b c => ⟨rfl, rfl, rfl, rfl⟩⟩
  obtain ⟨lx2, hr, hinv⟩ := reads_render A l0 rest h0 hrest
  have hend : continues Level.add lx2.curr_token.type = false := by rw [hinv]; rfl
  have h := parse_expr_of_some A (parse_add_flat A _ _ _ lx2 hr hend)
    (le_refl (fuelFor (primed A (render l0 rest))))
  unfold evalValue evaluate
  rw [h]
  rfl

/-- C1 at the input `2+3*4`, which evaluates to 14. -/
theorem C1_witness : evalValue Dbl.arith "2+3*4".toList = some (Dbl.int 14) :=
  (C1_flat_infix_is_reference_value Dbl.arith "2".toList
    [(BinOp.plus, "3".toList), (BinOp.star, "4".toList)] (by decide) (by decide)).1

/-- C2: for every expression tree built from numbers, `pi`, `e`, delimited
expressions, prefix minus and the binary operators, and for each of
`parse_term`, `parse_unary`, `parse_pow`, `parse_mul` and `parse_add`: when
the lexer is on the first token of a production of that level and the token
after the production does not continue the level, the function returns the
reference value of the production and leaves the lexer exactly on the token
after it; so does `parse_expr` when that token continues no level. -/
theorem C2_levels_consume_their_production {α : Type} (A : Arith α) (L : Level)
    (x : Expr α) (lx lx2 : Lexer α) (fuel : Nat) (hg : Gram L x) (hp : x.plain = true)
    (hr : Reads A lx x.toks lx2) (hc : continues L lx2.curr_token.type = false)
    (hfuel : fuelFor lx ≤ fuel) :
    parse_level A L fuel lx = some (x.val A, lx2) ∧
      (continues Level.add lx2.curr_token.type = false →
        parse_expr A fuel lx = some (x.val A, lx2)) :=
  ⟨level_sound A hg hr (follow_ok_of_plain x _ hp) hc hfuel,
    fun hc2 => expr_sound A hg hr (follow_ok_of_plain x _ hp) hc2 hfuel⟩

/-- C2 at the inputs `(2+3)*4` and `[2+3]*4`, which evaluate to 20. -/
theorem C2_witness :
    evaluate Dbl.arith "(2+3)*4".toList =
        some (Dbl.int 20, skip Dbl.arith 7 (primed Dbl.arith "(2+3)*4".toList)) ∧
      evaluate Dbl.arith "[2+3]*4".toList =
        some (Dbl.int 20, skip Dbl.arith 7 (primed Dbl.arith "[2+3]*4".toList)) :=
  ⟨(C2_levels_consume_their_production Dbl.arith Level.mul
      (Expr.mul (Expr.paren (Expr.add (Expr.num (Dbl.int 2)) (Expr.num (Dbl.int 3))))
        (Expr.num (Dbl.int 4)))
      (primed Dbl.arith "(2+3)*4".toList)
      (skip Dbl.arith 7 (primed Dbl.arith "(2+3)*4".toList)) _
      (Gram.mul
        (Gram.of_pow (Gram.of_unary (Gram.of_term (Gram.paren
          (Gram.add (Gram.of_mul (Gram.of_pow (Gram.of_unary (Gram.of_term (Gram.num _)))))
            rfl (Gram.of_pow (Gram.of_unary (Gram.of_term (Gram.num _))))) rfl))))
        rfl (Gram.of_unary (Gram.of_term (Gram.num _))))
      rfl (by decide) (by decide) (le_refl _)).2 (by decide),
   (C2_levels_consume_their_production Dbl.arith Level.mul
      (Expr.mul (Expr.brack (Expr.add (Expr.num (Dbl.int 2)) (Expr.num (Dbl.int 3))))
        (Expr.num (Dbl.int 4)))
      (primed Dbl.arith "[2+3]*4".toList)
      (skip Dbl.arith 7 (primed Dbl.arith "[2+3]*4".toList)) _
      (Gram.mul
        (Gram.of_pow (Gram.of_unary (Gram.of_term (Gram.brack
          (Gram.add (Gram.of_mul (Gram.of_pow (Gram.of_unary (Gram.of_term (Gram.num _)))))
            rfl (Gram.of_pow (Gram.of_unary (Gram.of_term (Gram.num _))))) rfl))))
        rfl (Gram.of_unary (Gram.of_term (Gram.num _))))
      rfl (by decide) (by decide) (le_refl _)).2 (by decide)⟩

/-- C3 fails at the input `-(`: the lexer starts on `-`, the next token is
`(`, the invocation of `parse_term` on it fails because no `)` follows and
returns `INFINITY`, but `parse_expr` returns the negated value, which is
negative infinity and not the sentinel. -/
theorem C3_counterexample :
    (primed Dbl.arith "-(".toList).curr_token.type = TokenMinus ∧
      (advance Dbl.arith (primed Dbl.arith "-(".toList)).curr_token.type = TokenLParen ∧
      term_fails Dbl.arith 20 (advance Dbl.arith (primed Dbl.arith "-(".toList)) = true ∧
      (parse_term Dbl.arith 21 (advance Dbl.arith (primed Dbl.arith "-(".toList))).map Prod.fst =
        some Dbl.arith.INFINITY ∧
      evalValue Dbl.arith "-(".toList = some Dbl.ninf ∧
      Dbl.ninf ≠ Dbl.arith.INFINITY := by
  decide

/-- C3, amended: on every input that reads as an expression some of whose
Terms fail (a token that starts no Term, or an opening delimiter whose
closing one is missing or mismatched), `parse_expr` returns the reference
value of the expression in which every failed Term counts as `INFINITY`: the
enclosing operators and functions are applied to it.  The result is
`INFINITY` itself when the failed Term is the whole expression. -/
theorem C3_failed_term_counts_as_infinity {α : Type} (A : Arith α) (x : Expr α)
    (lx lx2 : Lexer α) (fuel : Nat) (hg : Gram Level.add x)
    (hr : Reads A lx x.toks lx2) (hfo : x.follow_ok lx2.curr_token.type = true)
    (hend : continues Level.add lx2.curr_token.type = false) (hfuel : fuelFor lx ≤ fuel) :
    parse_expr A fuel lx = some (x.val A, lx2) ∧
      (x.is_failure = true → parse_expr A fuel lx = some (A.INFINITY, lx2)) := by
  have h := expr_sound A hg hr hfo hend hfuel
  refine ⟨h, fun hfail => ?_⟩
  rw [h]
  cases x <;> first | rfl | simp [Expr.is_failure] at hfail

/-- C3 (amended) at the inputs `1+(`, where the sum with the failed Term is
`INFINITY`, and `(2+3]`, where the failed Term is the whole expression. -/
theorem C3_witness :
    evaluate Dbl.arith "1+(".toList =
        some (Dbl.pinf, skip Dbl.arith 4 (primed Dbl.arith "1+(".toList)) ∧
      evaluate Dbl.arith "(2+3]".toList =
        some (Dbl.pinf, skip Dbl.arith 4 (primed Dbl.arith "(2+3]".toList)) :=
  ⟨(C3_failed_term_counts_as_infinity Dbl.arith
      (Expr.add (Expr.num (Dbl.int 1)) (Expr.unclosed_paren (Expr.stray TokenInvalid)))
      (primed Dbl.arith "1+(".toList) (skip Dbl.arith 4 (primed Dbl.arith "1+(".toList)) _
      (Gram.add (Gram.of_mul (Gram.of_pow (Gram.of_unary (Gram.of_term (Gram.num _))))) rfl
        (Gram.of_pow (Gram.of_unary (Gram.of_term (Gram.unclosed_paren
          (Gram.of_mul (Gram.of_pow (Gram.of_unary (Gram.of_term
            (Gram.stray TokenInvalid rfl))))))))))
      (by decide) (by decide) (by decide) (le_refl _)).1,
    (C3_failed_term_counts_as_infinity Dbl.arith
      (Expr.unclosed_paren (Expr.add (Expr.num (Dbl.int 2)) (Expr.num (Dbl.int 3))))
      (primed Dbl.arith "(2+3]".toList) (skip Dbl.arith 4 (primed Dbl.arith "(2+3]".toList)) _
      (Gram.of_mul (Gram.of_pow (Gram.of_unary (Gram.of_term (Gram.unclosed_paren
        (Gram.add (Gram.of_mul (Gram.of_pow (Gram.of_unary (Gram.of_term (Gram.num _))))) rfl
          (Gram.of_pow (Gram.of_unary (Gram.of_term (Gram.num _))))))))))
      (by decide) (by decide) (by decide) (le_refl _)).2 rfl⟩

/-- C4: `parse_term` returns `INFINITY` (a) when the current token is none of
a number, a name, `(` or `[`, (b) when it is `(` and the token after the
enclosed expression is not `)`, (c) when it is `[` and that token is not
`]`.  So for every well-formed `E` the inputs `( E`, `( E ]`, `[ E` and
`[ E )` evaluate to `INFINITY`. -/
theorem C4_parse_term_failure_is_infinity {α : Type} (A : Arith α) (lx : Lexer α)
    (fuel : Nat) (hfuel : fuelFor lx ≤ fuel) :
    ((lx.curr_token.type ≠ TokenNum ∧ lx.curr_token.type ≠ TokenName ∧
        lx.curr_token.type ≠ TokenLParen ∧ lx.curr_token.type ≠ TokenLBracket) →
        parse_term A fuel lx = some (A.INFINITY, advance A lx)) ∧
      (lx.curr_token.type = TokenLParen →
        ∃ v lx1, parse_expr A (fuel - 1) (advance A lx) = some (v, lx1) ∧
          (lx1.curr_token.type ≠ TokenRParen →
            parse_term A fuel lx = some (A.INFINITY, lx1))) ∧
      (lx.curr_token.type = TokenLBracket →
        ∃ v lx1, parse_expr A (fuel - 1) (advance A lx) = some (v, lx1) ∧
          (lx1.curr_token.type ≠ TokenRBracket →
            parse_term A fuel lx = some (A.INFINITY, lx1))) ∧
      (∀ (x : Expr α) (lx1 : Lexer α), Gram Level.add x → x.no_failure = true →
        Reads A lx (Tok.op TokenLParen :: x.toks) lx1 →
        (lx1.curr_token.type = TokenInvalid ∨ lx1.curr_token.type = TokenRBracket) →
        parse_expr A fuel lx = some (A.INFINITY, lx1)) ∧
      (∀ (x : Expr α) (lx1 : Lexer α), Gram Level.add x → x.no_failure = true →
        Reads A lx (Tok.op TokenLBracket :: x.toks) lx1 →
        (lx1.curr_token.type = TokenInvalid ∨ lx1.curr_token.type = TokenRParen) →
        parse_expr A fuel lx = some (A.INFINITY, lx1)) := by
  obtain ⟨f, rfl⟩ : ∃ f, fuel = f + 1 := ⟨fuel - 1, by unfold fuelFor at hfuel; omega⟩
  have hinner : lx.curr_token.type ≠ TokenInvalid →
      ∃ v lx1, parse_expr A f (advance A lx) = some (v, lx1) := by
    intro hv
    have hlt := lexMeasure_advance_lt A lx hv
    obtain ⟨v, lx1, h, _⟩ := parse_expr_halts A (advance A lx) f
      (by unfold fuelFor at hfuel ⊢; omega)
    exact ⟨v, lx1, h⟩
  refine ⟨?_, ?_, ?_, ?_, ?_⟩
  · rintro ⟨h1, h2, h3, h4⟩
    exact parse_term_stray A f lx h1 h2 h3 h4
  · intro h
    obtain ⟨v, lx1, h1⟩ := hinner (by rw [h]; decide)
    refine ⟨v, lx1, h1, fun hne => ?_⟩
    rw [parse_term_lparen A f lx h, h1]
    simp only [close_delim]
    rw [if_neg hne]
  · intro h
    obtain ⟨v, lx1, h1⟩ := hinner (by rw [h]; decide)
    refine ⟨v, lx1, h1, fun hne => ?_⟩
    rw [parse_term_lbracket A f lx h, h1]
    simp only [close_delim]
    rw [if_neg hne]
  · intro x lx1 hg hx hr ht
    have hcar : lx1.curr_token.type ≠ TokenCarot := by
      rcases ht with h | h <;> rw [h] <;> decide
    exact expr_sound A (L := Level.term) (x := Expr.unclosed_paren x)
      (Gram.unclosed_paren hg) hr
      (by
        simp only [Expr.follow_ok, follow_ok_of_no_failure x _ hx hcar]
        rcases ht with h | h <;> rw [h] <;> decide)
      (by rcases ht with h | h <;> rw [h] <;> decide) hfuel
  · intro x lx1 hg hx hr ht
    have hcar : lx1.curr_token.type ≠ TokenCarot := by
      rcases ht with h | h <;> rw [h] <;> decide
    exact expr_sound A (L := Level.term) (x := Expr.unclosed_brack x)
      (Gram.unclosed_brack hg) hr
      (by
        simp only [Expr.follow_ok, follow_ok_of_no_failure x _ hx hcar]
        rcases ht with h | h <;> rw [h] <;> decide)
      (by rcases ht with h | h <;> rw [h] <;> decide) hfuel

/-- C4 at the input `(2+3`, which evaluates to `INFINITY`. -/
theorem C4_witness :
    evaluate Dbl.arith "(2+3".toList =
      some (Dbl.pinf, skip Dbl.arith 4 (primed Dbl.arith "(2+3".toList)) :=
  (C4_parse_term_failure_is_infinity Dbl.arith (primed Dbl.arith "(2+3".toList) _
    (le_refl _)).2.2.2.1
    (Expr.add (Expr.num (Dbl.int 2)) (Expr.num (Dbl.int 3)))
    (skip Dbl.arith 4 (primed Dbl.arith "(2+3".toList))
    (Gram.add (Gram.of_mul (Gram.of_pow (Gram.of_unary (Gram.of_term (Gram.num _))))) rfl
      (Gram.of_pow (Gram.of_unary (Gram.of_term (Gram.num _)))))
    rfl (by decide) (by decide)

/-- C5 fails in the code: `strncmp` is given the length of the token, so a
name token resolves to the first table entry whose name its text starts, not
only to an entry whose name it equals.  The line `p` evaluates to `M_PI`
although `p` is no name of the table; `l` resolves to `ln` and `lo` to
`log`.  Names of the table resolve to their own entry. -/
theorem C5_name_token_resolves_by_leading_characters (t rest : List Char) (ht : NUL ∉ t) :
    table_lookup (t ++ rest) t.length = table_order.find? (starts_name t) ∧
      (∀ f : Entry, table_lookup f.text f.text.length = some f) ∧
      (∀ f : Entry, "p".toList ≠ f.text) ∧
      table_lookup "p".toList 1 = some Entry.pi ∧
      (∀ {α : Type} (A : Arith α), evalValue A "p".toList = some A.M_PI) ∧
      table_lookup "l".toList 1 = some Entry.ln ∧
      table_lookup "lo".toList 2 = some Entry.log := by
  refine ⟨table_lookup_eq_find t rest ht, table_lookup_text, ?_, by decide, fun A => rfl,
    by decide, by decide⟩
  intro f
  cases f <;> decide

/-- C5 at the token text `arcc` in the buffer `arccos`: read with the length
of the token, it resolves to `arccos`, the first entry whose name starts with
`arcc`. -/
theorem C5_witness :
    table_lookup "arccos".toList 4 = some Entry.arccos :=
  (C5_name_token_resolves_by_leading_characters "arcc".toList "os".toList (by decide)).1

/-- C6: for every function name of the table and every well-formed
expression `E`, `parse_term` on `name ( E )` and on `name [ E ]` consumes
the tokens through the closing delimiter and returns `F(value of E)`, where
`F` is `sin`, `cos`, `tan`, `asin`, `acos`, `atan`, `log` (for `ln`),
`log10` (for `log`), `log2` (for `lb`) and the identity for `myfunchere`. -/
theorem C6_named_function_of_delimited_argument {α : Type} (A : Arith α) (f : Entry)
    (x : Expr α) (lx lx2 : Lexer α) (fuel : Nat) (hf : f.is_fun = true)
    (hg : Gram Level.add x) (hx : x.no_failure = true) (hfuel : fuelFor lx ≤ fuel) :
    (Reads A lx (Tok.name f.text :: Tok.op TokenLParen :: (x.toks ++ [Tok.op TokenRParen])) lx2 →
        parse_term A fuel lx = some (A.call f (x.val A), lx2)) ∧
      (Reads A lx
          (Tok.name f.text :: Tok.op TokenLBracket :: (x.toks ++ [Tok.op TokenRBracket])) lx2 →
        parse_term A fuel lx = some (A.call f (x.val A), lx2)) ∧
      (A.call Entry.sin = A.sin ∧ A.call Entry.cos = A.cos ∧ A.call Entry.tan = A.tan ∧
        A.call Entry.arcsin = A.asin ∧ A.call Entry.arccos = A.acos ∧
        A.call Entry.arctan = A.atan ∧ A.call Entry.ln = A.log ∧
        A.call Entry.log = A.log10 ∧ A.call Entry.lb = A.log2 ∧
        A.call Entry.myfunchere = id) := by
  refine ⟨fun hr => ?_, fun hr => ?_, rfl, rfl, rfl, rfl, rfl, rfl, rfl, rfl, rfl, rfl⟩
  · exact level_sound A (L := Level.term) (x := Expr.call f (Expr.paren x))
      (Gram.call_delim f hf
        (Gram.paren hg (follow_ok_of_no_failure x _ hx (by decide))) rfl)
      hr rfl rfl hfuel
  · exact level_sound A (L := Level.term) (x := Expr.call f (Expr.brack x))
      (Gram.call_delim f hf
        (Gram.brack hg (follow_ok_of_no_failure x _ hx (by decide))) rfl)
      hr rfl rfl hfuel

/-- C6 at the input `log(100)`; and the inputs `log 100` and `lb 8` of the
claim evaluate to 2 and 3. -/
theorem C6_witness :
    parse_term Dbl.arith (fuelFor (primed Dbl.arith "log(100)".toList))
        (primed Dbl.arith "log(100)".toList) =
        some (Dbl.int 2, skip Dbl.arith 4 (primed Dbl.arith "log(100)".toList)) ∧
      evalValue Dbl.arith "log 100".toList = some (Dbl.int 2) ∧
      evalValue Dbl.arith "lb 8".toList = some (Dbl.int 3) :=
  ⟨(C6_named_function_of_delimited_argument Dbl.arith Entry.log (Expr.num (Dbl.int 100))
      (primed Dbl.arith "log(100)".toList)
      (skip Dbl.arith 4 (primed Dbl.arith "log(100)".toList)) _ rfl
      (Gram.of_mul (Gram.of_pow (Gram.of_unary (Gram.of_term (Gram.num _))))) rfl
      (le_refl _)).1 (by decide),
    by decide, by decide⟩

/-- C7: the argument of a named function that does not start with `(` or
`[` is one PowExpr, so `f a ^ b` is `F(pow(a, b))`, `f a + c` is `F(a) + c`
and `f a * c` is `F(a) * c`; an argument that starts with `(` or `[` is
exactly the delimited Term, so `f ( a ) ^ b` is `pow(F(a), b)`. -/
theorem C7_function_argument_binds_at_pow {α : Type} (A : Arith α) (f : Entry)
    (a b c : α) (lx lx2 : Lexer α) (fuel : Nat) (hf : f.is_fun = true)
    (hend : continues Level.add lx2.curr_token.type = false) (hfuel : fuelFor lx ≤ fuel) :
    (Reads A lx [Tok.name f.text, Tok.num a, Tok.op TokenCarot, Tok.num b] lx2 →
        parse_expr A fuel lx = some (A.call f (A.pow a b), lx2)) ∧
      (Reads A lx [Tok.name f.text, Tok.num a, Tok.op TokenPlus, Tok.num c] lx2 →
        parse_expr A fuel lx = some (A.add (A.call f a) c, lx2)) ∧
      (Reads A lx [Tok.name f.text, Tok.num a, Tok.op TokenStar, Tok.num c] lx2 →
        parse_expr A fuel lx = some (A.mul (A.call f a) c, lx2)) ∧
      (Reads A lx [Tok.name f.text, Tok.op TokenLParen, Tok.num a, Tok.op TokenRParen,
          Tok.op TokenCarot, Tok.num b] lx2 →
        parse_expr A fuel lx = some (A.pow (A.call f a) b, lx2)) ∧
      (∀ x : Expr α, Gram Level.pow x → x.starts_delim = false →
        x.follow_ok lx2.curr_token.type = true → Reads A lx (Tok.name f.text :: x.toks) lx2 →
        parse_term A fuel lx = some (A.call f (x.val A), lx2)) ∧
      (∀ x : Expr α, Gram Level.term x → x.starts_delim = true →
        x.follow_ok lx2.curr_token.type = true → Reads A lx (Tok.name f.text :: x.toks) lx2 →
        parse_term A fuel lx = some (A.call f (x.val A), lx2)) := by
  have hcar : lx2.curr_token.type ≠ TokenCarot := by
    simp only [continues, decide_eq_false_iff_not, not_or] at hend
    exact hend.1
  have gnum : ∀ v : α, Gram Level.pow (Expr.num v) := fun v =>
    Gram.of_unary (Gram.of_term (Gram.num v))
  refine ⟨fun hr => ?_, fun hr => ?_, fun hr => ?_, fun hr => ?_, ?_, ?_⟩
  · exact expr_sound A (L := Level.term)
      (x := Expr.call f (Expr.pow (Expr.num a) (Expr.num b)))
      (Gram.call_bare f hf (Gram.pow (gnum a) rfl (Gram.of_term (Gram.num b))) rfl)
      hr (by simp [Expr.follow_ok, hcar]) hend hfuel
  · exact expr_sound A (L := Level.add)
      (x := Expr.add (Expr.call f (Expr.num a)) (Expr.num c))
      (Gram.add (Gram.of_mul (Gram.of_pow (Gram.of_unary (Gram.of_term
        (Gram.call_bare f hf (gnum a) rfl))))) rfl (Gram.of_pow (gnum c)))
      hr rfl hend hfuel
  · exact expr_sound A (L := Level.mul)
      (x := Expr.mul (Expr.call f (Expr.num a)) (Expr.num c))
      (Gram.mul (Gram.of_pow (Gram.of_unary (Gram.of_term
        (Gram.call_bare f hf (gnum a) rfl)))) rfl (gnum c))
      hr rfl hend hfuel
  · exact expr_sound A (L := Level.pow)
      (x := Expr.pow (Expr.call f (Expr.paren (Expr.num a))) (Expr.num b))
      (Gram.pow (Gram.of_unary (Gram.of_term (Gram.call_delim f hf
        (Gram.paren (Gram.of_mul (Gram.of_pow (gnum a))) rfl) rfl))) rfl
        (Gram.of_term (Gram.num b)))
      hr rfl hend hfuel
  · intro x hg hd hfo hr
    exact level_sound A (L := Level.term) (x := Expr.call f x)
      (Gram.call_bare f hf hg hd) hr (by simp [Expr.follow_ok, hd, hcar, hfo]) rfl hfuel
  · intro x hg hd hfo hr
    exact level_sound A (L := Level.term) (x := Expr.call f x)
      (Gram.call_delim f hf hg hd) hr (by simp [Expr.follow_ok, hd, hfo]) rfl hfuel

/-- C7 at the inputs `lb 2^3` and `lb(8)^2`, which evaluate to 3 and 9. -/
theorem C7_witness :
    evaluate Dbl.arith "lb 2^3".toList =
        some (Dbl.int 3, skip Dbl.arith 4 (primed Dbl.arith "lb 2^3".toList)) ∧
      evaluate Dbl.arith "lb(8)^2".toList =
        some (Dbl.int 9, skip Dbl.arith 6 (primed Dbl.arith "lb(8)^2".toList)) :=
  ⟨(C7_function_argument_binds_at_pow Dbl.arith Entry.lb (Dbl.int 2) (Dbl.int 3) (Dbl.int 0)
      (primed Dbl.arith "lb 2^3".toList) (skip Dbl.arith 4 (primed Dbl.arith "lb 2^3".toList))
      _ rfl (by decide) (le_refl _)).1 (by decide),
    (C7_function_argument_binds_at_pow Dbl.arith Entry.lb (Dbl.int 8) (Dbl.int 2) (Dbl.int 0)
      (primed Dbl.arith "lb(8)^2".toList) (skip Dbl.arith 6 (primed Dbl.arith "lb(8)^2".toList))
      _ rfl (by decide) (le_refl _)).2.2.2.1 (by decide)⟩

/-- C8: exponentiation folds to the left: `a ^ b ^ c` is `pow(pow(a, b), c)`,
and a chain `u0 ^ u1 ^ ... ^ un` of UnaryExpr operands evaluates to the left
fold of `pow` over the values of the operands. -/
theorem C8_pow_is_left_associative {α : Type} (A : Arith α) (lx lx2 : Lexer α) (fuel : Nat)
    (hend : lx2.curr_token.type ≠ TokenCarot) (hfuel : fuelFor lx ≤ fuel) :
    (∀ a b c : α,
        Reads A lx [Tok.num a, Tok.op TokenCarot, Tok.num b, Tok.op TokenCarot, Tok.num c] lx2 →
        parse_pow A fuel lx = some (A.pow (A.pow a b) c, lx2)) ∧
      (∀ (u0 : Expr α) (us : List (Expr α)),
        (∀ u ∈ u0 :: us, Gram Level.unary u) → caret_follows u0 us →
        ((u0 :: us).getLastD u0).follow_ok lx2.curr_token.type = true →
        Reads A lx (chain_toks_of u0 us) lx2 →
        parse_pow A fuel lx =
          some ((us.map (Expr.val A)).foldl A.pow (u0.val A), lx2)) := by
  have hc : continues Level.pow lx2.curr_token.type = false := by
    simp [continues, hend]
  constructor
  · intro a b c hr
    exact level_sound A (L := Level.pow)
      (x := Expr.pow (Expr.pow (Expr.num a) (Expr.num b)) (Expr.num c))
      (Gram.pow (Gram.pow (Gram.of_unary (Gram.of_term (Gram.num a))) rfl
        (Gram.of_term (Gram.num b))) rfl (Gram.of_term (Gram.num c)))
      hr rfl hc hfuel
  · intro u0 us hu hcf hlast hr
    have hg : Gram Level.pow (us.foldl Expr.pow u0) :=
      chain_gram us u0 (Gram.of_unary (hu u0 (by simp))) hcf
        (fun u hm => hu u (by simp [hm]))
    rw [← chain_toks] at hr
    rw [← chain_val]
    exact level_sound A hg hr (by rw [chain_last_follow]; exact hlast) hc hfuel

/-- C8 at the input `2^3^2`, which evaluates to 64 and not to 512, both as
three literals and as a chain of three operands. -/
theorem C8_witness :
    parse_pow Dbl.arith (fuelFor (primed Dbl.arith "2^3^2".toList))
        (primed Dbl.arith "2^3^2".toList) =
        some (Dbl.int 64, skip Dbl.arith 5 (primed Dbl.arith "2^3^2".toList)) ∧
      parse_pow Dbl.arith (fuelFor (primed Dbl.arith "2^3^2".toList))
        (primed Dbl.arith "2^3^2".toList) =
        some ([Dbl.int 3, Dbl.int 2].foldl Dbl.pow (Dbl.int 2),
          skip Dbl.arith 5 (primed Dbl.arith "2^3^2".toList)) ∧
      evalValue Dbl.arith "2^3^2".toList = some (Dbl.int 64) ∧
      Dbl.int 64 ≠ Dbl.int 512 :=
  ⟨(C8_pow_is_left_associative Dbl.arith (primed Dbl.arith "2^3^2".toList)
      (skip Dbl.arith 5 (primed Dbl.arith "2^3^2".toList)) _ (by decide) (le_refl _)).1
      (Dbl.int 2) (Dbl.int 3) (Dbl.int 2) (by decide),
    (C8_pow_is_left_associative Dbl.arith (primed Dbl.arith "2^3^2".toList)
      (skip Dbl.arith 5 (primed Dbl.arith "2^3^2".toList)) _ (by decide) (le_refl _)).2
      (Expr.num (Dbl.int 2)) [Expr.num (Dbl.int 3), Expr.num (Dbl.int 2)]
      (by
        intro u hu
        simp only [List.mem_cons, List.mem_singleton, List.not_mem_nil, or_false] at hu
        rcases hu with rfl | rfl | rfl <;> exact Gram.of_term (Gram.num _))
      ⟨rfl, rfl, trivial⟩ rfl (by decide),
    by decide, by decide⟩

/-- C9: prefix minus is applied to the base before exponentiation, so
`- a ^ b` is `pow(-a, b)`; and `n` minus signs before a Term negate its
value `n` times. -/
theorem C9_unary_minus_binds_tighter_than_pow {α : Type} (A : Arith α) (lx lx2 : Lexer α)
    (fuel : Nat) (hfuel : fuelFor lx ≤ fuel) :
    (∀ a b : α, lx2.curr_token.type ≠ TokenCarot →
        Reads A lx [Tok.op TokenMinus, Tok.num a, Tok.op TokenCarot, Tok.num b] lx2 →
        parse_pow A fuel lx = some (A.pow (A.neg a) b, lx2)) ∧
      (∀ (t : Expr α) (n : Nat), Gram Level.term t →
        t.follow_ok lx2.curr_token.type = true →
        Reads A lx (List.replicate n (Tok.op TokenMinus) ++ t.toks) lx2 →
        parse_unary A fuel lx = some (A.neg^[n] (t.val A), lx2)) := by
  constructor
  · intro a b hend hr
    exact level_sound A (L := Level.pow)
      (x := Expr.pow (Expr.neg (Expr.num a)) (Expr.num b))
      (Gram.pow (Gram.of_unary (Gram.neg (Gram.of_term (Gram.num a)))) rfl
        (Gram.of_term (Gram.num b)))
      hr rfl (by simp [continues, hend]) hfuel
  · intro t n hg hfo hr
    rw [← negs_toks] at hr
    rw [← negs_val]
    exact level_sound A (negs_gram hg n) hr (by rw [negs_follow]; exact hfo) rfl hfuel

/-- C9 at the input `-3^2`, which evaluates to 9, and at `--3`, where two
minus signs give 3 back. -/
theorem C9_witness :
    parse_pow Dbl.arith (fuelFor (primed Dbl.arith "-3^2".toList))
        (primed Dbl.arith "-3^2".toList) =
        some (Dbl.int 9, skip Dbl.arith 4 (primed Dbl.arith "-3^2".toList)) ∧
      parse_unary Dbl.arith (fuelFor (primed Dbl.arith "--3".toList))
        (primed Dbl.arith "--3".toList) =
        some (Dbl.int 3, skip Dbl.arith 3 (primed Dbl.arith "--3".toList)) ∧
      evalValue Dbl.arith "-3^2".toList = some (Dbl.int 9) :=
  ⟨(C9_unary_minus_binds_tighter_than_pow Dbl.arith (primed Dbl.arith "-3^2".toList)
      (skip Dbl.arith 4 (primed Dbl.arith "-3^2".toList)) _ (le_refl _)).1
      (Dbl.int 3) (Dbl.int 2) (by decide) (by decide),
    (C9_unary_minus_binds_tighter_than_pow Dbl.arith (primed Dbl.arith "--3".toList)
      (skip Dbl.arith 3 (primed Dbl.arith "--3".toList)) _ (le_refl _)).2
      (Expr.num (Dbl.int 3)) 2 (Gram.num _) rfl (by decide),
    by decide⟩

/-- C10: for every input buffer, priming the lexer and calling `parse_expr`
returns; more generally `parse_expr` returns on every lexer state once the
budget is at least `fuelFor`.  The measure `lexMeasure` never grows under
`lexer_get_token` and strictly decreases whenever the current token is not
`TokenInvalid`, because the call either advances the cursor or leaves the
current token `TokenInvalid`; on a `TokenInvalid` token `parse_term` returns
without a recursive call and every operator loop stops. -/
theorem C10_parse_expr_terminates {α : Type} (A : Arith α) (line : List Char) :
    (∃ v lx2, evaluate A line = some (v, lx2)) ∧
      (∀ (lx : Lexer α) (fuel : Nat), fuelFor lx ≤ fuel →
        ∃ v lx2, parse_expr A fuel lx = some (v, lx2) ∧ lexMeasure lx2 ≤ lexMeasure lx) ∧
      (∀ lx : Lexer α, lexMeasure (advance A lx) ≤ lexMeasure lx ∧
        (lx.curr_token.type ≠ TokenInvalid → lexMeasure (advance A lx) < lexMeasure lx) ∧
        ((advance A lx).curr_token.type = TokenInvalid ∨ lx.pos < (advance A lx).pos)) ∧
      (∀ (lx : Lexer α) (n : Nat) (v : α), lx.curr_token.type = TokenInvalid →
        parse_term A (n + 1) lx = some (A.INFINITY, advance A lx) ∧
        parse_pow_loop A (n + 1) v lx = some (v, lx) ∧
        parse_mul_loop A (n + 1) v lx = some (v, lx) ∧
        parse_add_loop A (n + 1) v lx = some (v, lx)) := by
  refine ⟨?_, ?_, ?_, ?_⟩
  · obtain ⟨v, lx2, h, _⟩ := parse_expr_halts A (primed A line) _ (le_refl _)
    exact ⟨v, lx2, h⟩
  · intro lx fuel hf
    exact parse_expr_halts A lx fuel hf
  · intro lx
    refine ⟨lexMeasure_advance_le A lx, lexMeasure_advance_lt A lx, ?_⟩
    rcases advance_type_or_pos A lx with h | h
    · exact Or.inl h.1
    · exact Or.inr h.1
  · intro lx n v h
    refine ⟨parse_term_stray A n lx ?_ ?_ ?_ ?_, parse_pow_loop_exit A n v lx ?_,
      parse_mul_loop_exit A n v lx ?_ ?_, parse_add_loop_exit A n v lx ?_ ?_⟩ <;>
    · rw [h]; decide

/-- C10 at the malformed input `1+(`: the evaluation returns. -/
theorem C10_witness :
    ∃ v lx2, parse_expr Dbl.arith (fuelFor (primed Dbl.arith "1+(".toList))
      (primed Dbl.arith "1+(".toList) = some (v, lx2) ∧
      lexMeasure lx2 ≤ lexMeasure (primed Dbl.arith "1+(".toList) :=
  (C10_parse_expr_terminates Dbl.arith "1+(".toList).2.1 (primed Dbl.arith "1+(".toList) _
    (le_refl _)

/-- C11: `lexer_get_token` returns false exactly when, after the whitespace at
the cursor, (a) the text ends, or (b) the character there is none of the nine
operator and delimiter characters, no digit, no dot and no letter, or (c) it is
a digit or a dot and the maximal run of alphanumeric characters and dots that
starts there holds a letter or two dots.  When it returns true the kind of the
current token is the one of that first character: the nine operator and
delimiter characters have nine different kinds, a letter gives `TokenName`, a
digit or a dot `TokenNum`. -/
theorem C11_lexer_get_token_fails_iff {α : Type} (A : Arith α) (lx : Lexer α) :
    ((lexer_get_token A lx).1 = false ↔
      (lx.next_char = NUL ∨
        (lx.next_char ∉ operator_chars ∧ lx.next_char.isDigit = false ∧ lx.next_char ≠ '.' ∧
          isalpha lx.next_char = false) ∨
        ((lx.next_char.isDigit = true ∨ lx.next_char = '.') ∧
          ((∃ x ∈ literal_run (unblank lx.rest), isalpha x = true) ∨
            2 ≤ (literal_run (unblank lx.rest)).count '.')))) ∧
      ((lexer_get_token A lx).1 = true →
        (∀ tt, single_char_type lx.next_char = some tt →
          (lexer_get_token A lx).2.curr_token.type = tt) ∧
        (isalpha lx.next_char = true →
          (lexer_get_token A lx).2.curr_token.type = TokenName) ∧
        (lx.next_char.isDigit = true ∨ lx.next_char = '.' →
          (lexer_get_token A lx).2.curr_token.type = TokenNum)) ∧
      operator_chars.map single_char_type =
        [some TokenPlus, some TokenMinus, some TokenStar, some TokenSlash, some TokenCarot,
          some TokenLParen, some TokenRParen, some TokenLBracket, some TokenRBracket] := by
  refine ⟨?_, ?_, by decide⟩
  · rw [lexer_get_token_flag]
    by_cases h0 : lx.next_char = NUL
    · rw [lex_text_NUL _ h0]
      simp [h0]
    · obtain ⟨cs, hu⟩ := unblank_of_next_char lx h0
      rw [hu]
      rcases h1 : single_char_type lx.next_char with _ | tt
      · by_cases h2 : lx.next_char.isDigit = true ∨ lx.next_char = '.'
        · rw [lex_text_digit _ _ h2]
          simp only []
          rw [scan_decimal_fails_iff]
          constructor
          · intro h
            exact Or.inr (Or.inr ⟨h2, h⟩)
          · intro h
            rcases h with h | h | h
            · exact absurd h h0
            · exfalso
              rcases h2 with h2 | h2
              · rw [h.2.1] at h2
                cases h2
              · exact h.2.2.1 h2
            · exact h.2
        · by_cases h3 : isalpha lx.next_char = true
          · rw [lex_text_alpha _ _ h3]
            simp only [Bool.true_eq_false, false_iff, not_or, not_and]
            refine ⟨h0, ?_, fun h => absurd h h2⟩
            intro _ _ _
            simp [h3]
          · rw [lex_text_other _ _ (next_char_not_space lx) h1 h2 (by simpa using h3)]
            simp only [true_iff]
            right
            left
            refine ⟨(single_none_iff _).mp h1, ?_, fun h => h2 (Or.inr h), by simpa using h3⟩
            cases hd : lx.next_char.isDigit with
            | false => rfl
            | true => exact absurd (Or.inl hd) h2
      · rw [lex_text_single _ _ _ h1]
        simp only [Bool.true_eq_false, false_iff, not_or, not_and]
        refine ⟨h0, ?_, ?_⟩
        · intro hno
          rw [(single_none_iff _).mpr hno] at h1
          cases h1
        · intro h2
          rw [digit_or_dot_not_single h2] at h1
          cases h1
  · intro hflag
    rw [lexer_get_token_type A lx hflag]
    rw [lexer_get_token_flag] at hflag
    have h0 : lx.next_char ≠ NUL := by
      intro h0
      rw [lex_text_NUL _ h0] at hflag
      cases hflag
    obtain ⟨cs, hu⟩ := unblank_of_next_char lx h0
    rw [hu] at hflag ⊢
    refine ⟨?_, ?_, ?_⟩
    · intro tt h1
      rw [lex_text_single _ _ _ h1]
    · intro h3
      rw [lex_text_alpha _ _ h3]
    · intro h2
      rw [lex_text_digit _ _ h2] at hflag ⊢
      simp only [] at hflag ⊢
      rw [if_pos hflag]

/-- C11 at the buffer `1.5.2`, whose run of alphanumeric characters and dots
holds two dots: the call returns false; on `(1` it returns true with the kind
of `(`. -/
theorem C11_witness :
    (lexer_get_token Dbl.arith (Lexer.init Dbl.arith "1.5.2".toList)).1 = false ∧
      (lexer_get_token Dbl.arith (Lexer.init Dbl.arith "(1".toList)).2.curr_token.type =
        TokenLParen :=
  ⟨(C11_lexer_get_token_fails_iff Dbl.arith (Lexer.init Dbl.arith "1.5.2".toList)).1.mpr
      (Or.inr (Or.inr ⟨by decide, Or.inr (by decide)⟩)),
    ((C11_lexer_get_token_fails_iff Dbl.arith (Lexer.init Dbl.arith "(1".toList)).2.1
      (by decide)).1 TokenLParen (by decide)⟩

/-- C12: when the first character after the whitespace at the cursor is a
digit or a dot and the maximal run `r` of alphanumeric characters and dots
that starts there holds only digits and at most one dot, `lexer_get_token`
returns true with a `TokenNum` token whose span is `r`: `start` is the index
of the first character of `r`, `end` and the cursor are the index just past
`r` (the two fields modulo `2^32`, which changes nothing for a buffer shorter
than that), `num_chars` is the length of `r`.  The value is what `strtod`
returns on the text that starts at `r`, which is its value on `r` alone as
`strtod` stops at the first character that cannot go on a numeral. -/
theorem C12_number_token_spans_its_run {α : Type} (A : Arith α) (lx : Lexer α)
    (hc : lx.next_char.isDigit = true ∨ lx.next_char = '.')
    (hr : ∀ x ∈ literal_run (unblank lx.rest), x.isDigit = true ∨ x = '.')
    (hdot : (literal_run (unblank lx.rest)).count '.' ≤ 1) :
    (lexer_get_token A lx).1 = true ∧
      (lexer_get_token A lx).2.curr_token.type = TokenNum ∧
      (lexer_get_token A lx).2.curr_token.num_chars = (literal_run (unblank lx.rest)).length ∧
      (lexer_get_token A lx).2.pos = lx.next_index + (literal_run (unblank lx.rest)).length ∧
      (lexer_get_token A lx).2.curr_token.start = lx.next_index % UNSIGNED_MOD ∧
      (lexer_get_token A lx).2.curr_token.end_ =
        (lx.next_index + (literal_run (unblank lx.rest)).length) % UNSIGNED_MOD ∧
      (lx.input.length < UNSIGNED_MOD →
        (lexer_get_token A lx).2.curr_token.start = lx.next_index ∧
          (lexer_get_token A lx).2.curr_token.end_ = (lexer_get_token A lx).2.pos) ∧
      (lx.input.drop lx.next_index).take (literal_run (unblank lx.rest)).length =
        literal_run (unblank lx.rest) ∧
      (lexer_get_token A lx).2.curr_token.value = A.strtod (lx.input.drop lx.next_index) ∧
      (reads_only_literal A →
        (lexer_get_token A lx).2.curr_token.value = A.strtod (literal_run (unblank lx.rest))) := by
  have hsplit := literal_run_append (unblank lx.rest)
  have hle := literal_run_length_le (unblank lx.rest)
  rw [unblank_length] at hle
  have h0 : lx.next_char ≠ NUL := digit_or_dot_not_NUL hc
  have hlt := next_index_lt lx h0
  rw [lexer_get_token_num A lx hc hr hdot]
  refine ⟨rfl, rfl, rfl, rfl, rfl, rfl, ?_, ?_, rfl, ?_⟩
  · intro hlen
    simp only []
    rw [Nat.mod_eq_of_lt (by omega), Nat.mod_eq_of_lt (by omega)]
    exact ⟨rfl, rfl⟩
  · rw [next_index_text]
    have h := List.take_left (literal_run (unblank lx.rest))
      ((unblank lx.rest).dropWhile is_run_char)
    rw [← hsplit.1] at h
    exact h
  · intro hA
    simp only []
    rw [next_index_text]
    conv_lhs => rw [hsplit.1]
    exact hA _ _ (literal_run_is_literal _ hc hr hdot) hsplit.2

/-- C12 at the buffer ` 42+1` with the cursor at its start: the token is the
number 42 with the span from 1 to 3. -/
theorem C12_witness :
    (lexer_get_token Dbl.arith (Lexer.init Dbl.arith " 42+1".toList)).2.curr_token.value =
        Dbl.arith.strtod (literal_run (unblank (Lexer.init Dbl.arith " 42+1".toList).rest)) ∧
      literal_run (unblank (Lexer.init Dbl.arith " 42+1".toList).rest) = "42".toList ∧
      (lexer_get_token Dbl.arith (Lexer.init Dbl.arith " 42+1".toList)).2.curr_token =
        { type := TokenNum, value := Dbl.int 42, num_chars := 2, start := 1, end_ := 3 } :=
  ⟨(C12_number_token_spans_its_run Dbl.arith (Lexer.init Dbl.arith " 42+1".toList)
      (by decide) (by decide) (by decide)).2.2.2.2.2.2.2.2.2 Dbl.strtod_reads_only_literal,
    by decide, by decide⟩

/-- C13: when the first character after the whitespace at the cursor is a
letter, `lexer_get_token` returns true with a `TokenName` token whose span is
the maximal run of letters that starts there: `start` is the index of its
first letter, `end` and the cursor are the index just past the run (the two
fields modulo `2^32`), `num_chars` is the length of the run, which is
`end - start` and at least 1, and the value is zero.  So `sin2` is the name
`sin` followed by the number 2. -/
theorem C13_name_token_spans_its_letters {α : Type} (A : Arith α) (lx : Lexer α)
    (hc : isalpha lx.next_char = true) :
    (lexer_get_token A lx).1 = true ∧
      (lexer_get_token A lx).2.curr_token.type = TokenName ∧
      (lexer_get_token A lx).2.curr_token.num_chars = (name_run (unblank lx.rest)).length ∧
      1 ≤ (lexer_get_token A lx).2.curr_token.num_chars ∧
      (lexer_get_token A lx).2.curr_token.value = A.zero ∧
      (lexer_get_token A lx).2.pos = lx.next_index + (name_run (unblank lx.rest)).length ∧
      (lexer_get_token A lx).2.curr_token.start = lx.next_index % UNSIGNED_MOD ∧
      (lexer_get_token A lx).2.curr_token.end_ =
        (lx.next_index + (name_run (unblank lx.rest)).length) % UNSIGNED_MOD ∧
      (lx.input.length < UNSIGNED_MOD →
        (lexer_get_token A lx).2.curr_token.start = lx.next_index ∧
          (lexer_get_token A lx).2.curr_token.end_ = (lexer_get_token A lx).2.pos ∧
          (lexer_get_token A lx).2.curr_token.num_chars =
            (lexer_get_token A lx).2.curr_token.end_ -
              (lexer_get_token A lx).2.curr_token.start) ∧
      (lx.input.drop lx.next_index).take (name_run (unblank lx.rest)).length =
        name_run (unblank lx.rest) ∧
      isalpha ((lx.input.drop (lexer_get_token A lx).2.pos).headD NUL) = false ∧
      lexer_get_token A (Lexer.init A "sin2".toList) =
        (true, { Lexer.init A "sin2".toList with
          pos := 3
          curr_token :=
            { type := TokenName, value := A.zero, num_chars := 3, start := 0, end_ := 3 } }) ∧
      lexer_get_token A (lexer_get_token A (Lexer.init A "sin2".toList)).2 =
        (true, { Lexer.init A "sin2".toList with
          pos := 4
          curr_token :=
            { type := TokenNum, value := A.strtod "2".toList, num_chars := 1, start := 3,
              end_ := 4 } }) := by
  have hsplit : unblank lx.rest =
      name_run (unblank lx.rest) ++ (unblank lx.rest).dropWhile isalpha :=
    (List.takeWhile_append_dropWhile _ _).symm
  have hle := name_run_length_le (unblank lx.rest)
  rw [unblank_length] at hle
  have h0 : lx.next_char ≠ NUL := alpha_not_NUL hc
  have hlt := next_index_lt lx h0
  obtain ⟨cs, hu⟩ := unblank_of_next_char lx h0
  have h1 : 1 ≤ (name_run (unblank lx.rest)).length := by
    rw [hu]
    unfold name_run
    rw [List.takeWhile_cons_of_pos hc]
    simp
  rw [lexer_get_token_name A lx hc]
  refine ⟨rfl, rfl, rfl, h1, rfl, rfl, rfl, rfl, ?_, ?_, ?_, rfl, rfl⟩
  · intro hlen
    simp only []
    rw [Nat.mod_eq_of_lt (by omega), Nat.mod_eq_of_lt (by omega)]
    exact ⟨rfl, rfl, by omega⟩
  · rw [next_index_text]
    have h := List.take_left (name_run (unblank lx.rest)) ((unblank lx.rest).dropWhile isalpha)
    rw [← hsplit] at h
    exact h
  · simp only []
    rw [← List.drop_drop, next_index_text]
    have h := List.drop_left (name_run (unblank lx.rest)) ((unblank lx.rest).dropWhile isalpha)
    rw [← hsplit] at h
    rw [h]
    cases hd : (unblank lx.rest).dropWhile isalpha with
    | nil => exact isalpha_NUL
    | cons c cs2 =>
      have := List.head_dropWhile_not isalpha (unblank lx.rest) (by rw [hd]; simp)
      simpa [hd] using this

/-- C13 at the buffer `ab+1`: the token is a name of two characters and the
cursor is left on the `+`. -/
theorem C13_witness :
    (lexer_get_token Dbl.arith (Lexer.init Dbl.arith "ab+1".toList)).2.curr_token.type =
        TokenName ∧
      (lexer_get_token Dbl.arith (Lexer.init Dbl.arith "ab+1".toList)).2.pos = 2 :=
  ⟨(C13_name_token_spans_its_letters Dbl.arith (Lexer.init Dbl.arith "ab+1".toList)
      (by decide)).2.1,
    by decide⟩

/-- C14: whitespace before a token is insignificant.  For every buffer
`s1 ++ s2` with the cursor after `s1` and every text `w` of the characters
space, tab, newline, carriage return, bell and vertical tab, the call of
`lexer_get_token` on the buffer `s1 ++ w ++ s2` returns the same flag and the
same kind, value and `num_chars` of the token as on `s1 ++ s2`, and the
cursor is further by the length of `w`; so are `start` and `end` of a name or
number token, in a buffer whose indices fit these `unsigned` fields.  Hence
whitespace inserted between two tokens, that is after the end of a token and
before or within the whitespace `g` that follows it, does not change the
value `parse_expr` returns (where `strtod` stops at the first character that
cannot go on a numeral), and neither does whitespace before the first
token. -/
theorem C14_whitespace_before_a_token_is_insignificant {α : Type} (A : Arith α)
    (s1 s2 w g : List Char) (hw : ∀ c ∈ w, is_space c = true)
    (hg : ∀ c ∈ g, is_space c = true) :
    (∀ lx lx2 : Lexer α, lx.input = s1 ++ s2 → lx2.input = s1 ++ w ++ s2 →
        lx.pos = s1.length → lx2.pos = s1.length →
        (lexer_get_token A lx2).1 = (lexer_get_token A lx).1 ∧
          (lexer_get_token A lx2).2.curr_token.type =
            (lexer_get_token A lx).2.curr_token.type ∧
          (lexer_get_token A lx2).2.curr_token.value =
            (lexer_get_token A lx).2.curr_token.value ∧
          (lexer_get_token A lx2).2.curr_token.num_chars =
            (lexer_get_token A lx).2.curr_token.num_chars ∧
          (lexer_get_token A lx2).2.pos = (lexer_get_token A lx).2.pos + w.length ∧
          ((s1 ++ w ++ s2).length < UNSIGNED_MOD →
            ((lexer_get_token A lx).2.curr_token.type = TokenName ∨
              (lexer_get_token A lx).2.curr_token.type = TokenNum) →
            (lexer_get_token A lx2).2.curr_token.start =
                (lexer_get_token A lx).2.curr_token.start + w.length ∧
              (lexer_get_token A lx2).2.curr_token.end_ =
                (lexer_get_token A lx).2.curr_token.end_ + w.length)) ∧
      (reads_only_literal A → (s1 ++ g ++ w ++ s2).length < UNSIGNED_MOD →
        token_end A (s1 ++ g ++ s2) s1.length →
        evalValue A (s1 ++ g ++ w ++ s2) = evalValue A (s1 ++ g ++ s2)) ∧
      ((w ++ s2).length < UNSIGNED_MOD → evalValue A (w ++ s2) = evalValue A s2) := by
  refine ⟨?_, ?_, ?_⟩
  · intro lx lx2 h1 h2 hp1 hp2
    have r1 : lx.rest = s2 := by
      unfold Lexer.rest
      rw [h1, hp1, List.drop_left]
    have r2 : lx2.rest = w ++ s2 := by
      unfold Lexer.rest
      rw [h2, hp2, List.append_assoc, List.drop_left]
    have hrest : unblank lx2.rest = unblank lx.rest := by
      rw [r1, r2]
      exact unblank_spaces w s2 hw
    have hidx : lx2.next_index = lx.next_index + w.length := by
      unfold Lexer.next_index
      rw [r1, r2, blanks_spaces w s2 hw, hp1, hp2, List.length_append]
      omega
    have h := lexer_get_token_shift A lx lx2 w.length hrest hidx
    rw [h2] at h
    exact h
  · intro hA hlen hq
    simp only [List.append_assoc] at hlen hq ⊢
    exact evalValue_insert A hA s1 g w s2 hg hw hlen hq
  · intro hlen
    exact evalValue_leading A w s2 hw hlen

/-- C14 at the input `2+ 3` with two spaces inserted in the gap after the
`+`, the end of its second token: the value is 5 with and without them. -/
theorem C14_witness :
    evalValue Dbl.arith "2+   3".toList = evalValue Dbl.arith "2+ 3".toList ∧
      evalValue Dbl.arith "2+ 3".toList = some (Dbl.int 5) :=
  ⟨(C14_whitespace_before_a_token_is_insignificant Dbl.arith "2+".toList "3".toList
      "  ".toList " ".toList (by decide) (by decide)).2.1 Dbl.strtod_reads_only_literal
      (by decide) ⟨1, by decide, by decide⟩,
    by decide⟩

/-- C15: for every lexer state whose cursor is at most the length of the
buffer, the cursor after a call of `lexer_get_token`, whatever it returns, is
at least the old cursor and at most the length of the buffer; the buffer is
the same and no character the cursor has moved over is NUL, so the cursor
never passes the terminating NUL; and when the call returns true the cursor
has moved. -/
theorem C15_cursor_never_decreases_nor_passes_the_end {α : Type} (A : Arith α)
    (lx : Lexer α) (h : lx.pos ≤ lx.input.length) :
    lx.pos ≤ (lexer_get_token A lx).2.pos ∧
      (lexer_get_token A lx).2.pos ≤ lx.input.length ∧
      (lexer_get_token A lx).2.input = lx.input ∧
      (∀ i, lx.pos ≤ i → i < (lexer_get_token A lx).2.pos → charAt lx.input i ≠ NUL) ∧
      ((lexer_get_token A lx).1 = true → lx.pos < (lexer_get_token A lx).2.pos) := by
  have hs := lex_text_span (lx.input.drop lx.pos)
  rw [List.length_drop] at hs
  rw [lexer_get_token_eq_lex]
  simp only [assemble]
  refine ⟨by omega, by omega, trivial, fun i h1 h2 => ?_, fun hf => ?_⟩
  · obtain ⟨j, rfl⟩ : ∃ j, i = lx.pos + j := ⟨i - lx.pos, by omega⟩
    rw [charAt_drop]
    exact hs.2.1 j (by omega)
  · have := hs.2.2 hf
    omega

/-- C15 at the buffer `12 +` with the cursor at its start: the cursor moves
from 0 to 2. -/
theorem C15_witness :
    (0 : Nat) < (lexer_get_token Dbl.arith (Lexer.init Dbl.arith "12 +".toList)).2.pos ∧
      (lexer_get_token Dbl.arith (Lexer.init Dbl.arith "12 +".toList)).2.pos = 2 :=
  ⟨(C15_cursor_never_decreases_nor_passes_the_end Dbl.arith
      (Lexer.init Dbl.arith "12 +".toList) (by decide)).2.2.2.2 (by decide),
    by decide⟩

/-- C16 fails in the code: a text, followed by a character that is neither
alphanumeric nor a dot or by the end of the input, is accepted as one number
token exactly when it is a non-empty run of digits and dots with at most one
dot.  Every text of the grammar `[0-9]+ [ '.' [0-9]+ ] | [ [0-9]+ ] '.' [0-9]+`
is accepted, but so are `.`, which has no digit, and `1.`, which has no digit
after its dot; neither is a text of the grammar. -/
theorem C16_accepted_numbers_are_runs_with_one_dot {α : Type} (A : Arith α)
    (t post : List Char) (hp : ends_literal post) :
    (accepts_number A t post = true ↔ is_literal t = true) ∧
      (number_grammar t = true → accepts_number A t post = true) ∧
      (accepts_number A ".".toList post = true ∧ number_grammar ".".toList = false) ∧
      (accepts_number A "1.".toList post = true ∧ number_grammar "1.".toList = false) ∧
      (lexer_get_token A (Lexer.init A ".".toList)).2.curr_token =
        { type := TokenNum, value := A.strtod ".".toList, num_chars := 1, start := 0,
          end_ := 1 } := by
  have back : ∀ l : List Char, is_literal l = true → accepts_number A l post = true := by
    intro l hl
    have h := lexer_get_token_literal A (Lexer.init A (l ++ post)) [] l post rfl rfl hl hp
    simp only [accepts_number, Bool.and_eq_true, decide_eq_true_eq]
    rw [h]
    exact ⟨⟨⟨rfl, rfl⟩, rfl⟩, by simp [Lexer.init]⟩
  exact ⟨⟨accepts_is_literal A t post, back t⟩, fun hg => back t (grammar_is_literal t hg),
    ⟨back _ (by decide), by decide⟩, ⟨back _ (by decide), by decide⟩, rfl⟩

/-- C16 at the text `1.` followed by `+2`: it is accepted as one number
token, and it is no text of the grammar. -/
theorem C16_witness :
    accepts_number Dbl.arith "1.".toList "+2".toList = true ∧
      number_grammar "1.".toList = false ∧
      is_literal "1.".toList = true :=
  ⟨((C16_accepted_numbers_are_runs_with_one_dot Dbl.arith "1.".toList "+2".toList
      (by unfold ends_literal; decide)).2.2.2.1).1,
    by decide, by decide⟩

/-- C17 fails in the code: when the scan of a decimal literal meets a second
dot, `lexer_get_token` returns false with the cursor on that dot, not past it,
whereas a letter in the run is passed before the scan fails.  On `1.5.2` the
failing call leaves the cursor at index 3 and the next call starts at the
second dot and yields the number `.2`; on `1.5x2` the failing call leaves the
cursor at index 4, past the `x`. -/
theorem C17_second_dot_stays_under_the_cursor {α : Type} (A : Arith α) (lx : Lexer α)
    (a post : List Char) (hne : a ≠ []) (ha : ∀ c ∈ a, c.isDigit = true ∨ c = '.') :
    (a.count '.' = 1 → unblank lx.rest = a ++ '.' :: post →
        (lexer_get_token A lx).1 = false ∧
          (lexer_get_token A lx).2.pos = lx.next_index + a.length ∧
          charAt lx.input (lexer_get_token A lx).2.pos = '.') ∧
      (∀ x, a.count '.' ≤ 1 → isalpha x = true → unblank lx.rest = a ++ x :: post →
        (lexer_get_token A lx).1 = false ∧
          (lexer_get_token A lx).2.pos = lx.next_index + a.length + 1 ∧
          charAt lx.input ((lexer_get_token A lx).2.pos - 1) = x) ∧
      lexer_get_token A (Lexer.init A "1.5.2".toList) =
        (false, { Lexer.init A "1.5.2".toList with pos := 3 }) ∧
      lexer_get_token A { Lexer.init A "1.5.2".toList with pos := 3 } =
        (true, { Lexer.init A "1.5.2".toList with
          pos := 5
          curr_token :=
            { type := TokenNum, value := A.strtod ".2".toList, num_chars := 2, start := 3,
              end_ := 5 } }) ∧
      lexer_get_token A (Lexer.init A "1.5x2".toList) =
        (false, { Lexer.init A "1.5x2".toList with pos := 4 }) := by
  refine ⟨fun hc hu => ?_, fun x hc hx hu => ?_, rfl, rfl, rfl⟩
  · have hl := lex_text_accepted a ('.' :: post) hne ha (by omega)
    have hs : scan_decimal ('.' :: post) (decide (a.count '.' = 1)) = (false, 0) := by
      rw [hc]
      rfl
    rw [hs] at hl
    rw [lexer_get_token_flag, lexer_get_token_pos, hu, hl]
    refine ⟨rfl, rfl, ?_⟩
    rw [charAt_drop, next_index_text, hu]
    exact charAt_append_cons a post '.'
  · have hl := lex_text_accepted a (x :: post) hne ha hc
    have hs : ∀ b, scan_decimal (x :: post) b = (false, 1) := by
      intro b
      have hnd : ¬x.isDigit = true := by simp [alpha_not_digit hx]
      rw [scan_decimal, if_pos ⟨alpha_not_NUL hx, Or.inl (alpha_is_alnum hx)⟩, if_neg hnd,
        if_neg (alpha_ne_dot hx)]
    rw [hs] at hl
    rw [lexer_get_token_flag, lexer_get_token_pos, hu, hl]
    refine ⟨rfl, rfl, ?_⟩
    have e : lx.next_index + (a.length + (false, 1).2) - 1 = lx.next_index + a.length := rfl
    simp only []
    rw [e, charAt_drop, next_index_text, hu]
    exact charAt_append_cons a post x

/-- C17 at the buffer ` 3.14.15`: the failing call leaves the cursor at index
5, on the second dot. -/
theorem C17_witness :
    (lexer_get_token Dbl.arith (Lexer.init Dbl.arith " 3.14.15".toList)).2.pos = 1 + 4 ∧
      charAt " 3.14.15".toList 5 = '.' :=
  ⟨((C17_second_dot_stays_under_the_cursor Dbl.arith (Lexer.init Dbl.arith " 3.14.15".toList)
      "3.14".toList "15".toList (by decide) (by decide)).1 (by decide) (by decide)).2.1,
    by decide⟩

/-- C18: on a `TokenName` token that the chain of comparisons in `parse_term`
does not match, control falls into the delimiter case with `]` as the closing
kind: `parse_term` calls `parse_expr` at the token after the name, which
returns a value `v`; when the current token is then `]` it is consumed and
`v` is returned, and on any other token, `)` and the end of the input
included, nothing is consumed and `INFINITY` is returned. -/
theorem C18_unmatched_name_falls_into_the_delimiter_case {α : Type} (A : Arith α)
    (lx : Lexer α) (fuel : Nat) (hname : lx.curr_token.type = TokenName)
    (hno : table_lookup (lx.input.drop lx.curr_token.start) lx.curr_token.num_chars = none)
    (hfuel : fuelFor lx ≤ fuel) :
    parse_term A fuel lx =
        close_delim A TokenRBracket (parse_expr A (fuel - 1) (advance A lx)) ∧
      ∃ v lx1, parse_expr A (fuel - 1) (advance A lx) = some (v, lx1) ∧
        (lx1.curr_token.type = TokenRBracket →
          parse_term A fuel lx = some (v, advance A lx1)) ∧
        (lx1.curr_token.type ≠ TokenRBracket →
          parse_term A fuel lx = some (A.INFINITY, lx1)) := by
  obtain ⟨f, rfl⟩ : ∃ f, fuel = f + 1 := ⟨fuel - 1, by unfold fuelFor at hfuel; omega⟩
  have hlt := lexMeasure_advance_lt A lx (by rw [hname]; decide)
  obtain ⟨v, lx1, h, _⟩ := parse_expr_halts A (advance A lx) f
    (by unfold fuelFor at hfuel ⊢; omega)
  have hterm : parse_term A (f + 1) lx =
      close_delim A TokenRBracket (parse_expr A f (advance A lx)) := by
    rw [parse_term_name A f lx hname, advance_input, hno]
    rfl
  refine ⟨hterm, v, lx1, h, fun hb => ?_, fun hb => ?_⟩
  · rw [hterm, h]
    simp only [close_delim]
    rw [if_pos hb]
  · rw [hterm, h]
    simp only [close_delim]
    rw [if_neg hb]

/-- C18 at the input `x 5 ]`, where the name `x` is in no entry of the table:
the value is 5; and the inputs `x 5 )` and `x 5` give `INFINITY`. -/
theorem C18_witness :
    parse_term Dbl.arith (fuelFor (primed Dbl.arith "x 5 ]".toList))
        (primed Dbl.arith "x 5 ]".toList) =
        close_delim Dbl.arith TokenRBracket
          (parse_expr Dbl.arith (fuelFor (primed Dbl.arith "x 5 ]".toList) - 1)
            (advance Dbl.arith (primed Dbl.arith "x 5 ]".toList))) ∧
      evalValue Dbl.arith "x 5 ]".toList = some (Dbl.int 5) ∧
      evalValue Dbl.arith "x 5 )".toList = some Dbl.pinf ∧
      evalValue Dbl.arith "x 5".toList = some Dbl.pinf :=
  ⟨(C18_unmatched_name_falls_into_the_delimiter_case Dbl.arith
      (primed Dbl.arith "x 5 ]".toList) _ (by decide) (by decide) (le_refl _)).1,
    by decide, by decide, by decide⟩

/-- C19: for every lexer state, whatever its current token was, when
`lexer_get_token` returns false the current token afterwards is the all-zero
token: kind `TokenInvalid`, value 0, `num_chars`, `start` and `end` 0.  So
after a lexical failure and at the end of the input the parser sees a
`TokenInvalid` lookahead and no stale token. -/
theorem C19_failed_call_leaves_the_zero_token {α : Type} (A : Arith α) (lx : Lexer α)
    (h : (lexer_get_token A lx).1 = false) :
    (lexer_get_token A lx).2.curr_token = Token.zeroed A ∧
      (advance A lx).curr_token.type = TokenInvalid ∧
      (advance A lx).curr_token.value = A.zero ∧
      (advance A lx).curr_token.num_chars = 0 ∧
      (advance A lx).curr_token.start = 0 ∧
      (advance A lx).curr_token.end_ = 0 := by
  have ht := lexer_get_token_tok_fail A lx h
  unfold advance
  rw [ht]
  exact ⟨rfl, rfl, rfl, rfl, rfl, rfl⟩

/-- C19 at a lexer whose current token is the number 7 and whose cursor is
before ` $`: the call fails and the token is reset. -/
theorem C19_witness :
    (lexer_get_token Dbl.arith
        { curr_token :=
            { type := TokenNum, value := Dbl.int 7, num_chars := 1, start := 0, end_ := 1 }
          input := "7 $".toList, input_len := 4, pos := 1 }).2.curr_token =
      Token.zeroed Dbl.arith :=
  (C19_failed_call_leaves_the_zero_token Dbl.arith
    { curr_token :=
        { type := TokenNum, value := Dbl.int 7, num_chars := 1, start := 0, end_ := 1 }
      input := "7 $".toList, input_len := 4, pos := 1 } (by decide)).1

/-- C20: an unrecognised character truncates the input.  For every text `s`,
every character `c` that is not NUL, no whitespace, none of `+ - * / ^ ( ) [ ]`,
no digit, no dot and no letter, and every text `t`, evaluating the buffer
`s ++ [c] ++ t` gives the value that evaluating `s` gives, where `strtod`
stops at the first character that cannot go on a numeral.  The reason is that
a call of `lexer_get_token` at a cursor up to `c` leaves the cursor at or
before `c`, and finds the token it would find if the text ended before `c`. -/
theorem C20_unrecognised_character_truncates_the_input {α : Type} (A : Arith α)
    (hA : reads_only_literal A) (s t : List Char) (c : Char) (hc : unrecognised c = true) :
    evalValue A (s ++ c :: t) = evalValue A s ∧
      (∀ lx lx2 : Lexer α, lx.input = s → lx2.input = s ++ c :: t → lx.pos ≤ s.length →
        lx2.pos = lx.pos →
        (lexer_get_token A lx2).1 = (lexer_get_token A lx).1 ∧
          (lexer_get_token A lx2).2.pos = (lexer_get_token A lx).2.pos ∧
          (lexer_get_token A lx2).2.pos ≤ s.length ∧
          (lexer_get_token A lx2).2.curr_token = (lexer_get_token A lx).2.curr_token) := by
  constructor
  · have hL := truncRel_lockstep A hA s t c hc
    have h0 := (hL _ _ (truncRel_init A s (c :: t))).2
    exact (parse_expr_sim A _ hL _ _ h0).symm
  · intro lx lx2 h1 h2 hle hpos
    have hp : SamePrefix { lx with curr_token := Token.zeroed A }
        { lx2 with curr_token := Token.zeroed A } :=
      ⟨hpos, rfl, by simp only [h1, h2]; exact List.take_append_of_le_length hle,
        fun h => TokenType.noConfusion h, by simp only [h1]; exact hle,
        by simp only [h2, List.length_append]; omega⟩
    have hstep := (truncRel_lockstep A hA s t c hc _ _ ⟨hp, h1, h2⟩).2.1
    have hrest : lx2.rest = lx.rest ++ c :: t := by
      unfold Lexer.rest
      rw [hpos, h1, h2]
      exact List.drop_append_of_le_length hle
    have hspan := (lex_text_span lx.rest).1
    have hlen : lx.rest.length = s.length - lx.pos := by
      unfold Lexer.rest
      rw [h1]
      exact List.length_drop _ _
    have e1 : lexer_get_token A lx =
        lexer_get_token A { lx with curr_token := Token.zeroed A } := rfl
    have e2 : lexer_get_token A lx2 =
        lexer_get_token A { lx2 with curr_token := Token.zeroed A } := rfl
    refine ⟨?_, ?_, ?_, ?_⟩
    · rw [lexer_get_token_eq_lex, lexer_get_token_eq_lex]
      simp only [assemble]
      change (lex_text lx2.rest).flag = (lex_text lx.rest).flag
      rw [hrest, lex_text_term c t hc]
    · rw [e1, e2]
      exact hstep.pos_eq
    · rw [e2, show (lexer_get_token A { lx2 with curr_token := Token.zeroed A }).2.pos =
        (lexer_get_token A { lx with curr_token := Token.zeroed A }).2.pos from hstep.pos_eq,
        lexer_get_token_eq_lex]
      simp only [assemble]
      change lx.pos + (lex_text lx.rest).ws + (lex_text lx.rest).len ≤ s.length
      omega
    · rw [e1, e2]
      exact hstep.tok_eq

/-- C20 at the buffer `2+3$4`: it evaluates to 5, as `2+3` does. -/
theorem C20_witness :
    evalValue Dbl.arith "2+3$4".toList = evalValue Dbl.arith "2+3".toList ∧
      evalValue Dbl.arith "2+3".toList = some (Dbl.int 5) :=
  ⟨(C20_unrecognised_character_truncates_the_input Dbl.arith Dbl.strtod_reads_only_literal
      "2+3".toList "4".toList '$' (by decide)).1,
    by decide⟩

end Calc
